import Mathlib

/-!
LSM-tree storage engine: embedding of the Go sources and verified properties.

The development follows the packages of `backend/internal`:

* `tree`     : `string-comparable.go`, `avl.go`
* `memtable` : `memtable.go`
* `wal`      : `wal.go`
* `sstable`  : `sstable.go`, `manager.go`
* `lsm`      : `lsm.go`
* `compaction` : `compaction.go`, with the scanner of `sstable/scanner.go`
* `lsmtree`  : `bloom-filter.go`, `lsmtree.go`

Pointer-mutating Go code is written as functions from the old value to the new one.
A Go runtime panic (nil dereference, negative `make`) is the result `none` of an
`Option`-valued function.  A Go `error` result is an `Option Error` next to the new state.
-/

set_option autoImplicit false
set_option maxRecDepth 8000

/-- One byte. -/
abbrev Byte := Fin 256

/-- The Go type `string`: an immutable sequence of bytes. -/
abbrev GoString := List Byte

namespace tree

/-- Go's `<` on two strings: bytewise lexicographic comparison. -/
def strLess : GoString → GoString → Bool
  | [], [] => false
  | [], _ :: _ => true
  | _ :: _, [] => false
  | a :: as, b :: bs => if a < b then true else if b < a then false else strLess as bs

/-- `StringComparable.Compare` of `string-comparable.go`: -1, 1 or 0. -/
def Compare (s other : GoString) : Int :=
  if strLess s other then -1
  else if strLess other s then 1
  else 0

/-- `StringComparable.Length`. -/
def Length (s : GoString) : Nat := s.length

/-- The struct `AVLNode` of `avl.go`; `nil` is the nil pointer. -/
inductive AVLNode where
  | nil : AVLNode
  | node (Key : GoString) (Value : GoString) (Left Right : AVLNode) (Height : Int) : AVLNode
  deriving DecidableEq, Repr

open AVLNode

/-- `height`: 0 for nil, the stored `Height` field otherwise. -/
def height : AVLNode → Int
  | nil => 0
  | node _ _ _ _ h => h

/-- The local function `max` of `avl.go`. -/
def max (a b : Int) : Int := if a > b then a else b

/-- `balanceFactor`: 0 for nil, else `height(Left) - height(Right)`. -/
def balanceFactor : AVLNode → Int
  | nil => 0
  | node _ _ l r _ => height l - height r

/-- `updateHeight`: stores `1 + max(height(Left), height(Right))`.  The Go code is only
ever handed a non-nil node; nil is left as it is. -/
def updateHeight : AVLNode → AVLNode
  | nil => nil
  | node k v l r _ => node k v l r (1 + max (height l) (height r))

/-- `rightRotate`.  `n1 := node.Left` and `n1.Right` dereference `n1`: a nil `Left`
(or a nil `node`) is a nil-pointer panic, `none`. -/
def rightRotate : AVLNode → Option AVLNode
  | node k v (node k1 v1 l1 n2 h1) r h =>
    some (updateHeight (node k1 v1 l1 (updateHeight (node k v n2 r h)) h1))
  | _ => none

/-- `leftRotate`, the mirror image of `rightRotate`. -/
def leftRotate : AVLNode → Option AVLNode
  | node k v l (node k1 v1 n2 r1 h1) h =>
    some (updateHeight (node k1 v1 (updateHeight (node k v l n2 h)) r1 h1))
  | _ => none

/-- `balance`.  Called with a non-nil node; on nil both balance factors are 0 and the
node is returned. -/
def balance : AVLNode → Option AVLNode
  | nil => some nil
  | node k v l r h =>
    if balanceFactor (node k v l r h) > 1 then
      if balanceFactor l < 0 then
        (leftRotate l).bind fun l' => rightRotate (node k v l' r h)
      else rightRotate (node k v l r h)
    else if balanceFactor (node k v l r h) < -1 then
      if balanceFactor r > 0 then
        (rightRotate r).bind fun r' => leftRotate (node k v l r' h)
      else leftRotate (node k v l r h)
    else some (node k v l r h)

/-- `insert`. -/
def insert : AVLNode → GoString → GoString → Option AVLNode
  | nil, key, value => some (node key value nil nil 1)
  | node k v l r h, key, value =>
    if Compare key k < 0 then
      (insert l key value).bind fun l' => balance (updateHeight (node k v l' r h))
    else if Compare key k > 0 then
      (insert r key value).bind fun r' => balance (updateHeight (node k v l r' h))
    else some (node key value l r h)

/-- `minValueNode`: follows `Left` pointers to the leftmost node.  It is called on a
non-nil node only. -/
def minValueNode : AVLNode → AVLNode
  | nil => nil
  | node k v nil r h => node k v nil r h
  | node _ _ (node k1 v1 l1 r1 h1) _ _ => minValueNode (node k1 v1 l1 r1 h1)

/-- `delete`.  In the two-children case the source takes `minValueNode(node)`, the
leftmost node below `node` itself, copies its key and value into `node` and then
deletes that key from `node.Right`. -/
def delete : AVLNode → GoString → Option AVLNode
  | nil, _ => some nil
  | node k v l r h, key =>
    if Compare key k < 0 then
      (delete l key).bind fun l' => balance (updateHeight (node k v l' r h))
    else if Compare key k > 0 then
      (delete r key).bind fun r' => balance (updateHeight (node k v l r' h))
    else if l = nil then some r
    else if r = nil then some l
    else
      match minValueNode (node k v l r h) with
      | nil => none
      | node tk tv _ _ _ =>
        (delete r tk).bind fun r' => balance (updateHeight (node tk tv l r' h))

/-- `search`: `some v` stands for the Go result `(v, true)`, `none` for `(nil, false)`. -/
def search : AVLNode → GoString → Option GoString
  | nil, _ => none
  | node k v l r _, key =>
    if Compare key k = 0 then some v
    else if Compare key k < 0 then search l key
    else search r key

/-- `inOrderTraversal`: the callback `visit` acts on a state of type `σ`. -/
def inOrderTraversal {σ : Type} : AVLNode → (σ → GoString → GoString → σ) → σ → σ
  | nil, _, s => s
  | node k v l r _, visit, s =>
    inOrderTraversal r visit (visit (inOrderTraversal l visit s) k v)

/-- The struct `AVLTree`. -/
structure AVLTree where
  Root : AVLNode
  deriving DecidableEq, Repr

/-- `NewAVLTree`. -/
def NewAVLTree : AVLTree := ⟨nil⟩

/-- `AVLTree.Insert`: always reports `true`. -/
def AVLTree.Insert (t : AVLTree) (key value : GoString) : Option (AVLTree × Bool) :=
  (insert t.Root key value).map fun n => (⟨n⟩, true)

/-- `AVLTree.Delete`: always reports `false`. -/
def AVLTree.Delete (t : AVLTree) (key : GoString) : Option (AVLTree × Bool) :=
  (delete t.Root key).map fun n => (⟨n⟩, false)

/-- `AVLTree.Search`. -/
def AVLTree.Search (t : AVLTree) (key : GoString) : Option GoString :=
  search t.Root key

/-- `AVLTree.InOrderTraversal`. -/
def AVLTree.InOrderTraversal {σ : Type} (t : AVLTree)
    (visit : σ → GoString → GoString → σ) (s : σ) : σ :=
  inOrderTraversal t.Root visit s

end tree

namespace tree
open AVLNode

/-- The AVL shape invariant on the stored heights: every `Height` field equals
`1 + max` of the children's heights and sibling heights differ by at most one.  It says
nothing about the order of the keys. -/
def Avl : AVLNode → Prop
  | nil => True
  | node _ _ l r h =>
    Avl l ∧ Avl r ∧ h = 1 + max (height l) (height r) ∧
      height l - height r ≤ 1 ∧ height r - height l ≤ 1

/-- The side of the root on which `key` lies is strictly the taller one. -/
def SideTaller : AVLNode → GoString → Prop
  | nil, _ => False
  | node k _ l r _, key =>
    (Compare key k < 0 ∧ height r < height l) ∨ (Compare key k > 0 ∧ height l < height r)

end tree

namespace tree
open AVLNode

/-- The keys of a tree from left to right, as `inOrderTraversal` visits them. -/
def keys : AVLNode → List GoString
  | nil => []
  | node k _ l r _ => keys l ++ k :: keys r

/-- The search-tree order: at every node the keys of the left subtree are smaller than the
node's key and the keys of the right subtree are larger. -/
def Bst : AVLNode → Prop
  | nil => True
  | node k _ l r _ =>
    Bst l ∧ Bst r ∧ (∀ x ∈ keys l, strLess x k = true) ∧ (∀ x ∈ keys r, strLess k x = true)

end tree

/-- The Go `error` values the modelled code can produce.  The wrapping constructors stand
for the `fmt.Errorf("...: %v", err)` calls of `wal.go`. -/
inductive Error where
  /-- `os.ErrClosed`: the file was closed before. -/
  | fileClosed
  /-- `EBADF`: a read on a descriptor that was not opened for reading. -/
  | badFileDescriptor
  /-- `io.EOF`. -/
  | eof
  /-- `io.ErrUnexpectedEOF`. -/
  | unexpectedEOF
  /-- The error of a failed `os.OpenFile` or `os.Create`. -/
  | openFailed
  /-- "failed to open WAL file". -/
  | walOpen (e : Error)
  /-- "failed to write operation type". -/
  | writeOpType (e : Error)
  /-- "failed to get WAL file info". -/
  | fileInfo (e : Error)
  /-- "failed to read operation type from WAL". -/
  | readOpType (e : Error)
  /-- "failed to read key length from WAL". -/
  | readKeyLen (e : Error)
  /-- "failed to read key from WAL". -/
  | readKey (e : Error)
  /-- "failed to read value length from WAL". -/
  | readValueLen (e : Error)
  /-- "failed to read value from WAL". -/
  | readValue (e : Error)
  /-- "failed to apply WAL entry". -/
  | applyEntry (e : Error)
  deriving DecidableEq, Repr

/-- How a Go call that reports an `error` ends: it returns, leaving the state `s` and the
error `err` (`none` is the nil error), or it panics. -/
inductive Outcome (σ : Type) where
  | returned (s : σ) (err : Option Error)
  | panicked
  deriving DecidableEq

/-- The call returned the nil error. -/
def Outcome.ok {σ : Type} : Outcome σ → Bool
  | .returned _ none => true
  | _ => false

/-- The byte with value `n mod 256`. -/
def byteOf (n : Nat) : Byte := ⟨n % 256, Nat.mod_lt _ (by decide)⟩

/-- Conversion to `int64`: wrap-around into `[-2^63, 2^63)`. -/
def wrapInt64 (x : Int) : Int := (x + 2 ^ 63) % 2 ^ 64 - 2 ^ 63

namespace memtable

/-- The struct `Memtable`.  The field `flushChan` is a channel shared with the engine; it
is kept in the engine state and handed to `Put`. -/
structure Memtable where
  tree : tree.AVLTree
  size : Int
  maxSize : Int
  deriving DecidableEq, Repr

/-- `NewMemTable`. -/
def NewMemTable (maxSize : Int) : Memtable :=
  { tree := tree.NewAVLTree, size := 0, maxSize := maxSize }

/-- `Memtable.Put`.  `flushChan` is the number of values waiting in the flush channel;
the send `m.flushChan <- m` adds one (the receiver never looks at the value sent).  A send
that would block, because the channel of capacity 1 is full and nobody receives, is not
represented: the model describes the calls that return.  The key is a `StringComparable`
by its type, so the type assertion of the source cannot fail. -/
def Memtable.Put (m : Memtable) (flushChan : Nat) (key value : GoString) :
    Option (Memtable × Nat × Bool) :=
  match m.tree.Insert key value with
  | none => none
  | some (t, true) =>
    let size := wrapInt64 (m.size + wrapInt64 ((tree.Length key + value.length : Nat) : Int))
    let m' : Memtable := { m with tree := t, size := size }
    if size ≥ m.maxSize then some (m', flushChan + 1, true)
    else some (m', flushChan, true)
  | some (_, false) => some (m, flushChan, false)

/-- `Memtable.Get`. -/
def Memtable.Get (m : Memtable) (key : GoString) : Option GoString :=
  m.tree.Search key

/-- `Memtable.Delete`. -/
def Memtable.Delete (m : Memtable) (key : GoString) : Option (Memtable × Bool) :=
  (m.tree.Delete key).map fun p => ({ m with tree := p.1 }, p.2)

/-- `Memtable.InOrderTraversal`. -/
def Memtable.InOrderTraversal {σ : Type} (m : Memtable)
    (visit : σ → GoString → GoString → σ) (s : σ) : σ :=
  m.tree.InOrderTraversal visit s

end memtable

namespace wal

/-- An `*os.File` on the log: the bytes of the file, whether the handle was closed, and
whether it was opened for reading. -/
structure File where
  data : List Byte
  closed : Bool
  readable : Bool
  deriving DecidableEq, Repr

/-- The struct `WAL`.  `writerErr` is the sticky error of the `bufio.Writer`; between two
calls the writer holds no unflushed bytes unless that error is set, so its buffer is
local to each call. -/
structure WAL where
  file : File
  writerErr : Option Error
  deriving DecidableEq, Repr

/-- `NewWAL`.  `opened` is the answer of `os.OpenFile`: `none` when it fails, otherwise the
present contents of the file (empty when it was just created).  The flags are
`os.O_APPEND|os.O_CREATE|os.O_WRONLY`: the handle is write-only. -/
def NewWAL (opened : Option (List Byte)) : Except Error WAL :=
  match opened with
  | none => .error (.walOpen .openFailed)
  | some bytes =>
    .ok { file := { data := bytes, closed := false, readable := false }, writerErr := none }

/-- `binary.Write(w, binary.LittleEndian, uint32(n))`: the four bytes of `n mod 2^32`,
least significant first. -/
def u32le (n : Nat) : List Byte :=
  let m := n % 2 ^ 32
  [byteOf m, byteOf (m / 2 ^ 8), byteOf (m / 2 ^ 16), byteOf (m / 2 ^ 24)]

/-- The bytes `AppendPut` hands to its writer, in the order of the calls `WriteByte(1)`,
`binary.Write(uint32(len(key)))`, `WriteString(key)`, `binary.Write(uint32(len(value)))`,
`WriteString(value)`. -/
def putBytes (key value : GoString) : List Byte :=
  [(1 : Byte)] ++ u32le key.length ++ key ++ u32le value.length ++ value

/-- The bytes `AppendDelete` hands to its writer: `WriteByte(2)`,
`binary.Write(uint32(len(key)))`, `WriteString(key)`. -/
def deleteBytes (key : GoString) : List Byte :=
  [(2 : Byte)] ++ u32le key.length ++ key

/-- `bufio.Writer.Flush` of the buffered bytes `buf` into the file: a closed file refuses
the write and the error sticks to the writer. -/
def flush (w : WAL) (buf : List Byte) : WAL × Option Error :=
  if w.file.closed then ({ w with writerErr := some .fileClosed }, some .fileClosed)
  else ({ w with file := { w.file with data := w.file.data ++ buf } }, none)

/-- `WAL.AppendPut`.  With the sticky error set, the first call `WriteByte(1)` fails and
its error is wrapped; otherwise the writes are buffered and `Flush` decides. -/
def WAL.AppendPut (w : WAL) (key value : GoString) : WAL × Option Error :=
  match w.writerErr with
  | some e => (w, some (.writeOpType e))
  | none => flush w (putBytes key value)

/-- `WAL.AppendDelete`. -/
def WAL.AppendDelete (w : WAL) (key : GoString) : WAL × Option Error :=
  match w.writerErr with
  | some e => (w, some (.writeOpType e))
  | none => flush w (deleteBytes key)

/-- `WAL.Close`: flush the writer, then close the file. -/
def WAL.Close (w : WAL) : WAL × Option Error :=
  match w.writerErr with
  | some e => (w, some e)
  | none =>
    if w.file.closed then (w, some .fileClosed)
    else ({ w with file := { w.file with closed := true } }, none)

/-- The value of four little-endian bytes. -/
def leValue : List Byte → Nat
  | [] => 0
  | b :: bs => b.val + 256 * leValue bs

/-- `binary.Read(reader, binary.LittleEndian, &n)` for a `uint32`: `io.ReadFull` of four
bytes.  No byte left is `io.EOF`, one to three bytes are `io.ErrUnexpectedEOF`. -/
def readUint32 (bs : List Byte) : Except Error (Nat × List Byte) :=
  if 4 ≤ bs.length then .ok (leValue (bs.take 4), bs.drop 4)
  else if bs = [] then .error .eof
  else .error .unexpectedEOF

/-- `io.ReadFull(reader, buf)` with `len(buf) = n`. -/
def readFull (n : Nat) (bs : List Byte) : Except Error (List Byte × List Byte) :=
  if n ≤ bs.length then .ok (bs.take n, bs.drop n)
  else if bs = [] then .error .eof
  else .error .unexpectedEOF

/-- The `for` loop of `WAL.Replay` over the unread bytes `bs`.  The callback acts on a
state `σ`; it returns the new state and its error, or `none` when it panics.  Each round
consumes at least the operation byte, so `fuel` above the number of bytes is never used
up; the result `none` says the fuel ran out. -/
def replayLoop {σ : Type} (applyFunc : σ → Byte → GoString → GoString → Option (σ × Option Error)) :
    Nat → List Byte → σ → Option (Outcome σ)
  | 0, _, _ => none
  | _ + 1, [], s => some (.returned s none)
  | fuel + 1, opType :: rest, s =>
    match readUint32 rest with
    | .error e => some (.returned s (some (.readKeyLen e)))
    | .ok (keyLen, rest1) =>
      match readFull keyLen rest1 with
      | .error e => some (.returned s (some (.readKey e)))
      | .ok (key, rest2) =>
        if opType = 1 then
          match readUint32 rest2 with
          | .error e => some (.returned s (some (.readValueLen e)))
          | .ok (valueLen, rest3) =>
            match readFull valueLen rest3 with
            | .error e => some (.returned s (some (.readValue e)))
            | .ok (value, rest4) =>
              match applyFunc s opType key value with
              | none => some .panicked
              | some (s', some e) => some (.returned s' (some (.applyEntry e)))
              | some (s', none) => replayLoop applyFunc fuel rest4 s'
        else
          match applyFunc s opType key [] with
          | none => some .panicked
          | some (s', some e) => some (.returned s' (some (.applyEntry e)))
          | some (s', none) => replayLoop applyFunc fuel rest2 s'

/-- `WAL.Replay`.  `Stat` fails on a closed file; an empty file returns at once; the first
`ReadByte` on a handle that is not open for reading fails with `EBADF`, which is not
`io.EOF`. -/
def WAL.Replay {σ : Type} (w : WAL)
    (applyFunc : σ → Byte → GoString → GoString → Option (σ × Option Error)) (s : σ) :
    Option (Outcome σ) :=
  if w.file.closed then some (.returned s (some (.fileInfo .fileClosed)))
  else if w.file.data.length = 0 then some (.returned s none)
  else if w.file.readable = false then
    some (.returned s (some (.readOpType .badFileDescriptor)))
  else replayLoop applyFunc (w.file.data.length + 1) w.file.data s

/-- A mutation as it is logged. -/
inductive Record where
  | put (key value : GoString)
  | delete (key : GoString)
  deriving DecidableEq, Repr

/-- The bytes the matching append call writes for a record. -/
def Record.bytes : Record → List Byte
  | .put key value => putBytes key value
  | .delete key => deleteBytes key

/-- The lengths of a record fit the 32-bit length fields. -/
def Record.Fits : Record → Prop
  | .put key value => key.length < 2 ^ 32 ∧ value.length < 2 ^ 32
  | .delete key => key.length < 2 ^ 32

/-- The append call for a record. -/
def WAL.Append (w : WAL) : Record → WAL × Option Error
  | .put key value => w.AppendPut key value
  | .delete key => w.AppendDelete key

/-- The arguments with which `Replay` is to call the callback for a record. -/
def Record.call : Record → Byte × GoString × GoString
  | .put key value => (1, key, value)
  | .delete key => (2, key, [])

/-- A callback that never fails: it only transforms the state. -/
def pureApply {σ : Type} (step : σ → Byte → GoString → GoString → σ) :
    σ → Byte → GoString → GoString → Option (σ × Option Error) :=
  fun s op key value => some (step s op key value, none)

/-- The state after the callback `step` was called once per record, in order. -/
def applyRecords {σ : Type} (step : σ → Byte → GoString → GoString → σ)
    (records : List Record) (s : σ) : σ :=
  records.foldl (fun s r => step s r.call.1 r.call.2.1 r.call.2.2) s

/-- The log `NewWAL` returns when the file is created empty. -/
def newLog : WAL :=
  { file := { data := [], closed := false, readable := false }, writerErr := none }

/-- The callback that writes down its arguments. -/
def recordCall (calls : List (Byte × GoString × GoString)) (op : Byte) (key value : GoString) :
    List (Byte × GoString × GoString) :=
  calls ++ [(op, key, value)]

end wal

namespace sstable

/-- The names of the files the engine creates.  `sstable n` is the result of
`fmt.Sprintf("sstable_%d.db", n)`, kept as its number (the decimal rendering is
one-to-one); `output` is the compactor's `"output.sst"`. -/
inductive FileName where
  | sstable (n : Nat)
  | output
  deriving DecidableEq, Repr

/-- The directory the engine runs in: the contents of each file that exists, and the names
on which `os.Create` fails. -/
structure FS where
  files : FileName → Option (List Byte)
  denied : FileName → Bool

/-- The result of writing a whole file `name`. -/
def FS.put (fs : FS) (name : FileName) (bytes : List Byte) : FS :=
  { fs with files := fun n => if n = name then some bytes else fs.files n }

/-- An empty directory in which every file can be created. -/
def FS.empty : FS := { files := fun _ => none, denied := fun _ => false }

/-- A Go `map[string]string` as the list of its entries; the keys of a map are distinct. -/
abbrev GoMap := List (GoString × GoString)

/-- The assignment `m[key] = value`. -/
def GoMap.set : GoMap → GoString → GoString → GoMap
  | [], key, value => [(key, value)]
  | (k, v) :: rest, key, value =>
    if k = key then (key, value) :: rest else (k, v) :: GoMap.set rest key value

/-- The lookup `m[key]` with its presence flag. -/
def GoMap.get : GoMap → GoString → Option GoString
  | [], _ => none
  | (k, v) :: rest, key => if k = key then some v else GoMap.get rest key

/-- The order in which one `for key, value := range data` loop yields the entries of a
map: some rearrangement of the entries, chosen by the Go runtime. -/
structure RangeOrder where
  order : GoMap → List (GoString × GoString)
  perm : ∀ m, (order m).Perm m

/-- The range order that yields the entries as they are listed. -/
def RangeOrder.id : RangeOrder := ⟨fun m => m, fun _ => List.Perm.refl _⟩

/-- The range order that yields the entries back to front. -/
def RangeOrder.reverse : RangeOrder := ⟨fun m => m.reverse, fun m => List.reverse_perm m⟩

/-- The struct `SSTable`.  The maps `readCounts` and `lastReadTimes` hold read statistics
(a counter and a wall-clock time per key); no result of `Write` or `Read` depends on them
and they are left out.  `index` maps a key to the offset of its entry. -/
structure SSTable where
  filename : FileName
  index : GoString → Option Nat
  size : Int

/-- `NewSSTable`. -/
def NewSSTable (filename : FileName) : SSTable :=
  { filename := filename, index := fun _ => none, size := 0 }

/-- `SSTable.Size`. -/
def SSTable.Size (sst : SSTable) : Int := sst.size

/-- `binary.Write(file, binary.LittleEndian, n)` for an `int64` that holds a length: the
eight bytes of `n mod 2^64`, least significant first. -/
def i64le (n : Nat) : List Byte :=
  let m := n % 2 ^ 64
  [byteOf m, byteOf (m / 2 ^ 8), byteOf (m / 2 ^ 16), byteOf (m / 2 ^ 24),
   byteOf (m / 2 ^ 32), byteOf (m / 2 ^ 40), byteOf (m / 2 ^ 48), byteOf (m / 2 ^ 56)]

/-- The bytes one round of the loop of `Write` puts into the file. -/
def entryBytes (key value : GoString) : List Byte :=
  i64le key.length ++ i64le value.length ++ key ++ value

/-- One round of the loop of `SSTable.Write`: the file written so far, the index and the
running offset. -/
def writeStep (acc : List Byte × (GoString → Option Nat) × Nat) (e : GoString × GoString) :
    List Byte × (GoString → Option Nat) × Nat :=
  (acc.1 ++ entryBytes e.1 e.2,
   fun k => if k = e.1 then some acc.2.2 else acc.2.1 k,
   acc.2.2 + (8 + 8 + e.1.length + e.2.length))

/-- `SSTable.Write`.  `os.Create` truncates the file; the entries follow in the order in
which the range loop yields them.  The results of the writes into the file are not checked
by the source and are taken to succeed. -/
def SSTable.Write (sst : SSTable) (fs : FS) (data : GoMap) (range : RangeOrder) :
    SSTable × FS × Option Error :=
  if fs.denied sst.filename then (sst, fs, some .openFailed)
  else
    let acc := (range.order data).foldl writeStep ([], sst.index, 0)
    ({ sst with index := acc.2.1, size := sst.size + acc.2.2 },
     fs.put sst.filename acc.1, none)

/-- The `int64` stored in eight little-endian bytes. -/
def int64Value (bs : List Byte) : Int :=
  if wal.leValue bs < 2 ^ 63 then (wal.leValue bs : Int) else (wal.leValue bs : Int) - 2 ^ 64

/-- `binary.Read(file, binary.LittleEndian, &n)` for an `int64` whose error is ignored:
with fewer than eight bytes left the variable keeps its zero value and the file is read
to its end. -/
def readInt64 (bs : List Byte) : Int × List Byte :=
  if 8 ≤ bs.length then (int64Value (bs.take 8), bs.drop 8) else (0, [])

/-- `file.Read(buf)` into a fresh buffer of `n` zero bytes: the bytes that are there,
up to `n` of them, followed by the zeros that stay. -/
def fileRead (n : Nat) (bs : List Byte) : List Byte × List Byte :=
  (bs.take n ++ List.replicate (n - bs.length) 0, bs.drop n)

/-- `SSTable.Read`, as `some (value, found)`; `none` is the panic of `make` on a negative
length.  A key outside the index, or a file that cannot be opened, gives `("", false)`. -/
def SSTable.Read (sst : SSTable) (fs : FS) (key : GoString) : Option (GoString × Bool) :=
  match sst.index key with
  | none => some ([], false)
  | some offset =>
    match fs.files sst.filename with
    | none => some ([], false)
    | some bytes =>
      let r0 := bytes.drop offset
      let (keySize, r1) := readInt64 r0
      let (valueSize, r2) := readInt64 r1
      if keySize < 0 ∨ valueSize < 0 then none
      else
        let (_, r3) := fileRead keySize.toNat r2
        let (valueBytes, _) := fileRead valueSize.toNat r3
        some (valueBytes, true)

/-- The struct `SSTableManager`: the runs, oldest first. -/
structure SSTableManager where
  tables : List SSTable

/-- `NewSSTableManager`. -/
def NewSSTableManager : SSTableManager := ⟨[]⟩

/-- `SSTableManager.CreateSSTable`. -/
def SSTableManager.CreateSSTable (m : SSTableManager) (fs : FS) (data : GoMap)
    (range : RangeOrder) : SSTableManager × FS × Option Error :=
  let sst := NewSSTable (.sstable m.tables.length)
  match sst.Write fs data range with
  | (_, _, some e) => (m, fs, some e)
  | (sst', fs', none) => (⟨m.tables ++ [sst']⟩, fs', none)

/-- `SSTableManager.GetSSTables`: a copy of the list. -/
def SSTableManager.GetSSTables (m : SSTableManager) : List SSTable := m.tables

/-- The loop of `SSTableManager.Read` over the tables still to visit, given newest first. -/
def readNewestFirst (fs : FS) (key : GoString) : List SSTable → Option (GoString × Bool)
  | [] => some ([], false)
  | sst :: older =>
    match sst.Read fs key with
    | none => none
    | some (value, true) => some (value, true)
    | some (_, false) => readNewestFirst fs key older

/-- `SSTableManager.Read`: the index runs from `len(m.tables) - 1` down to 0. -/
def SSTableManager.Read (m : SSTableManager) (fs : FS) (key : GoString) :
    Option (GoString × Bool) :=
  readNewestFirst fs key m.tables.reverse

end sstable

namespace compaction

/-- The struct `Compactor`; the manager it points to is the engine's.  `stopChanClosed`
records whether `stopChan` was closed. -/
structure Compactor where
  minThreshold : Int
  gcBefore : Int
  stopChanClosed : Bool
  deriving DecidableEq, Repr

/-- `NewCompactor`. -/
def NewCompactor (minThreshold gcBefore : Int) : Compactor :=
  { minThreshold := minThreshold, gcBefore := gcBefore, stopChanClosed := false }

end compaction

namespace lsm
open sstable

/-- The struct `LSMTree`, together with the directory `fs` it works in.  `flushChan` is
the number of values waiting in the flush channel. -/
structure LSMTree where
  memtable : memtable.Memtable
  sstableManager : SSTableManager
  wal : wal.WAL
  compactor : compaction.Compactor
  flushChan : Nat
  fs : FS

/-- `NewLSMTree`.  `opened` is what opening `"lsm.log"` yields (see `wal.NewWAL`) and `fs`
the directory.  The goroutine `Run` and the compactor's ticker are started here; their
steps are not part of this function. -/
def NewLSMTree (opened : Option (List Byte)) (fs : FS) : Except Error LSMTree :=
  match wal.NewWAL opened with
  | .error e => .error e
  | .ok walLog =>
    .ok { memtable := memtable.NewMemTable (1024 * 1024)
          sstableManager := NewSSTableManager
          wal := walLog
          compactor := compaction.NewCompactor 4 1000000
          flushChan := 0
          fs := fs }

/-- `LSMTree.Put`. -/
def LSMTree.Put (lsm : LSMTree) (key value : GoString) : Outcome LSMTree :=
  match lsm.wal.AppendPut key value with
  | (w, some err) => .returned { lsm with wal := w } (some err)
  | (w, none) =>
    match lsm.memtable.Put lsm.flushChan key value with
    | none => .panicked
    | some (m, ch, _) => .returned { lsm with wal := w, memtable := m, flushChan := ch } none

/-- `LSMTree.Get`, as `some (value, found)`; `none` is a panic. -/
def LSMTree.Get (lsm : LSMTree) (key : GoString) : Option (GoString × Bool) :=
  match lsm.memtable.Get key with
  | some value => some (value, true)
  | none => lsm.sstableManager.Read lsm.fs key

/-- `LSMTree.Delete`. -/
def LSMTree.Delete (lsm : LSMTree) (key : GoString) : Outcome LSMTree :=
  match lsm.wal.AppendDelete key with
  | (w, some err) => .returned { lsm with wal := w } (some err)
  | (w, none) =>
    match lsm.memtable.Delete key with
    | none => .panicked
    | some (m, _) => .returned { lsm with wal := w, memtable := m } none

/-- The callback of `FlushMemtable`: `data[key] = value`. -/
def flushVisit (data : GoMap) (key value : GoString) : GoMap := data.set key value

/-- `LSMTree.FlushMemtable`.  `range` is the order in which the range loop of
`SSTable.Write` will yield the map. -/
def LSMTree.FlushMemtable (lsm : LSMTree) (range : RangeOrder) : Outcome LSMTree :=
  let data := lsm.memtable.InOrderTraversal flushVisit ([] : GoMap)
  match lsm.sstableManager.CreateSSTable lsm.fs data range with
  | (_, _, some err) => .returned lsm (some err)
  | (mgr, fs, none) =>
    .returned { lsm with sstableManager := mgr, fs := fs,
                         memtable := memtable.NewMemTable (1024 * 1024 * 1024) } none

/-- The callback of `Recover`, on the memtable and the flush channel. -/
def recoverApply (s : memtable.Memtable × Nat) (opType : Byte) (key value : GoString) :
    Option ((memtable.Memtable × Nat) × Option Error) :=
  if opType = 1 then
    (s.1.Put s.2 key value).map fun r => ((r.1, r.2.1), none)
  else if opType = 2 then
    (s.1.Delete key).map fun r => ((r.1, s.2), none)
  else some (s, none)

/-- `LSMTree.Recover`; `none` only if the replay loop ran out of fuel. -/
def LSMTree.Recover (lsm : LSMTree) : Option (Outcome LSMTree) :=
  match lsm.wal.Replay recoverApply (lsm.memtable, lsm.flushChan) with
  | none => none
  | some .panicked => some .panicked
  | some (.returned s err) => some (.returned { lsm with memtable := s.1, flushChan := s.2 } err)

/-- The engine states that calls of `Put`, `Delete` and `FlushMemtable` lead to from a new
engine, whatever errors the calls return. -/
inductive Reachable : LSMTree → Prop where
  | fresh (opened : Option (List Byte)) (fs : FS) (s : LSMTree) :
      NewLSMTree opened fs = .ok s → Reachable s
  | put (s s' : LSMTree) (key value : GoString) (err : Option Error) :
      Reachable s → s.Put key value = .returned s' err → Reachable s'
  | delete (s s' : LSMTree) (key : GoString) (err : Option Error) :
      Reachable s → s.Delete key = .returned s' err → Reachable s'
  | flush (s s' : LSMTree) (range : RangeOrder) (err : Option Error) :
      Reachable s → s.FlushMemtable range = .returned s' err → Reachable s'

end lsm

namespace tree
open AVLNode

/-- The search-tree order can be checked by computation. -/
instance decBst : (t : AVLNode) → Decidable (Bst t)
  | nil => isTrue trivial
  | node k _ l r _ =>
    @instDecidableAnd (Bst l) _ (decBst l)
      (@instDecidableAnd (Bst r) _ (decBst r)
        (inferInstanceAs (Decidable ((∀ x ∈ keys l, strLess x k = true) ∧
          (∀ x ∈ keys r, strLess k x = true)))))

end tree

namespace lsm
open sstable

/-- The engine `NewLSMTree` returns when `"lsm.log"` is created empty in an empty
directory. -/
def newEngine : LSMTree :=
  { memtable := memtable.NewMemTable (1024 * 1024)
    sstableManager := NewSSTableManager
    wal := { file := { data := [], closed := false, readable := false }, writerErr := none }
    compactor := compaction.NewCompactor 4 1000000
    flushChan := 0
    fs := FS.empty }

/-- A call of one of the three mutating operations of the engine. -/
inductive Call where
  | put (key value : GoString)
  | delete (key : GoString)
  | flush (range : RangeOrder)

/-- The outcome of one call. -/
def LSMTree.call (s : LSMTree) : Call → Outcome LSMTree
  | .put key value => s.Put key value
  | .delete key => s.Delete key
  | .flush range => s.FlushMemtable range

/-- The state a call leaves behind; after a panic there is none and `s` is kept. -/
def after (o : Outcome LSMTree) (s : LSMTree) : LSMTree :=
  match o with
  | .returned s' _ => s'
  | .panicked => s

/-- The state after a sequence of calls. -/
def run (s : LSMTree) (calls : List Call) : LSMTree :=
  calls.foldl (fun s c => after (s.call c) s) s

/-- A restart of the process in the same directory: `NewLSMTree` opens the log the old
engine wrote. -/
def restart (s : LSMTree) : Except Error LSMTree :=
  NewLSMTree (some s.wal.file.data) s.fs

/-- The engine of `restart`, were its log handle open for reading as well. -/
def restartReadable (s : LSMTree) : LSMTree :=
  { newEngine with
    wal := { file := { data := s.wal.file.data, closed := false, readable := true },
             writerErr := none }
    fs := s.fs }

/-- The keys in the order in which `InOrderTraversal` of the memtable visits them. -/
def visitedKeys (s : LSMTree) : List GoString :=
  s.memtable.InOrderTraversal (fun acc key _ => acc ++ [key]) []

end lsm

namespace wal

/-- Whether a record fits can be computed. -/
instance decFits : (r : Record) → Decidable r.Fits
  | .put key value =>
    inferInstanceAs (Decidable (key.length < 2 ^ 32 ∧ value.length < 2 ^ 32))
  | .delete key => inferInstanceAs (Decidable (key.length < 2 ^ 32))

/-- The bytes of a log that holds the given records, oldest first. -/
def logBytes : List Record → List Byte
  | [] => []
  | r :: rs => r.bytes ++ logBytes rs

/-- The log after the append calls for the given records, whatever they return. -/
def WAL.appendAll (w : WAL) (records : List Record) : WAL :=
  records.foldl (fun w r => (w.Append r).1) w

/-- A log handle like the one of `NewWAL`, but open for reading too, on a file with the
given bytes. -/
def readableLog (bytes : List Byte) : WAL :=
  { file := { data := bytes, closed := false, readable := true }, writerErr := none }

end wal

namespace sstable

/-- The calls `CreateSSTable(data)` for the given maps, in order, each with the range
order the runtime chose; `none` as soon as one of them returns an error. -/
def createAll : SSTableManager → FS → List (GoMap × RangeOrder) → Option (SSTableManager × FS)
  | m, fs, [] => some (m, fs)
  | m, fs, (data, range) :: rest =>
    match m.CreateSSTable fs data range with
    | (m', fs', none) => createAll m' fs' rest
    | (_, _, some _) => none

/-- The value of `key` in the newest of the given maps (listed oldest first) that
contains the key. -/
def newestValue (runs : List (GoMap × RangeOrder)) (key : GoString) : Option GoString :=
  runs.reverse.findSome? fun r => r.1.get key

/-- The lengths of the keys and values of a map are lengths of Go strings: below 2^63. -/
abbrev GoMap.Sized (m : GoMap) : Prop :=
  ∀ e ∈ m, e.1.length < 2 ^ 63 ∧ e.2.length < 2 ^ 63

/-- The keys of a map are distinct. -/
abbrev GoMap.Distinct (m : GoMap) : Prop := (m.map Prod.fst).Nodup

/-- What `Read` on a table is to answer for the map the table was written from. -/
def answer (data : GoMap) (key : GoString) : GoString × Bool :=
  match data.get key with
  | some v => (v, true)
  | none => ([], false)

end sstable

namespace tree

/-- The tree after `Insert` was called for each pair in order; `none` if a call panics. -/
def insertAll : AVLTree → List (GoString × GoString) → Option AVLTree
  | t, [] => some t
  | t, (key, value) :: rest =>
    match t.Insert key value with
    | none => none
    | some (t', _) => insertAll t' rest

end tree

namespace sstable

/-- The bytes of a data file that holds the given entries in the given order. -/
def fileOf : List (GoString × GoString) → List Byte
  | [] => []
  | e :: es => entryBytes e.1 e.2 ++ fileOf es

end sstable

namespace lsmtree

/-- The struct `BloomFilter` of `bloom-filter.go`.  A hash function returns a Go `uint`;
here it is any function to the natural numbers, of which the value modulo 2^64 counts. -/
structure BloomFilter where
  bitSet : List Bool
  hashFuncitons : List (GoString → Nat)

/-- `NewBloomFilter`; `make` panics on a negative size. -/
def NewBloomFilter (size : Int) (hashFuncs : List (GoString → Nat)) : Option BloomFilter :=
  if size < 0 then none
  else some { bitSet := List.replicate size.toNat false, hashFuncitons := hashFuncs }

/-- The index `hashFunc(key) % uint(len(key))` of both loops, for a key that is not
empty. -/
def bitIndex (hashFunc : GoString → Nat) (key : GoString) : Nat :=
  (hashFunc key % 2 ^ 64) % key.length

/-- The loop of `Add` over the hash functions still to come.  The modulus by the length
of an empty key is a division by zero, and an index outside the bit set cannot be
assigned: both are panics, `none`. -/
def addLoop : List (GoString → Nat) → List Bool → GoString → Option (List Bool)
  | [], bits, _ => some bits
  | hashFunc :: rest, bits, key =>
    if key.length = 0 then none
    else if bitIndex hashFunc key < bits.length then
      addLoop rest (bits.set (bitIndex hashFunc key) true) key
    else none

/-- `BloomFilter.Add`. -/
def BloomFilter.Add (bf : BloomFilter) (key : GoString) : Option BloomFilter :=
  (addLoop bf.hashFuncitons bf.bitSet key).map fun bits => { bf with bitSet := bits }

/-- The loop of `MightContain` over the hash functions still to come; `none` is a panic. -/
def mightLoop : List (GoString → Nat) → List Bool → GoString → Option Bool
  | [], _, _ => some true
  | hashFunc :: rest, bits, key =>
    if key.length = 0 then none
    else
      match bits[bitIndex hashFunc key]? with
      | none => none
      | some false => some false
      | some true => mightLoop rest bits key

/-- `BloomFilter.MightContain`. -/
def BloomFilter.MightContain (bf : BloomFilter) (key : GoString) : Option Bool :=
  mightLoop bf.hashFuncitons bf.bitSet key

/-- The filter after `Add` was called for each key in order; `none` if a call panics. -/
def BloomFilter.addAll : BloomFilter → List GoString → Option BloomFilter
  | bf, [] => some bf
  | bf, key :: rest =>
    match bf.Add key with
    | none => none
    | some bf' => bf'.addAll rest

end lsmtree

namespace sstable

/-- The struct `Scanner` of `scanner.go`.  `pos` is the read position of the open file
`file`; the bytes are those of the table's file in the directory. -/
structure Scanner where
  sstable : SSTable
  pos : Nat
  offset : Int

/-- `SSTable.NewScanner`: panics, `none`, when the file cannot be opened. -/
def SSTable.NewScanner (sst : SSTable) (fs : FS) : Option Scanner :=
  match fs.files sst.filename with
  | none => none
  | some _ => some { sstable := sst, pos := 0, offset := 0 }

/-- `Scanner.HasNext`. -/
def Scanner.HasNext (sc : Scanner) : Bool := decide (sc.offset < sc.sstable.Size)

/-- The bytes of the file from the read position on. -/
def Scanner.unread (sc : Scanner) (fs : FS) : List Byte :=
  ((fs.files sc.sstable.filename).getD []).drop sc.pos

/-- `Scanner.Next`: reads key size, value size, key and value at the read position and
adds `8 + 8 + keySize + valueSize` to the offset.  `none` is the panic of `make` on a
negative size.  (An `int64` overflow of the offset would take files of 2^63 bytes.) -/
def Scanner.Next (sc : Scanner) (fs : FS) : Option ((GoString × GoString) × Scanner) :=
  let r0 := sc.unread fs
  let (keySize, r1) := readInt64 r0
  let (valueSize, r2) := readInt64 r1
  if keySize < 0 ∨ valueSize < 0 then none
  else
    let (keyBytes, r3) := fileRead keySize.toNat r2
    let (valueBytes, r4) := fileRead valueSize.toNat r3
    some ((keyBytes, valueBytes),
      { sc with pos := sc.pos + (r0.length - r4.length)
                offset := sc.offset + (8 + 8 + keySize + valueSize) })

/-- `Scanner.PeekKey`: reads the key size and then, right behind it, as many bytes as the
key size says; then it restores the offset and seeks the file back to it (a seek to a
negative offset fails and leaves the position where the reads ended). -/
def Scanner.PeekKey (sc : Scanner) (fs : FS) : Option (GoString × Scanner) :=
  let r0 := sc.unread fs
  let (keySize, r1) := readInt64 r0
  if keySize < 0 then none
  else
    let (keyBytes, r2) := fileRead keySize.toNat r1
    some (keyBytes,
      { sc with pos := if 0 ≤ sc.offset then sc.offset.toNat
                       else sc.pos + (r0.length - r2.length) })

/-- The bytes a scanner still has to go: its table's size minus its offset. -/
def Scanner.toGo (sc : Scanner) : Nat := (sc.sstable.Size - sc.offset).toNat

end sstable

namespace compaction
open sstable

/-- The result of `sort.Slice(x, less)`: some rearrangement of the slice in which no
element is `less` than an earlier one.  The sort is not stable, so the order of elements
that compare equal is the sort's choice. -/
structure SliceSort (less : SSTable → SSTable → Prop) where
  sort : List SSTable → List SSTable
  perm : ∀ l, (sort l).Perm l
  sorted : ∀ l, (sort l).Pairwise (fun a b => ¬ less b a)

/-- What a compaction run takes from outside the code under `src`: the read-hotness
score of each run at that moment (`ReadHotnessScore` depends on the clock and on the read
counters), the results of the two calls of `sort.Slice`, and the scanner that `heap.Pop`
takes from the queue (the type `PriorityQueue` is declared in no source file; `pop` gives
the position of the chosen scanner among those queued, taken modulo their number). -/
structure Env where
  hotness : SSTable → Int
  sortBySize : SliceSort (fun a b => a.Size < b.Size)
  sortBySizeDesc : SliceSort (fun a b => a.Size > b.Size)
  pop : List Scanner → Nat

/-- One round of the loop of `groupSSTablesBySize`: the groups so far and the current
group.  A run whose size differs from the first of the current group makes the source
append the current group to the groups; the current group stays as it is. -/
def groupStep (acc : List (List SSTable) × List SSTable) (sst : SSTable) :
    List (List SSTable) × List SSTable :=
  match acc.2 with
  | [] => (acc.1, [sst])
  | first :: _ =>
    if sst.Size = first.Size then (acc.1, acc.2 ++ [sst])
    else (acc.1 ++ [acc.2], acc.2)

/-- `Compactor.groupSSTablesBySize`. -/
def groupSSTablesBySize (m : SSTableManager) (env : Env) : List (List SSTable) :=
  let acc := (env.sortBySize.sort m.GetSSTables).foldl groupStep ([], [])
  if acc.2.length > 0 then acc.1 ++ [acc.2] else acc.1

/-- `Compactor.filterBuckets`. -/
def Compactor.filterBuckets (c : Compactor) (groups : List (List SSTable)) :
    List (List SSTable) :=
  groups.filter fun group => decide ((group.length : Int) ≥ c.minThreshold)

/-- The `int64` sum of the read-hotness scores of a group. -/
def groupScore (env : Env) (group : List SSTable) : Int :=
  group.foldl (fun score sst => wrapInt64 (score + env.hotness sst)) 0

/-- `Compactor.selectHighestReadHotnessScore`: the nil slice when no group scores above
zero. -/
def selectHighestReadHotnessScore (env : Env) (groups : List (List SSTable)) : List SSTable :=
  (groups.foldl
    (fun (best : List SSTable × Int) group =>
      if groupScore env group > best.2 then (group, groupScore env group) else best)
    ([], 0)).1

/-- `Compactor.getAvailableDiskSpace`: the constant 1 GiB. -/
def getAvailableDiskSpace : Int := 1024 * 1024 * 1024

/-- `Compactor.checkAvailableDiskSpace`. -/
def checkAvailableDiskSpace (env : Env) (inputSSTables : List SSTable) : List SSTable :=
  let totalSize := inputSSTables.foldl (fun total sst => wrapInt64 (total + sst.Size)) 0
  if getAvailableDiskSpace < totalSize then
    ((env.sortBySizeDesc.sort inputSSTables).foldl
      (fun (acc : List SSTable × Int) sst =>
        if acc.2 ≥ sst.Size then (acc.1 ++ [sst], wrapInt64 (acc.2 - sst.Size)) else acc)
      ([], getAvailableDiskSpace)).1
  else inputSSTables

/-- The scanners of the input runs; `none` when one `NewScanner` panics. -/
def openScanners (fs : FS) : List SSTable → Option (List Scanner)
  | [] => some []
  | sst :: rest =>
    match sst.NewScanner fs with
    | none => none
    | some sc => (openScanners fs rest).map fun scs => sc :: scs

/-- The loop `for pq.Len() > 0` of `mergeSSTables` on the queued scanners, the output
table and the directory.  Each round writes the one-entry map `{key: value}` with
`Write` (whose `os.Create` empties `output.sst` again) and drops the error.  The result
`none` says the fuel ran out. -/
def mergeLoop (pop : List Scanner → Nat) :
    Nat → List Scanner → SSTable → FS → Option (Outcome (SSTable × FS))
  | 0, _, _, _ => none
  | _ + 1, [], out, fs => some (.returned (out, fs) none)
  | fuel + 1, sc0 :: rest, out, fs =>
    match (sc0 :: rest).drop (pop (sc0 :: rest) % (sc0 :: rest).length) with
    | [] => some .panicked
    | sc :: behind =>
      match sc.Next fs with
      | none => some .panicked
      | some (entry, sc') =>
        mergeLoop pop fuel
          (if sc'.HasNext then
            (sc0 :: rest).take (pop (sc0 :: rest) % (sc0 :: rest).length) ++ behind ++ [sc']
           else (sc0 :: rest).take (pop (sc0 :: rest) % (sc0 :: rest).length) ++ behind)
          (out.Write fs [entry] RangeOrder.id).1
          (out.Write fs [entry] RangeOrder.id).2.1

/-- Fuel for the merge loop: every round moves one scanner forward by at least 16. -/
def mergeFuel (pq : List Scanner) : Nat := (pq.map Scanner.toGo).sum + 1

/-- `Compactor.mergeSSTables` with `outputFileName = "output.sst"`: the output table and
the directory it leaves.  It returns the nil error whenever it returns. -/
def mergeSSTables (env : Env) (inputSSTables : List SSTable) (fs : FS) :
    Option (Outcome (SSTable × FS)) :=
  match openScanners fs inputSSTables with
  | none => some .panicked
  | some scanners =>
    mergeLoop env.pop (mergeFuel (scanners.filter Scanner.HasNext))
      (scanners.filter Scanner.HasNext) (NewSSTable .output) fs

/-- `Compactor.performCompaction` on the manager the compactor points to. -/
def Compactor.performCompaction (c : Compactor) (m : SSTableManager) (fs : FS) (env : Env) :
    Option (Outcome (SSTable × FS)) :=
  mergeSSTables env
    (checkAvailableDiskSpace env
      (selectHighestReadHotnessScore env (c.filterBuckets (groupSSTablesBySize m env)))) fs

/-- `Compactor.Stop`: `close(c.stopChan)`; closing a closed channel panics. -/
def Compactor.Stop (c : Compactor) : Option Compactor :=
  if c.stopChanClosed then none else some { c with stopChanClosed := true }

instance sizeLeTotal : IsTotal SSTable (fun a b => a.Size ≤ b.Size) :=
  ⟨fun a b => le_total a.Size b.Size⟩

instance sizeLeTrans : IsTrans SSTable (fun a b => a.Size ≤ b.Size) :=
  ⟨fun _ _ _ h1 h2 => le_trans h1 h2⟩

instance sizeGeTotal : IsTotal SSTable (fun a b => a.Size ≥ b.Size) :=
  ⟨fun a b => le_total b.Size a.Size⟩

instance sizeGeTrans : IsTrans SSTable (fun a b => a.Size ≥ b.Size) :=
  ⟨fun _ _ _ h1 h2 => ge_trans h1 h2⟩

/-- An environment for examples: every run has read-hotness score 1, the sorts are
insertion sorts, and `heap.Pop` takes the scanner queued first. -/
def Env.simple : Env :=
  { hotness := fun _ => 1
    sortBySize :=
      { sort := List.insertionSort (fun a b => a.Size ≤ b.Size)
        perm := List.perm_insertionSort _
        sorted := fun l =>
          (List.sorted_insertionSort (fun a b => a.Size ≤ b.Size) l).imp
            (fun h => not_lt.2 h) }
    sortBySizeDesc :=
      { sort := List.insertionSort (fun a b => a.Size ≥ b.Size)
        perm := List.perm_insertionSort _
        sorted := fun l =>
          (List.sorted_insertionSort (fun a b => a.Size ≥ b.Size) l).imp
            (fun h => not_lt.2 h) }
    pop := fun _ => 0 }

end compaction

namespace lsm
open sstable

/-- One run of the compactor's `performCompaction` on the engine: the compactor works on
the engine's manager and directory. -/
def LSMTree.performCompaction (s : LSMTree) (env : compaction.Env) : Option (Outcome LSMTree) :=
  match s.compactor.performCompaction s.sstableManager s.fs env with
  | none => none
  | some .panicked => some .panicked
  | some (.returned r err) => some (.returned { s with fs := r.2 } err)

/-- `LSMTree.Close`: `lsm.compactor.Stop()`, then `lsm.wal.Close()`. -/
def LSMTree.Close (s : LSMTree) : Outcome LSMTree :=
  match s.compactor.Stop with
  | none => .panicked
  | some c => .returned { s with compactor := c, wal := s.wal.Close.1 } s.wal.Close.2

/-- The state a compaction run leaves behind; `s` when it did not return. -/
def afterCompaction (o : Option (Outcome LSMTree)) (s : LSMTree) : LSMTree :=
  match o with
  | some (.returned s' _) => s'
  | _ => s

/-- The compaction run returned, with the nil error. -/
def compactionOk (o : Option (Outcome LSMTree)) : Bool :=
  match o with
  | some (.returned _ none) => true
  | _ => false

end lsm

namespace tree

/-- A call of one of the two mutating operations of the tree. -/
inductive Op where
  | insert (key value : GoString)
  | delete (key : GoString)
  deriving DecidableEq, Repr

/-- The tree one call leaves behind; `none` if the call panics. -/
def AVLTree.apply (t : AVLTree) : Op → Option AVLTree
  | .insert key value => (t.Insert key value).map Prod.fst
  | .delete key => (t.Delete key).map Prod.fst

/-- The tree after a sequence of calls of `Insert` and `Delete`, in order; `none` if one
of them panics. -/
def AVLTree.applyAll : AVLTree → List Op → Option AVLTree
  | t, [] => some t
  | t, op :: rest =>
    match t.apply op with
    | none => none
    | some t' => t'.applyAll rest

end tree

namespace compaction
open sstable

/-- The total of the sizes of a list of runs, as a number (no `int64` wrap-around). -/
def totalSize (l : List SSTable) : Int := (l.map SSTable.Size).sum

/-- The total of the read-hotness scores of a group, as a number (no `int64`
wrap-around). -/
def totalScore (env : Env) (group : List SSTable) : Int := (group.map env.hotness).sum

/-- A run of the given number and size, for examples. -/
def runOfSize (n : Nat) (size : Int) : SSTable :=
  { filename := .sstable n, index := fun _ => none, size := size }

end compaction

namespace compaction
open sstable

/-- An environment for examples in which no run was read yet: every read-hotness score
is 0 (`readCounts` is empty until a `Read` finds a key in the run). -/
def Env.cold : Env := { Env.simple with hotness := fun _ => 0 }

/-- One mebibyte. -/
def MiB : Int := 1024 * 1024

end compaction

namespace lsmtree

/-- The struct `TreeNode` of `lsmtree.go`.  `Left` and `Right` are pointers: `none` is
nil and `some p` the address `p` of a node. -/
structure TreeNode where
  key : GoString
  value : GoString
  Left : Option Nat
  Right : Option Nat
  height : Int
  deriving DecidableEq, Repr, Inhabited

/-- The nodes allocated so far; the address of a node is its position.  Rotations write
through pointers and can leave shapes that are no trees, so the nodes are kept as a
memory and not as an inductive tree. -/
abbrev Heap := List TreeNode

/-- The node at the address `p`.  Every pointer of the program is the address of an
allocated node; the default is never read. -/
def deref (heap : Heap) (p : Nat) : TreeNode := heap.getD p default

/-- A write of the whole node at the address `p`. -/
def store (heap : Heap) (p : Nat) (n : TreeNode) : Heap := heap.set p n

/-- How a call on the node memory ends: with a result, with a nil-pointer panic, or not
within the given number of nested calls. -/
inductive Run (α : Type) where
  | done (a : α)
  | panicked
  | outOfFuel
  deriving DecidableEq, Repr

/-- The next call, once this one has ended with a result. -/
def Run.bind {α β : Type} : Run α → (α → Run β) → Run β
  | .done a, f => f a
  | .panicked, _ => .panicked
  | .outOfFuel, _ => .outOfFuel

/-- `height`. -/
def height (heap : Heap) : Option Nat → Int
  | none => 0
  | some p => (deref heap p).height

/-- `max`. -/
def max (a b : Int) : Int := if a > b then a else b

/-- `getBalanceFactor`. -/
def getBalanceFactor (heap : Heap) : Option Nat → Int
  | none => 0
  | some p => height heap (deref heap p).Left - height heap (deref heap p).Right

/-- `updateHeight`, on a node that is not nil. -/
def updateHeight (heap : Heap) (p : Nat) : Heap :=
  store heap p
    { deref heap p with
      height := 1 + max (height heap (deref heap p).Left) (height heap (deref heap p).Right) }

/-- `rotateRight`: `x := y.Left`, `t2 := x.Right`, then the assignments `x.Left = y` and
`y.Right = t2`, then `updateHeight(y)`, `updateHeight(x)`; the result is `x`.  A nil `y`
or a nil `y.Left` is a nil-pointer panic, `none`. -/
def rotateRight (heap : Heap) (y : Option Nat) : Option (Heap × Option Nat) :=
  match y with
  | none => none
  | some y =>
    match (deref heap y).Left with
    | none => none
    | some x =>
      let t2 := (deref heap x).Right
      let heap1 := store heap x { deref heap x with Left := some y }
      let heap2 := store heap1 y { deref heap1 y with Right := t2 }
      some (updateHeight (updateHeight heap2 y) x, some x)

/-- `rotateLeft`: `y := x.Right`, `t2 := y.Left`, then `y.Left = x` and `x.Right = t2`,
then `updateHeight(y)`, `updateHeight(x)`; the result is `y`. -/
def rotateLeft (heap : Heap) (x : Option Nat) : Option (Heap × Option Nat) :=
  match x with
  | none => none
  | some x =>
    match (deref heap x).Right with
    | none => none
    | some y =>
      let t2 := (deref heap y).Left
      let heap1 := store heap y { deref heap y with Left := some x }
      let heap2 := store heap1 x { deref heap1 x with Right := t2 }
      some (updateHeight (updateHeight heap2 y) x, some y)

/-- The result of a rotation as the result of `insert`. -/
def rotated (r : Option (Heap × Option Nat)) (sizeChange : Int) :
    Run (Heap × Option Nat × Int) :=
  match r with
  | none => .panicked
  | some (heap, root) => .done (heap, root, sizeChange)

/-- The part of `MemTable.insert` behind the recursive call: `updateHeight(node)`, the
balance factor, and the four `if` statements.  With `balance > 1` only the first and the
third condition can hold, with `balance < -1` only the second and the fourth; `&&` reads
`node.Left.key` or `node.Right.key` only then, and a nil child is a panic. -/
def insertBalance (heap0 : Heap) (node : Nat) (key : GoString) (sizeChange : Int) :
    Run (Heap × Option Nat × Int) :=
  let heap := updateHeight heap0 node
  let balance := getBalanceFactor heap (some node)
  if balance > 1 then
    match (deref heap node).Left with
    | none => .panicked
    | some l =>
      if tree.strLess key (deref heap l).key then rotated (rotateRight heap (some node)) sizeChange
      else if tree.strLess (deref heap l).key key then
        match rotateLeft heap (some l) with
        | none => .panicked
        | some (heap1, l') =>
          rotated (rotateRight (store heap1 node { deref heap1 node with Left := l' })
            (some node)) sizeChange
      else .done (heap, some node, sizeChange)
  else if balance < -1 then
    match (deref heap node).Right with
    | none => .panicked
    | some r =>
      if tree.strLess (deref heap r).key key then rotated (rotateLeft heap (some node)) sizeChange
      else if tree.strLess key (deref heap r).key then
        match rotateRight heap (some r) with
        | none => .panicked
        | some (heap1, r') =>
          rotated (rotateLeft (store heap1 node { deref heap1 node with Right := r' })
            (some node)) sizeChange
      else .done (heap, some node, sizeChange)
  else .done (heap, some node, sizeChange)

/-- `MemTable.insert`: the new memory, the returned pointer and the size change.  The
first argument bounds the depth of the recursion. -/
def MemTable.insert :
    Nat → Heap → Option Nat → GoString → GoString → Run (Heap × Option Nat × Int)
  | 0, _, _, _, _ => .outOfFuel
  | _ + 1, heap, none, key, value =>
    .done (heap ++ [{ key := key, value := value, Left := none, Right := none, height := 1 }],
      some heap.length, wrapInt64 ((key.length + value.length : Nat) : Int))
  | fuel + 1, heap, some node, key, value =>
    if tree.strLess key (deref heap node).key then
      match MemTable.insert fuel heap (deref heap node).Left key value with
      | .done (heap1, left, sizeChange) =>
        insertBalance (store heap1 node { deref heap1 node with Left := left }) node key
          sizeChange
      | .panicked => .panicked
      | .outOfFuel => .outOfFuel
    else if tree.strLess (deref heap node).key key then
      match MemTable.insert fuel heap (deref heap node).Right key value with
      | .done (heap1, right, sizeChange) =>
        insertBalance (store heap1 node { deref heap1 node with Right := right }) node key
          sizeChange
      | .panicked => .panicked
      | .outOfFuel => .outOfFuel
    else
      .done (store heap node { deref heap node with value := value }, some node,
        wrapInt64 ((value.length : Int) - ((deref heap node).value.length : Int)))

/-- `MemTable.get`; the first argument bounds the depth of the recursion. -/
def MemTable.get : Nat → Heap → Option Nat → GoString → Run (GoString × Bool)
  | 0, _, _, _ => .outOfFuel
  | _ + 1, _, none, _ => .done ([], false)
  | fuel + 1, heap, some node, key =>
    if tree.strLess key (deref heap node).key then
      MemTable.get fuel heap (deref heap node).Left key
    else if tree.strLess (deref heap node).key key then
      MemTable.get fuel heap (deref heap node).Right key
    else .done ((deref heap node).value, true)

/-- The struct `MemTableConfig`; `FlushPeriodInMinutes` is a `time.Duration`, an
`int64`. -/
structure MemTableConfig where
  HeapMemoryInMB : Int
  OffHeapMemoryInMB : Int
  FlushWriteInMB : Int
  FlushPeriodInMinutes : Int
  deriving DecidableEq, Repr

/-- The struct `MemTable`, together with the memory its nodes live in.  The field
`lastFlushTime` is only compared with the clock (see `shouldFlush`), and the bytes of
`offHeapMemory` are never read. -/
structure MemTable where
  heap : Heap
  root : Option Nat
  size : Int
  config : MemTableConfig
  isOffHeap : Bool
  deriving DecidableEq, Repr

/-- `NewMemTable`; `make` panics, `none`, on a negative length. -/
def NewMemTable (config : MemTableConfig) (isOffHeap : Bool) : Option MemTable :=
  if isOffHeap = true ∧ wrapInt64 (config.OffHeapMemoryInMB * 1024 * 1024) < 0 then none
  else some { heap := [], root := none, size := 0, config := config, isOffHeap := isOffHeap }

/-- `MemTable.shouldFlush`.  `periodOver` is the answer of the clock to
`time.Since(mt.lastFlushTime) > mt.config.FlushPeriodInMinutes*time.Minute`. -/
def MemTable.shouldFlush (mt : MemTable) (periodOver : Bool) (additionalSize : Int) : Bool :=
  if wrapInt64 (mt.size + additionalSize) > wrapInt64 (mt.config.FlushWriteInMB * 1024 * 1024)
  then true
  else if periodOver then true
  else if mt.isOffHeap then
    decide (wrapInt64 (mt.size + additionalSize) >
      wrapInt64 (mt.config.OffHeapMemoryInMB * 1024 * 1024))
  else
    decide (wrapInt64 (mt.size + additionalSize) >
      wrapInt64 (mt.config.HeapMemoryInMB * 1024 * 1024))

/-- `MemTable.flush`: the size is set to zero (and the flush time to now); the tree is
left as it is. -/
def MemTable.flush (mt : MemTable) : MemTable := { mt with size := 0 }

/-- `MemTable.Put`. -/
def MemTable.Put (mt : MemTable) (fuel : Nat) (periodOver : Bool) (key value : GoString) :
    Run MemTable :=
  let entrySize := wrapInt64 ((key.length + value.length : Nat) : Int)
  let mt1 := if mt.shouldFlush periodOver entrySize then mt.flush else mt
  match MemTable.insert fuel mt1.heap mt1.root key value with
  | .done (heap, root, sizeChange) =>
    .done { mt1 with heap := heap, root := root, size := wrapInt64 (mt1.size + sizeChange) }
  | .panicked => .panicked
  | .outOfFuel => .outOfFuel

/-- `MemTable.Get`. -/
def MemTable.Get (mt : MemTable) (fuel : Nat) (key : GoString) : Run (GoString × Bool) :=
  MemTable.get fuel mt.heap mt.root key

/-- The table after `Put` was called for each entry in order; each entry comes with the
answer of the clock at its call. -/
def MemTable.putAll (fuel : Nat) : MemTable → List (Bool × GoString × GoString) → Run MemTable
  | mt, [] => .done mt
  | mt, (periodOver, key, value) :: rest =>
    (mt.Put fuel periodOver key value).bind fun mt' => MemTable.putAll fuel mt' rest

/-- The configuration of the example in `main`. -/
def mainConfig : MemTableConfig :=
  { HeapMemoryInMB := 256, OffHeapMemoryInMB := 1024, FlushWriteInMB := 64,
    FlushPeriodInMinutes := 30 }

/-- The table `NewMemTable(config, false)` of `main`. -/
def mainTable : MemTable :=
  { heap := [], root := none, size := 0, config := mainConfig, isOffHeap := false }

end lsmtree

namespace sstable

/-- A scanner that stands in front of the entries `rest` of its run, which is not the
compactor's output: the unread bytes of its file are these entries, and its offset lacks
just their length to the size of the run; the keys and values have lengths of Go
strings. -/
def Scanner.Before (sc : Scanner) (fs : FS) (rest : List (GoString × GoString)) : Prop :=
  sc.sstable.filename ≠ .output ∧ sc.unread fs = fileOf rest ∧
    sc.sstable.Size - sc.offset = ((fileOf rest).length : Int) ∧ GoMap.Sized rest

end sstable

namespace compaction
open sstable

/-- The output run and the directory that `mergeSSTables` leaves when it merges the runs
that `CreateSSTable` made, in an empty directory, of the given maps; `none` unless all
calls return the nil error. -/
def mergeOf (env : Env) (runs : List (GoMap × RangeOrder)) : Option (SSTable × FS) :=
  match createAll NewSSTableManager FS.empty runs with
  | none => none
  | some (m, fs) =>
    match mergeSSTables env m.GetSSTables fs with
    | some (.returned r none) => some r
    | _ => none

end compaction

namespace compaction
open sstable

/-- The number of bytes of the entries that the queued scanners have still to yield;
each scanner is listed with the entries in front of it. -/
def queuedBytes : List (Scanner × List (GoString × GoString)) → Nat
  | [] => 0
  | p :: q => (fileOf p.2).length + queuedBytes q

/-- The keys of the entries that the queued scanners have still to yield, a key as
often as there are entries with it. -/
def queuedKeys : List (Scanner × List (GoString × GoString)) → List GoString
  | [] => []
  | p :: q => p.2.map Prod.fst ++ queuedKeys q

end compaction

namespace compaction
open sstable

/-- What a merge asks of an input run `p.1` whose file holds the entries `p.2`: the run
is not the compactor's output, its file holds these entries and nothing else, its size
is the length of the file (as after the one `Write` that made it), and keys and values
have lengths of Go strings. -/
def WrittenRun (fs : FS) (p : SSTable × List (GoString × GoString)) : Prop :=
  p.1.filename ≠ .output ∧ fs.files p.1.filename = some (fileOf p.2) ∧
    p.1.Size = ((fileOf p.2).length : Int) ∧ GoMap.Sized p.2

/-- The directory after `CreateSSTable` of {"a": "1"} and then of {"a": "2"} in an empty
directory. -/
def twoRunsFS : FS :=
  ((NewSSTable (.sstable 1)).Write
    ((NewSSTable (.sstable 0)).Write FS.empty [([97], [49])] RangeOrder.id).2.1
    [([97], [50])] RangeOrder.id).2.1

/-- The two runs of `twoRunsFS`, the older one first, each with its entries. -/
def twoRuns : List (SSTable × List (GoString × GoString)) :=
  [(((NewSSTable (.sstable 0)).Write FS.empty [([97], [49])] RangeOrder.id).1,
     [([97], [49])]),
   (((NewSSTable (.sstable 1)).Write
      ((NewSSTable (.sstable 0)).Write FS.empty [([97], [49])] RangeOrder.id).2.1
      [([97], [50])] RangeOrder.id).1, [([97], [50])])]

end compaction

namespace tree
open AVLNode

@[simp] theorem height_nil : height nil = 0 := rfl

@[simp] theorem height_node (k v : GoString) (l r : AVLNode) (h : Int) :
    height (node k v l r h) = h := rfl

theorem balanceFactor_node (k v : GoString) (l r : AVLNode) (h : Int) :
    balanceFactor (node k v l r h) = height l - height r := rfl

theorem updateHeight_node (k v : GoString) (l r : AVLNode) (h : Int) :
    updateHeight (node k v l r h) = node k v l r (1 + max (height l) (height r)) := rfl

theorem max_eq (a b : Int) : max a b = Max.max a b := by
  unfold max
  split <;> omega

theorem Avl.height_nonneg : ∀ {t : AVLNode}, Avl t → 0 ≤ height t
  | nil, _ => by simp [height]
  | node _ _ l r h, ha => by
    obtain ⟨hl, hr, hh, _, _⟩ := ha
    have := Avl.height_nonneg hl
    have := Avl.height_nonneg hr
    simp only [height_node, height_nil, max_eq] at *
    omega

theorem Avl.eq_nil_of_height_le {t : AVLNode} (ha : Avl t) (h0 : height t ≤ 0) : t = nil := by
  cases t with
  | nil => rfl
  | node k v l r h =>
    obtain ⟨hl, hr, hh, _, _⟩ := ha
    have := Avl.height_nonneg hl
    have := Avl.height_nonneg hr
    simp only [height_node, height_nil, max_eq] at *
    omega

theorem balance_node_mid (k v : GoString) (l r : AVLNode) (h : Int)
    (h1 : height l - height r ≤ 1) (h2 : height r - height l ≤ 1) :
    balance (node k v l r h) = some (node k v l r h) := by
  have c1 : ¬ (height l - height r > 1) := by omega
  have c2 : ¬ (height l - height r < -1) := by omega
  simp only [balance, balanceFactor_node, c1, c2, if_false]

theorem balance_node_LL (k v x xv : GoString) (xl xr r : AVLNode) (xh h : Int)
    (h1 : xh - height r > 1) (h2 : ¬ (height xl - height xr < 0)) :
    balance (node k v (node x xv xl xr xh) r h) =
      some (node x xv xl (node k v xr r (1 + max (height xr) (height r)))
        (1 + max (height xl) (1 + max (height xr) (height r)))) := by
  simp only [balance, balanceFactor_node, height_node, h1, h2, if_true, if_false, rightRotate, updateHeight_node]

theorem balance_node_LR (k v x xv z zv : GoString) (xl zl zr r : AVLNode) (xh zh h : Int)
    (h1 : xh - height r > 1) (h2 : height xl - zh < 0) :
    balance (node k v (node x xv xl (node z zv zl zr zh) xh) r h) =
      some (node z zv (node x xv xl zl (1 + max (height xl) (height zl)))
        (node k v zr r (1 + max (height zr) (height r)))
        (1 + max (1 + max (height xl) (height zl)) (1 + max (height zr) (height r)))) := by
  simp only [balance, balanceFactor_node, height_node, h1, h2, if_true, leftRotate, rightRotate,
    updateHeight_node, Option.some_bind, Option.bind]

theorem balance_node_RR (k v x xv : GoString) (l xl xr : AVLNode) (xh h : Int)
    (h1 : height l - xh < -1) (h2 : ¬ (height xl - height xr > 0)) :
    balance (node k v l (node x xv xl xr xh) h) =
      some (node x xv (node k v l xl (1 + max (height l) (height xl))) xr
        (1 + max (1 + max (height l) (height xl)) (height xr))) := by
  have c1 : ¬ (height l - xh > 1) := by omega
  simp only [balance, balanceFactor_node, height_node, h1, h2, c1, if_true, if_false, leftRotate,
    updateHeight_node]

theorem balance_node_RL (k v x xv z zv : GoString) (l zl zr xr : AVLNode) (xh zh h : Int)
    (h1 : height l - xh < -1) (h2 : zh - height xr > 0) :
    balance (node k v l (node x xv (node z zv zl zr zh) xr xh) h) =
      some (node z zv (node k v l zl (1 + max (height l) (height zl)))
        (node x xv zr xr (1 + max (height zr) (height xr)))
        (1 + max (1 + max (height l) (height zl)) (1 + max (height zr) (height xr)))) := by
  have c1 : ¬ (height l - xh > 1) := by omega
  simp only [balance, balanceFactor_node, height_node, h1, h2, c1, if_true, if_false, leftRotate,
    rightRotate, updateHeight_node, Option.some_bind, Option.bind]

end tree

namespace tree
open AVLNode

theorem Avl_node (k v : GoString) (l r : AVLNode) (h : Int) :
    Avl (node k v l r h) ↔
      (Avl l ∧ Avl r ∧ h = 1 + max (height l) (height r) ∧
        height l - height r ≤ 1 ∧ height r - height l ≤ 1) := Iff.rfl

theorem search_node (k v : GoString) (l r : AVLNode) (h : Int) (key : GoString) :
    search (node k v l r h) key =
      if Compare key k = 0 then some v
      else if Compare key k < 0 then search l key
      else search r key := rfl

theorem SideTaller_node (k v : GoString) (l r : AVLNode) (h : Int) (key : GoString) :
    SideTaller (node k v l r h) key ↔
      ((Compare key k < 0 ∧ height r < height l) ∨ (Compare key k > 0 ∧ height l < height r)) :=
  Iff.rfl

/-- One step of `insert` after the recursive call went into the left subtree. -/
theorem insert_step_left (k v : GoString) (l l' r : AVLNode) (h : Int) (key value : GoString)
    (hl : Avl l) (hl' : Avl l') (hr : Avl r)
    (b1 : height l - height r ≤ 1) (b2 : height r - height l ≤ 1)
    (hc : Compare key k < 0) (hs : search l' key = some value)
    (hh : height l' = height l ∨
      (height l' = height l + 1 ∧ (l = nil ∨ SideTaller l' key))) :
    ∃ t, balance (updateHeight (node k v l' r h)) = some t ∧ Avl t ∧
      search t key = some value ∧
      (height t = 1 + max (height l) (height r) ∨
        (height t = 1 + max (height l) (height r) + 1 ∧ SideTaller t key)) := by
  have hl0 := hl.height_nonneg
  have hr0 := hr.height_nonneg
  have hc0 : ¬ Compare key k = 0 := by omega
  by_cases hb : height l' - height r ≤ 1
  · refine ⟨node k v l' r (1 + max (height l') (height r)), ?_, ?_, ?_, ?_⟩
    · rw [updateHeight_node, balance_node_mid _ _ _ _ _ hb (by omega)]
    · exact (Avl_node ..).2 ⟨hl', hr, rfl, hb, by omega⟩
    · rw [search_node, if_neg hc0, if_pos hc, hs]
    · simp only [height_node, max_eq, SideTaller_node]
      omega
  · have hg : height l' = height l + 1 ∧ (l = nil ∨ SideTaller l' key) := by
      rcases hh with h1 | h1
      · omega
      · exact h1
    obtain ⟨hg1, hg2⟩ := hg
    have hst : SideTaller l' key := by
      rcases hg2 with h1 | h1
      · subst h1
        simp only [height_nil] at *
        omega
      · exact h1
    cases l' with
    | nil => exact absurd hst (by simp [SideTaller])
    | node x xv xl xr xh =>
      obtain ⟨hxl, hxr, hxh, bx1, bx2⟩ := (Avl_node ..).1 hl'
      have hxl0 := hxl.height_nonneg
      have hxr0 := hxr.height_nonneg
      rw [SideTaller_node] at hst
      simp only [height_node] at hb hg1
      by_cases hbf : height xl - height xr < 0
      · have hcx : Compare key x > 0 := by omega
        cases xr with
        | nil => simp only [height_nil] at hbf; omega
        | node z zv zl zr zh =>
          obtain ⟨hzl, hzr, hzh, bz1, bz2⟩ := (Avl_node ..).1 hxr
          have hzl0 := hzl.height_nonneg
          have hzr0 := hzr.height_nonneg
          simp only [height_node] at hbf hxh bx1 bx2 hxr0
          refine ⟨_, by rw [updateHeight_node, balance_node_LR _ _ _ _ _ _ _ _ _ _ _ _ _
            (by omega) hbf], ?_, ?_, ?_⟩
          · refine (Avl_node ..).2 ⟨(Avl_node ..).2 ⟨hxl, hzl, rfl, ?_, ?_⟩,
              (Avl_node ..).2 ⟨hzr, hr, rfl, ?_, ?_⟩, rfl, ?_, ?_⟩ <;>
            simp only [height_node, max_eq] at * <;> omega
          · simp only [search_node] at hs ⊢
            split_ifs at hs ⊢ <;> first | exact hs | omega
          · left
            simp only [height_node, max_eq] at *
            omega
      · refine ⟨_, by rw [updateHeight_node, balance_node_LL _ _ _ _ _ _ _ _ _
            (by omega) hbf], ?_, ?_, ?_⟩
        · refine (Avl_node ..).2 ⟨hxl, (Avl_node ..).2 ⟨hxr, hr, rfl, ?_, ?_⟩, rfl, ?_, ?_⟩ <;>
          simp only [height_node, max_eq] at * <;> omega
        · simp only [search_node] at hs ⊢
          split_ifs at hs ⊢ <;> exact hs
        · left
          simp only [height_node, max_eq] at *
          omega

/-- One step of `insert` after the recursive call went into the right subtree. -/
theorem insert_step_right (k v : GoString) (l r r' : AVLNode) (h : Int) (key value : GoString)
    (hl : Avl l) (hr : Avl r) (hr' : Avl r')
    (b1 : height l - height r ≤ 1) (b2 : height r - height l ≤ 1)
    (hc : Compare key k > 0) (hs : search r' key = some value)
    (hh : height r' = height r ∨
      (height r' = height r + 1 ∧ (r = nil ∨ SideTaller r' key))) :
    ∃ t, balance (updateHeight (node k v l r' h)) = some t ∧ Avl t ∧
      search t key = some value ∧
      (height t = 1 + max (height l) (height r) ∨
        (height t = 1 + max (height l) (height r) + 1 ∧ SideTaller t key)) := by
  have hl0 := hl.height_nonneg
  have hr0 := hr.height_nonneg
  have hc0 : ¬ Compare key k = 0 := by omega
  have hc1 : ¬ Compare key k < 0 := by omega
  by_cases hb : height r' - height l ≤ 1
  · refine ⟨node k v l r' (1 + max (height l) (height r')), ?_, ?_, ?_, ?_⟩
    · rw [updateHeight_node, balance_node_mid _ _ _ _ _ (by omega) hb]
    · exact (Avl_node ..).2 ⟨hl, hr', rfl, by omega, hb⟩
    · rw [search_node, if_neg hc0, if_neg hc1, hs]
    · simp only [height_node, max_eq, SideTaller_node]
      omega
  · have hg : height r' = height r + 1 ∧ (r = nil ∨ SideTaller r' key) := by
      rcases hh with h1 | h1
      · omega
      · exact h1
    obtain ⟨hg1, hg2⟩ := hg
    have hst : SideTaller r' key := by
      rcases hg2 with h1 | h1
      · subst h1
        simp only [height_nil] at *
        omega
      · exact h1
    cases r' with
    | nil => exact absurd hst (by simp [SideTaller])
    | node x xv xl xr xh =>
      obtain ⟨hxl, hxr, hxh, bx1, bx2⟩ := (Avl_node ..).1 hr'
      have hxl0 := hxl.height_nonneg
      have hxr0 := hxr.height_nonneg
      rw [SideTaller_node] at hst
      simp only [height_node] at hb hg1
      by_cases hbf : height xl - height xr > 0
      · have hcx : Compare key x < 0 := by omega
        cases xl with
        | nil => simp only [height_nil] at hbf; omega
        | node z zv zl zr zh =>
          obtain ⟨hzl, hzr, hzh, bz1, bz2⟩ := (Avl_node ..).1 hxl
          have hzl0 := hzl.height_nonneg
          have hzr0 := hzr.height_nonneg
          simp only [height_node] at hbf hxh bx1 bx2 hxl0
          refine ⟨_, by rw [updateHeight_node, balance_node_RL _ _ _ _ _ _ _ _ _ _ _ _ _
            (by omega) hbf], ?_, ?_, ?_⟩
          · refine (Avl_node ..).2 ⟨(Avl_node ..).2 ⟨hl, hzl, rfl, ?_, ?_⟩,
              (Avl_node ..).2 ⟨hzr, hxr, rfl, ?_, ?_⟩, rfl, ?_, ?_⟩ <;>
            simp only [height_node, max_eq] at * <;> omega
          · simp only [search_node] at hs ⊢
            split_ifs at hs ⊢ <;> first | exact hs | omega
          · left
            simp only [height_node, max_eq] at *
            omega
      · refine ⟨_, by rw [updateHeight_node, balance_node_RR _ _ _ _ _ _ _ _ _
            (by omega) hbf], ?_, ?_, ?_⟩
        · refine (Avl_node ..).2 ⟨(Avl_node ..).2 ⟨hl, hxl, rfl, ?_, ?_⟩, hxr, rfl, ?_, ?_⟩ <;>
          simp only [height_node, max_eq] at * <;> omega
        · simp only [search_node] at hs ⊢
          split_ifs at hs ⊢ <;> exact hs
        · left
          simp only [height_node, max_eq] at *
          omega

end tree

namespace tree
open AVLNode

theorem strLess_irrefl : ∀ s : GoString, strLess s s = false
  | [] => rfl
  | a :: as => by
    simp only [strLess, lt_irrefl, if_false]
    exact strLess_irrefl as

theorem Compare_self (s : GoString) : Compare s s = 0 := by
  simp [Compare, strLess_irrefl]

theorem insert_node (k v : GoString) (l r : AVLNode) (h : Int) (key value : GoString) :
    insert (node k v l r h) key value =
      if Compare key k < 0 then
        (insert l key value).bind fun l' => balance (updateHeight (node k v l' r h))
      else if Compare key k > 0 then
        (insert r key value).bind fun r' => balance (updateHeight (node k v l r' h))
      else some (node key value l r h) := rfl

/-- `insert` on a tree of AVL shape does not panic, keeps the shape, makes `key` findable
with `value`, and grows the height by at most one. -/
theorem insert_spec (key value : GoString) :
    ∀ t : AVLNode, Avl t →
      ∃ t', insert t key value = some t' ∧ Avl t' ∧ search t' key = some value ∧
        (height t' = height t ∨
          (height t' = height t + 1 ∧ (t = nil ∨ SideTaller t' key)))
  | nil, _ => by
    refine ⟨node key value nil nil 1, rfl, ?_, ?_, ?_⟩
    · refine (Avl_node ..).2 ⟨trivial, trivial, ?_, ?_, ?_⟩ <;>
        simp only [height_nil, max_eq] <;> omega
    · rw [search_node, if_pos (Compare_self key)]
    · right
      exact ⟨by simp, Or.inl rfl⟩
  | node k v l r h, ha => by
    obtain ⟨hl, hr, hh, b1, b2⟩ := (Avl_node ..).1 ha
    rw [insert_node]
    by_cases c1 : Compare key k < 0
    · rw [if_pos c1]
      obtain ⟨l', e, hl', hs, hg⟩ := insert_spec key value l hl
      obtain ⟨t, et, hat, hst, hht⟩ :=
        insert_step_left k v l l' r h key value hl hl' hr b1 b2 c1 hs hg
      refine ⟨t, by rw [e]; exact et, hat, hst, ?_⟩
      simp only [height_node]
      rcases hht with h1 | ⟨h1, h2⟩
      · left; omega
      · right; exact ⟨by omega, Or.inr h2⟩
    · rw [if_neg c1]
      by_cases c2 : Compare key k > 0
      · rw [if_pos c2]
        obtain ⟨r', e, hr', hs, hg⟩ := insert_spec key value r hr
        obtain ⟨t, et, hat, hst, hht⟩ :=
          insert_step_right k v l r r' h key value hl hr hr' b1 b2 c2 hs hg
        refine ⟨t, by rw [e]; exact et, hat, hst, ?_⟩
        simp only [height_node]
        rcases hht with h1 | ⟨h1, h2⟩
        · left; omega
        · right; exact ⟨by omega, Or.inr h2⟩
      · rw [if_neg c2]
        refine ⟨_, rfl, (Avl_node ..).2 ⟨hl, hr, hh, b1, b2⟩, ?_, Or.inl rfl⟩
        rw [search_node, if_pos (Compare_self key)]

/-- `balance` after `updateHeight` restores the AVL shape when the children are of AVL
shape and differ in height by at most two. -/
theorem balance_avl (k v : GoString) (l r : AVLNode) (h : Int) (hl : Avl l) (hr : Avl r)
    (b1 : height l - height r ≤ 2) (b2 : height r - height l ≤ 2) :
    ∃ t, balance (updateHeight (node k v l r h)) = some t ∧ Avl t ∧
      (height t = 1 + max (height l) (height r) ∨
        (height t = max (height l) (height r) ∧
          (height l - height r = 2 ∨ height r - height l = 2))) := by
  have hl0 := hl.height_nonneg
  have hr0 := hr.height_nonneg
  rw [updateHeight_node]
  by_cases m1 : height l - height r ≤ 1
  · by_cases m2 : height r - height l ≤ 1
    · exact ⟨_, balance_node_mid _ _ _ _ _ m1 m2, (Avl_node ..).2 ⟨hl, hr, rfl, m1, m2⟩,
        Or.inl rfl⟩
    · cases r with
      | nil => simp only [height_nil] at *; omega
      | node x xv xl xr xh =>
        obtain ⟨hxl, hxr, hxh, bx1, bx2⟩ := (Avl_node ..).1 hr
        have hxl0 := hxl.height_nonneg
        have hxr0 := hxr.height_nonneg
        simp only [height_node] at *
        by_cases hbf : height xl - height xr > 0
        · cases xl with
          | nil => simp only [height_nil] at *; omega
          | node z zv zl zr zh =>
            obtain ⟨hzl, hzr, hzh, bz1, bz2⟩ := (Avl_node ..).1 hxl
            have hzl0 := hzl.height_nonneg
            have hzr0 := hzr.height_nonneg
            simp only [height_node] at *
            refine ⟨_, balance_node_RL _ _ _ _ _ _ _ _ _ _ _ _ _ (by omega) hbf, ?_, ?_⟩
            · refine (Avl_node ..).2 ⟨(Avl_node ..).2 ⟨hl, hzl, rfl, ?_, ?_⟩,
                (Avl_node ..).2 ⟨hzr, hxr, rfl, ?_, ?_⟩, rfl, ?_, ?_⟩ <;>
              simp only [height_node, max_eq] at * <;> omega
            · simp only [height_node, max_eq] at *
              omega
        · refine ⟨_, balance_node_RR _ _ _ _ _ _ _ _ _ (by omega) hbf, ?_, ?_⟩
          · refine (Avl_node ..).2 ⟨(Avl_node ..).2 ⟨hl, hxl, rfl, ?_, ?_⟩, hxr, rfl, ?_, ?_⟩ <;>
            simp only [height_node, max_eq] at * <;> omega
          · simp only [height_node, max_eq] at *
            omega
  · cases l with
    | nil => simp only [height_nil] at *; omega
    | node x xv xl xr xh =>
      obtain ⟨hxl, hxr, hxh, bx1, bx2⟩ := (Avl_node ..).1 hl
      have hxl0 := hxl.height_nonneg
      have hxr0 := hxr.height_nonneg
      simp only [height_node] at *
      by_cases hbf : height xl - height xr < 0
      · cases xr with
        | nil => simp only [height_nil] at *; omega
        | node z zv zl zr zh =>
          obtain ⟨hzl, hzr, hzh, bz1, bz2⟩ := (Avl_node ..).1 hxr
          have hzl0 := hzl.height_nonneg
          have hzr0 := hzr.height_nonneg
          simp only [height_node] at *
          refine ⟨_, balance_node_LR _ _ _ _ _ _ _ _ _ _ _ _ _ (by omega) hbf, ?_, ?_⟩
          · refine (Avl_node ..).2 ⟨(Avl_node ..).2 ⟨hxl, hzl, rfl, ?_, ?_⟩,
              (Avl_node ..).2 ⟨hzr, hr, rfl, ?_, ?_⟩, rfl, ?_, ?_⟩ <;>
            simp only [height_node, max_eq] at * <;> omega
          · simp only [height_node, max_eq] at *
            omega
      · refine ⟨_, balance_node_LL _ _ _ _ _ _ _ _ _ (by omega) hbf, ?_, ?_⟩
        · refine (Avl_node ..).2 ⟨hxl, (Avl_node ..).2 ⟨hxr, hr, rfl, ?_, ?_⟩, rfl, ?_, ?_⟩ <;>
          simp only [height_node, max_eq] at * <;> omega
        · simp only [height_node, max_eq] at *
          omega

theorem delete_node (k v : GoString) (l r : AVLNode) (h : Int) (key : GoString) :
    delete (node k v l r h) key =
      if Compare key k < 0 then
        (delete l key).bind fun l' => balance (updateHeight (node k v l' r h))
      else if Compare key k > 0 then
        (delete r key).bind fun r' => balance (updateHeight (node k v l r' h))
      else if l = nil then some r
      else if r = nil then some l
      else
        match minValueNode (node k v l r h) with
        | nil => none
        | node tk tv _ _ _ =>
          (delete r tk).bind fun r' => balance (updateHeight (node tk tv l r' h)) := rfl

theorem minValueNode_node : ∀ (l : AVLNode) (k v : GoString) (r : AVLNode) (h : Int),
    ∃ tk tv tl tr th, minValueNode (node k v l r h) = node tk tv tl tr th
  | nil, k, v, r, h => ⟨k, v, nil, r, h, rfl⟩
  | node k1 v1 l1 r1 h1, _, _, _, _ => by
    simp only [minValueNode]
    exact minValueNode_node l1 k1 v1 r1 h1

/-- `delete` on a tree of AVL shape does not panic, keeps the shape, and lowers the height
by at most one. -/
theorem delete_avl : ∀ (t : AVLNode) (key : GoString), Avl t →
    ∃ t', delete t key = some t' ∧ Avl t' ∧
      (height t' = height t ∨ height t' = height t - 1)
  | nil, _, _ => ⟨nil, rfl, trivial, Or.inl rfl⟩
  | node k v l r h, key, ha => by
    obtain ⟨hl, hr, hh, b1, b2⟩ := (Avl_node ..).1 ha
    have hl0 := hl.height_nonneg
    have hr0 := hr.height_nonneg
    rw [delete_node]
    by_cases c1 : Compare key k < 0
    · rw [if_pos c1]
      obtain ⟨l', e, hl', hg⟩ := delete_avl l key hl
      obtain ⟨t, et, hat, hht⟩ := balance_avl k v l' r h hl' hr (by omega) (by omega)
      refine ⟨t, by rw [e]; exact et, hat, ?_⟩
      simp only [height_node, max_eq] at *
      omega
    · rw [if_neg c1]
      by_cases c2 : Compare key k > 0
      · rw [if_pos c2]
        obtain ⟨r', e, hr', hg⟩ := delete_avl r key hr
        obtain ⟨t, et, hat, hht⟩ := balance_avl k v l r' h hl hr' (by omega) (by omega)
        refine ⟨t, by rw [e]; exact et, hat, ?_⟩
        simp only [height_node, max_eq] at *
        omega
      · rw [if_neg c2]
        by_cases n1 : l = nil
        · rw [if_pos n1]
          subst n1
          refine ⟨r, rfl, hr, ?_⟩
          simp only [height_node, height_nil, max_eq] at *
          omega
        · rw [if_neg n1]
          by_cases n2 : r = nil
          · rw [if_pos n2]
            subst n2
            refine ⟨l, rfl, hl, ?_⟩
            simp only [height_node, height_nil, max_eq] at *
            omega
          · rw [if_neg n2]
            obtain ⟨tk, tv, tl, tr, th, em⟩ := minValueNode_node l k v r h
            rw [em]
            obtain ⟨r', e, hr', hg⟩ := delete_avl r tk hr
            obtain ⟨t, et, hat, hht⟩ := balance_avl tk tv l r' h hl hr' (by omega) (by omega)
            refine ⟨t, by simp only [e, Option.some_bind]; exact et, hat, ?_⟩
            simp only [height_node, max_eq] at *
            omega

end tree

namespace memtable
open tree

/-- `Memtable.Put` on a memtable of AVL shape returns, keeps the shape and makes the key
readable with the value put. -/
theorem Memtable.Put_spec (m : Memtable) (ch : Nat) (key value : GoString)
    (ha : Avl m.tree.Root) :
    ∃ m' ch', m.Put ch key value = some (m', ch', true) ∧ Avl m'.tree.Root ∧
      m'.Get key = some value := by
  obtain ⟨t', e, hat, hst, _⟩ := insert_spec key value m.tree.Root ha
  simp only [Memtable.Put, AVLTree.Insert, e, Option.map_some']
  split
  · exact ⟨_, _, rfl, hat, hst⟩
  · exact ⟨_, _, rfl, hat, hst⟩

/-- `Memtable.Delete` on a memtable of AVL shape returns and keeps the shape. -/
theorem Memtable.Delete_spec (m : Memtable) (key : GoString) (ha : Avl m.tree.Root) :
    ∃ m', m.Delete key = some (m', false) ∧ Avl m'.tree.Root := by
  obtain ⟨t', e, hat, _⟩ := delete_avl m.tree.Root key ha
  simp only [Memtable.Delete, AVLTree.Delete, e, Option.map_some']
  exact ⟨_, rfl, hat⟩

end memtable

namespace lsm
open sstable tree

/-- Every reachable engine state has a memtable of AVL shape. -/
theorem Reachable.avl {s : LSMTree} (hs : Reachable s) : Avl s.memtable.tree.Root := by
  induction hs with
  | fresh opened fs s h =>
    cases opened with
    | none => simp [NewLSMTree, wal.NewWAL] at h
    | some bytes =>
      simp only [NewLSMTree, wal.NewWAL, Except.ok.injEq] at h
      subst h
      exact trivial
  | put s s' key value err _ h ih =>
    simp only [LSMTree.Put] at h
    split at h
    · cases h; exact ih
    · obtain ⟨m', ch', e, ha, _⟩ := memtable.Memtable.Put_spec s.memtable s.flushChan key value ih
      rw [e] at h
      cases h
      exact ha
  | delete s s' key err _ h ih =>
    simp only [LSMTree.Delete] at h
    split at h
    · cases h; exact ih
    · obtain ⟨m', e, ha⟩ := memtable.Memtable.Delete_spec s.memtable key ih
      rw [e] at h
      cases h
      exact ha
  | flush s s' range err _ h ih =>
    simp only [LSMTree.FlushMemtable] at h
    split at h
    · cases h; exact ih
    · cases h; exact trivial

/-- In a reachable state `Put` and `Delete` do not panic: they return, with or without an
error. -/
theorem Reachable.calls_return {s : LSMTree} (hs : Reachable s) (k v : GoString) :
    (∃ s' err, s.Put k v = .returned s' err) ∧ (∃ s' err, s.Delete k = .returned s' err) := by
  constructor
  · simp only [LSMTree.Put]
    split
    · exact ⟨_, _, rfl⟩
    · obtain ⟨m', ch', e, _, _⟩ := memtable.Memtable.Put_spec s.memtable s.flushChan k v hs.avl
      rw [e]
      exact ⟨_, _, rfl⟩
  · simp only [LSMTree.Delete]
    split
    · exact ⟨_, _, rfl⟩
    · obtain ⟨m', e, _⟩ := memtable.Memtable.Delete_spec s.memtable k hs.avl
      rw [e]
      exact ⟨_, _, rfl⟩

/-- C1. Read-your-writes: in every engine state reachable from a new engine by calls of
Put, Delete and FlushMemtable, a `Put(k, v)` that returns no error is followed by a
`Get(k)` that returns `(v, true)`. -/
theorem read_your_writes (s : LSMTree) (hs : Reachable s) (k v : GoString) (s' : LSMTree)
    (hput : s.Put k v = .returned s' none) : s'.Get k = some (v, true) := by
  simp only [LSMTree.Put] at hput
  split at hput
  · cases hput
  · obtain ⟨m', ch', e, _, hg⟩ := memtable.Memtable.Put_spec s.memtable s.flushChan k v hs.avl
    rw [e] at hput
    cases hput
    simp only [LSMTree.Get, hg]

end lsm

namespace tree
open AVLNode

theorem strLess_asymm : ∀ a b : GoString, strLess a b = true → strLess b a = false
  | [], [], h => by simp [strLess] at h
  | [], _ :: _, _ => by simp [strLess]
  | _ :: _, [], h => by simp [strLess] at h
  | a :: as, b :: bs, h => by
    simp only [strLess] at h ⊢
    by_cases h1 : a < b
    · have h2 : ¬ b < a := not_lt_of_lt h1
      simp only [h1, h2, if_true, if_false]
    · by_cases h2 : b < a
      · simp [h1, h2] at h
      · simp only [h1, h2, if_false] at h ⊢
        exact strLess_asymm as bs h

theorem strLess_eq_of_not : ∀ a b : GoString, strLess a b = false → strLess b a = false → a = b
  | [], [], _, _ => rfl
  | [], _ :: _, h, _ => by simp [strLess] at h
  | _ :: _, [], _, h => by simp [strLess] at h
  | a :: as, b :: bs, h1, h2 => by
    simp only [strLess] at h1 h2
    by_cases c1 : a < b
    · simp [c1] at h1
    · by_cases c2 : b < a
      · simp [c2] at h2
      · simp only [c1, c2, if_false] at h1 h2
        have hab : a = b := le_antisymm (not_lt.1 c2) (not_lt.1 c1)
        rw [hab, strLess_eq_of_not as bs h1 h2]

theorem Compare_eq_zero {a b : GoString} (h : Compare a b = 0) : a = b := by
  unfold Compare at h
  by_cases c1 : strLess a b = true
  · simp [c1] at h
  · by_cases c2 : strLess b a = true
    · simp [c1, c2] at h
    · exact strLess_eq_of_not a b (by simpa using c1) (by simpa using c2)

theorem Compare_neg {a b : GoString} (h : Compare a b < 0) : strLess a b = true := by
  unfold Compare at h
  by_cases c1 : strLess a b = true
  · exact c1
  · by_cases c2 : strLess b a = true
    · simp [c1, c2] at h
    · simp [c1, c2] at h

theorem Compare_pos {a b : GoString} (h : Compare a b > 0) :
    strLess a b = false ∧ strLess b a = true := by
  unfold Compare at h
  by_cases c1 : strLess a b = true
  · simp [c1] at h
  · by_cases c2 : strLess b a = true
    · exact ⟨by simpa using c1, c2⟩
    · simp [c1, c2] at h

theorem keys_node (k v : GoString) (l r : AVLNode) (h : Int) :
    keys (node k v l r h) = keys l ++ k :: keys r := rfl

theorem keys_updateHeight (t : AVLNode) : keys (updateHeight t) = keys t := by
  cases t <;> rfl

theorem keys_rightRotate {t t' : AVLNode} (h : rightRotate t = some t') : keys t' = keys t := by
  cases t with
  | nil => simp [rightRotate] at h
  | node k v l r hh =>
    cases l with
    | nil => simp [rightRotate] at h
    | node k1 v1 l1 n2 h1 =>
      simp only [rightRotate, updateHeight_node, Option.some.injEq] at h
      subst h
      simp [keys_node]

theorem keys_leftRotate {t t' : AVLNode} (h : leftRotate t = some t') : keys t' = keys t := by
  cases t with
  | nil => simp [leftRotate] at h
  | node k v l r hh =>
    cases r with
    | nil => simp [leftRotate] at h
    | node k1 v1 n2 r1 h1 =>
      simp only [leftRotate, updateHeight_node, Option.some.injEq] at h
      subst h
      simp [keys_node]

/-- Rebalancing keeps the left-to-right sequence of the keys. -/
theorem keys_balance {t t' : AVLNode} (h : balance t = some t') : keys t' = keys t := by
  cases t with
  | nil =>
    simp only [balance, Option.some.injEq] at h
    subst h; rfl
  | node k v l r hh =>
    simp only [balance] at h
    split at h
    · split at h
      · cases e : leftRotate l with
        | none => simp [e] at h
        | some l' =>
          simp only [e, Option.some_bind] at h
          rw [keys_rightRotate h, keys_node, keys_leftRotate e, keys_node]
      · exact keys_rightRotate h
    · split at h
      · split at h
        · cases e : rightRotate r with
          | none => simp [e] at h
          | some r' =>
            simp only [e, Option.some_bind] at h
            rw [keys_leftRotate h, keys_node, keys_rightRotate e, keys_node]
        · exact keys_leftRotate h
      · simp only [Option.some.injEq] at h
        subst h; rfl

theorem search_mem : ∀ (t : AVLNode) (key v : GoString), search t key = some v → key ∈ keys t
  | nil, _, _, h => by simp [search] at h
  | node k _ l r _, key, v, h => by
    rw [search_node] at h
    rw [keys_node]
    split at h
    · rename_i c
      rw [Compare_eq_zero c]
      simp
    · split at h
      · exact List.mem_append_left _ (search_mem l key v h)
      · exact List.mem_append_right _ (List.mem_cons_of_mem _ (search_mem r key v h))

theorem search_eq_none_of_not_mem (t : AVLNode) (key : GoString) (h : key ∉ keys t) :
    search t key = none := by
  cases e : search t key with
  | none => rfl
  | some v => exact absurd (search_mem t key v e) h

theorem minValueNode_mem : ∀ (l : AVLNode) (k v : GoString) (r : AVLNode) (h : Int)
    (tk tv : GoString) (tl tr : AVLNode) (th : Int),
    l ≠ nil → minValueNode (node k v l r h) = node tk tv tl tr th → tk ∈ keys l
  | nil, _, _, _, _, _, _, _, _, _, hn, _ => absurd rfl hn
  | node k1 v1 l1 r1 h1, k, v, r, h, tk, tv, tl, tr, th, _, e => by
    simp only [minValueNode] at e
    rw [keys_node]
    cases l1 with
    | nil =>
      simp only [minValueNode, node.injEq] at e
      simp [e.1]
    | node k2 v2 l2 r2 h2 =>
      exact List.mem_append_left _
        (minValueNode_mem (node k2 v2 l2 r2 h2) k1 v1 r1 h1 tk tv tl tr th (by simp) e)

/-- `delete` adds no key. -/
theorem delete_keys_subset : ∀ (t : AVLNode) (key : GoString) (t' : AVLNode),
    delete t key = some t' → ∀ y ∈ keys t', y ∈ keys t
  | nil, _, t', h => by
    simp only [delete, Option.some.injEq] at h
    subst h; simp
  | node k v l r hh, key, t', h => by
    intro y hy
    rw [delete_node] at h
    rw [keys_node]
    split at h
    · cases e : delete l key with
      | none => simp [e] at h
      | some l' =>
        simp only [e, Option.some_bind] at h
        rw [keys_balance h, keys_updateHeight, keys_node] at hy
        rcases List.mem_append.1 hy with h1 | h1
        · exact List.mem_append_left _ (delete_keys_subset l key l' e y h1)
        · exact List.mem_append_right _ h1
    · split at h
      · cases e : delete r key with
        | none => simp [e] at h
        | some r' =>
          simp only [e, Option.some_bind] at h
          rw [keys_balance h, keys_updateHeight, keys_node] at hy
          rcases List.mem_append.1 hy with h1 | h1
          · exact List.mem_append_left _ h1
          · rcases List.mem_cons.1 h1 with h2 | h2
            · exact List.mem_append_right _ (h2 ▸ List.mem_cons_self _ _)
            · exact List.mem_append_right _
                (List.mem_cons_of_mem _ (delete_keys_subset r key r' e y h2))
      · split at h
        · simp only [Option.some.injEq] at h
          subst h
          exact List.mem_append_right _ (List.mem_cons_of_mem _ hy)
        · split at h
          · simp only [Option.some.injEq] at h
            subst h
            exact List.mem_append_left _ hy
          · rename_i hl hr
            split at h
            · cases h
            · rename_i tk tv tl tr th em
              cases e : delete r tk with
              | none => simp [e] at h
              | some r' =>
                simp only [e, Option.some_bind] at h
                rw [keys_balance h, keys_updateHeight, keys_node] at hy
                rcases List.mem_append.1 hy with h1 | h1
                · exact List.mem_append_left _ h1
                · rcases List.mem_cons.1 h1 with h2 | h2
                  · exact List.mem_append_left _
                      (h2 ▸ minValueNode_mem l k v r hh tk tv tl tr th hl em)
                  · exact List.mem_append_right _
                      (List.mem_cons_of_mem _ (delete_keys_subset r tk r' e y h2))

/-- On a search tree `delete` leaves no node with the deleted key. -/
theorem delete_not_mem : ∀ (t : AVLNode) (key : GoString) (t' : AVLNode),
    Bst t → delete t key = some t' → key ∉ keys t'
  | nil, _, t', _, h => by
    simp only [delete, Option.some.injEq] at h
    subst h; simp [keys]
  | node k v l r hh, key, t', hb, h => by
    obtain ⟨bl, br, ol, orr⟩ := hb
    intro hy
    rw [delete_node] at h
    split at h
    · rename_i c
      have ck := Compare_neg c
      cases e : delete l key with
      | none => simp [e] at h
      | some l' =>
        simp only [e, Option.some_bind] at h
        rw [keys_balance h, keys_updateHeight, keys_node] at hy
        rcases List.mem_append.1 hy with h1 | h1
        · exact delete_not_mem l key l' bl e h1
        · rcases List.mem_cons.1 h1 with h2 | h2
          · rw [h2, strLess_irrefl] at ck
            cases ck
          · have := strLess_asymm _ _ (orr key h2)
            rw [ck] at this
            cases this
    · split at h
      · rename_i _ c
        have ck := Compare_pos c
        cases e : delete r key with
        | none => simp [e] at h
        | some r' =>
          simp only [e, Option.some_bind] at h
          rw [keys_balance h, keys_updateHeight, keys_node] at hy
          rcases List.mem_append.1 hy with h1 | h1
          · rw [ol key h1] at ck
            cases ck.1
          · rcases List.mem_cons.1 h1 with h2 | h2
            · rw [h2, strLess_irrefl] at ck
              cases ck.2
            · exact delete_not_mem r key r' br e h2
      · rename_i c1 c2
        have hk : key = k := Compare_eq_zero (by omega)
        subst hk
        have nl : key ∉ keys l := fun hm => by
          have := ol key hm
          rw [strLess_irrefl] at this
          cases this
        have nr : key ∉ keys r := fun hm => by
          have := orr key hm
          rw [strLess_irrefl] at this
          cases this
        split at h
        · simp only [Option.some.injEq] at h
          subst h
          exact nr hy
        · split at h
          · simp only [Option.some.injEq] at h
            subst h
            exact nl hy
          · rename_i hl hr
            split at h
            · cases h
            · rename_i tk tv tl tr th em
              have htk := minValueNode_mem l key v r hh tk tv tl tr th hl em
              cases e : delete r tk with
              | none => simp [e] at h
              | some r' =>
                simp only [e, Option.some_bind] at h
                rw [keys_balance h, keys_updateHeight, keys_node] at hy
                rcases List.mem_append.1 hy with h1 | h1
                · exact nl h1
                · rcases List.mem_cons.1 h1 with h2 | h2
                  · exact nl (h2 ▸ htk)
                  · exact nr (delete_keys_subset r tk r' e key h2)

end tree

namespace sstable

theorem readNewestFirst_absent (fs : FS) (key : GoString) :
    ∀ tables : List SSTable, (∀ sst ∈ tables, sst.index key = none) →
      readNewestFirst fs key tables = some ([], false)
  | [], _ => rfl
  | sst :: older, h => by
    have h1 : sst.index key = none := h sst (List.mem_cons_self _ _)
    have h2 : sst.Read fs key = some ([], false) := by simp [SSTable.Read, h1]
    simp only [readNewestFirst, h2]
    exact readNewestFirst_absent fs key older (fun t ht => h t (List.mem_cons_of_mem _ ht))

end sstable

namespace lsm
open sstable tree

theorem newEngine_eq : NewLSMTree (some []) FS.empty = .ok newEngine := rfl

theorem Reachable.call {s : LSMTree} (hs : Reachable s) (c : Call) :
    Reachable (after (s.call c) s) := by
  cases c with
  | put key value =>
    cases e : s.Put key value with
    | returned s' err => simpa [LSMTree.call, after, e] using Reachable.put s s' key value err hs e
    | panicked => simpa [LSMTree.call, after, e] using hs
  | delete key =>
    cases e : s.Delete key with
    | returned s' err => simpa [LSMTree.call, after, e] using Reachable.delete s s' key err hs e
    | panicked => simpa [LSMTree.call, after, e] using hs
  | flush range =>
    cases e : s.FlushMemtable range with
    | returned s' err =>
      simpa [LSMTree.call, after, e] using Reachable.flush s s' range err hs e
    | panicked => simpa [LSMTree.call, after, e] using hs

/-- Every state that a sequence of calls leads to from a reachable state is reachable. -/
theorem Reachable.run {s : LSMTree} (hs : Reachable s) (calls : List Call) :
    Reachable (run s calls) := by
  induction calls generalizing s with
  | nil => exact hs
  | cons c rest ih => exact ih (hs.call c)

theorem reachable_newEngine : Reachable newEngine :=
  Reachable.fresh (some []) FS.empty newEngine newEngine_eq

theorem returned_of_ok {s : LSMTree} {o : Outcome LSMTree} (h : o.ok = true) :
    o = .returned (after o s) none := by
  cases o with
  | panicked => simp [Outcome.ok] at h
  | returned s' err =>
    cases err with
    | none => rfl
    | some e => simp [Outcome.ok] at h

/-- Witness of C1 on a state whose memtable is no search tree any more: after
Put c, Put b, Put d, Delete c the call Put(b, "2") returns no error and is followed by
Get(b) = ("2", true). -/
theorem read_your_writes_witness :
    ((run newEngine [.put [99] [48], .put [98] [49], .put [100] [48], .delete [99]]).Put
        [98] [50]).ok = true ∧
    (after ((run newEngine [.put [99] [48], .put [98] [49], .put [100] [48],
        .delete [99]]).Put [98] [50])
      (run newEngine [.put [99] [48], .put [98] [49], .put [100] [48],
        .delete [99]])).Get [98] = some ([50], true) :=
  ⟨by decide, read_your_writes _ (reachable_newEngine.run _) [98] [50] _
    (returned_of_ok (by decide))⟩

/-- C2, as stated, fails: after Put(a, "1") and FlushMemtable, Delete(a) returns no error
and removes the key from the memtable, and Get(a) then finds the flushed value. -/
theorem delete_visible_across_flush_counterexample :
    Reachable (run newEngine [.put [97] [49], .flush RangeOrder.id]) ∧
    ((run newEngine [.put [97] [49], .flush RangeOrder.id]).Delete [97]).ok = true ∧
    (after ((run newEngine [.put [97] [49], .flush RangeOrder.id]).Delete [97])
      (run newEngine [.put [97] [49], .flush RangeOrder.id])).Get [97] =
      some ([49], true) :=
  ⟨reachable_newEngine.run _, by decide, by decide⟩

/-- C2, amended. In every engine state whose memtable is a search tree, after a
`Delete(k)` that returns no error the key is gone from the memtable and `Get(k)` returns
what the SSTable manager's `Read(k)` returns; that is not-found when no flushed run has `k`
in its index.  The delete leaves no tombstone. -/
theorem delete_then_get (s : LSMTree) (hb : Bst s.memtable.tree.Root) (k : GoString)
    (s' : LSMTree) (hdel : s.Delete k = .returned s' none) :
    s'.Get k = s.sstableManager.Read s.fs k ∧
      ((∀ sst ∈ s.sstableManager.tables, sst.index k = none) →
        s'.Get k = some ([], false)) := by
  simp only [LSMTree.Delete] at hdel
  split at hdel
  · cases hdel
  · split at hdel
    · cases hdel
    · rename_i m b hm
      cases hdel
      simp only [memtable.Memtable.Delete, AVLTree.Delete, Option.map_eq_some'] at hm
      obtain ⟨p, hp, e⟩ := hm
      obtain ⟨q, hq, rfl⟩ := hp
      cases e
      have hn : search q k = none :=
        search_eq_none_of_not_mem q k (delete_not_mem s.memtable.tree.Root k q hb hq)
      have hget : ∀ w : wal.WAL,
          LSMTree.Get { s with wal := w, memtable := { s.memtable with tree := ⟨q⟩ } } k
            = s.sstableManager.Read s.fs k := by
        intro w
        simp only [LSMTree.Get, memtable.Memtable.Get, AVLTree.Search, hn]
      refine ⟨hget _, fun h => ?_⟩
      rw [hget]
      simp only [SSTableManager.Read]
      exact readNewestFirst_absent _ _ _ (fun t ht => h t (List.mem_reverse.1 ht))

/-- Witness of the amended C2: with "1" flushed for key a and "2" put afterwards, the
memtable is a search tree, Delete(a) returns no error, and Get(a) gives the manager's
answer, the flushed ("1", true). -/
theorem delete_then_get_witness :
    Bst (run newEngine [.put [97] [49], .flush RangeOrder.id,
      .put [97] [50]]).memtable.tree.Root ∧
    ((run newEngine [.put [97] [49], .flush RangeOrder.id, .put [97] [50]]).Delete
      [97]).ok = true ∧
    (after ((run newEngine [.put [97] [49], .flush RangeOrder.id, .put [97] [50]]).Delete
        [97])
      (run newEngine [.put [97] [49], .flush RangeOrder.id, .put [97] [50]])).Get [97] =
      some ([49], true) :=
  ⟨by decide, by decide,
   (delete_then_get (run newEngine [.put [97] [49], .flush RangeOrder.id, .put [97] [50]])
      (by decide) [97] _ (returned_of_ok (by decide))).1.trans (by decide)⟩

end lsm

namespace wal

theorem byteOf_val (n : Nat) : (byteOf n).val = n % 256 := rfl

theorem leValue_u32le (n : Nat) : leValue (u32le n) = n % 2 ^ 32 := by
  simp only [u32le, leValue, byteOf_val]
  omega

theorem length_u32le (n : Nat) : (u32le n).length = 4 := rfl

theorem leValue_lt : ∀ bs : List Byte, leValue bs < 256 ^ bs.length
  | [] => by simp [leValue]
  | b :: bs => by
    have h1 := leValue_lt bs
    have h2 : b.val < 256 := b.isLt
    simp only [leValue, List.length_cons, pow_succ]
    omega

/-- C6, as stated, fails for a key of 2^32 bytes: whatever `AppendPut` writes, no four
bytes hold that length as an unsigned little-endian number, so the bytes appended are not
"0x01, len(key) in 4 bytes, key, len(value) in 4 bytes, value". -/
theorem append_framing_counterexample :
    ¬ ∃ kl vl : List Byte, kl.length = 4 ∧ vl.length = 4 ∧
        leValue kl = (List.replicate (2 ^ 32) (0 : Byte)).length ∧
        leValue vl = ([] : GoString).length ∧
        (newLog.AppendPut (List.replicate (2 ^ 32) 0) []).1.file.data =
          newLog.file.data ++
            ([(1 : Byte)] ++ kl ++ List.replicate (2 ^ 32) 0 ++ vl ++ []) := by
  rintro ⟨kl, vl, h1, _, h2, _, _⟩
  have h3 := leValue_lt kl
  rw [h1, h2, List.length_replicate] at h3
  exact absurd h3 (by decide)

/-- C6, amended. An `AppendPut(key, value)` that returns no error appends exactly the byte
0x01, four bytes holding `len(key) mod 2^32` unsigned little-endian, the key bytes, four
bytes holding `len(value) mod 2^32`, and the value bytes; an `AppendDelete(key)` that
returns no error appends exactly the byte 0x02, the four length bytes and the key bytes.
For keys and values shorter than 2^32 bytes the length fields hold the lengths
themselves. -/
theorem append_framing (w : WAL) (key value : GoString) :
    ((w.AppendPut key value).2 = none →
      ∃ kl vl : List Byte, kl.length = 4 ∧ vl.length = 4 ∧
        leValue kl = key.length % 2 ^ 32 ∧ leValue vl = value.length % 2 ^ 32 ∧
        (key.length < 2 ^ 32 → leValue kl = key.length) ∧
        (value.length < 2 ^ 32 → leValue vl = value.length) ∧
        (w.AppendPut key value).1.file.data =
          w.file.data ++ ([(1 : Byte)] ++ kl ++ key ++ vl ++ value)) ∧
    ((w.AppendDelete key).2 = none →
      ∃ kl : List Byte, kl.length = 4 ∧ leValue kl = key.length % 2 ^ 32 ∧
        (key.length < 2 ^ 32 → leValue kl = key.length) ∧
        (w.AppendDelete key).1.file.data = w.file.data ++ ([(2 : Byte)] ++ kl ++ key)) := by
  constructor
  · intro h
    refine ⟨u32le key.length, u32le value.length, rfl, rfl, leValue_u32le _, leValue_u32le _,
      fun hk => by rw [leValue_u32le, Nat.mod_eq_of_lt hk],
      fun hv => by rw [leValue_u32le, Nat.mod_eq_of_lt hv], ?_⟩
    unfold WAL.AppendPut at h ⊢
    cases he : w.writerErr with
    | some e => simp [he] at h
    | none =>
      simp only [he, flush] at h ⊢
      split at h
      · cases h
      · rename_i hc
        simp only [hc, putBytes]
        simp
  · intro h
    refine ⟨u32le key.length, rfl, leValue_u32le _,
      fun hk => by rw [leValue_u32le, Nat.mod_eq_of_lt hk], ?_⟩
    unfold WAL.AppendDelete at h ⊢
    cases he : w.writerErr with
    | some e => simp [he] at h
    | none =>
      simp only [he, flush] at h ⊢
      split at h
      · cases h
      · rename_i hc
        simp only [hc, deleteBytes]
        simp

/-- Witness of the amended C6 on a new log: AppendPut("a", "1") and AppendDelete("a")
return no error and append the framed bytes. -/
theorem append_framing_witness :
    (∃ kl vl : List Byte, kl.length = 4 ∧ vl.length = 4 ∧
        leValue kl = ([97] : GoString).length % 2 ^ 32 ∧
        leValue vl = ([49] : GoString).length % 2 ^ 32 ∧
        (([97] : GoString).length < 2 ^ 32 → leValue kl = ([97] : GoString).length) ∧
        (([49] : GoString).length < 2 ^ 32 → leValue vl = ([49] : GoString).length) ∧
        (newLog.AppendPut [97] [49]).1.file.data =
          newLog.file.data ++ ([(1 : Byte)] ++ kl ++ [97] ++ vl ++ [49])) ∧
    (∃ kl : List Byte, kl.length = 4 ∧ leValue kl = ([97] : GoString).length % 2 ^ 32 ∧
        (([97] : GoString).length < 2 ^ 32 → leValue kl = ([97] : GoString).length) ∧
        (newLog.AppendDelete [97]).1.file.data =
          newLog.file.data ++ ([(2 : Byte)] ++ kl ++ [97])) :=
  ⟨(append_framing newLog [97] [49]).1 (by decide),
   (append_framing newLog [97] [49]).2 (by decide)⟩

/-- C4 fails on the code (evaluation at the failing input): on the log `NewWAL` opens,
after AppendPut("a", "1") returned no error, `Replay` returns the error of the first
`ReadByte` on the write-only handle and never calls the callback. -/
theorem replay_after_append_fails :
    NewWAL (some []) = .ok newLog ∧
    (newLog.AppendPut [97] [49]).2 = none ∧
    (newLog.AppendPut [97] [49]).1.Replay (pureApply recordCall) [] =
      some (.returned [] (some (.readOpType .badFileDescriptor))) :=
  ⟨rfl, by decide, by decide⟩

end wal

namespace lsm
open sstable tree

/-- C7. Durability before visibility: when the WAL append fails with an error, the
engine's `Put` (and likewise `Delete`) returns that error and leaves the memtable exactly
as it was, with no new value in the flush channel. -/
theorem wal_failure_keeps_memtable (s : LSMTree) (key value : GoString) (e : Error) :
    ((s.wal.AppendPut key value).2 = some e →
      ∃ s', s.Put key value = .returned s' (some e) ∧
        s'.memtable = s.memtable ∧ s'.flushChan = s.flushChan) ∧
    ((s.wal.AppendDelete key).2 = some e →
      ∃ s', s.Delete key = .returned s' (some e) ∧
        s'.memtable = s.memtable ∧ s'.flushChan = s.flushChan) := by
  constructor
  · intro h
    cases hw : s.wal.AppendPut key value with
    | mk w err =>
      rw [hw] at h
      cases h
      exact ⟨{ s with wal := w }, by simp only [LSMTree.Put, hw], rfl, rfl⟩
  · intro h
    cases hw : s.wal.AppendDelete key with
    | mk w err =>
      rw [hw] at h
      cases h
      exact ⟨{ s with wal := w }, by simp only [LSMTree.Delete, hw], rfl, rfl⟩

/-- Witness of C7: on a new engine whose log was closed, the appends fail with the
closed-file error, `Put` and `Delete` return it and the memtable and the flush channel
are untouched. -/
theorem wal_failure_keeps_memtable_witness :
    (∃ s', LSMTree.Put { newEngine with wal := newEngine.wal.Close.1 } [97] [49] =
        .returned s' (some .fileClosed) ∧
        s'.memtable = newEngine.memtable ∧ s'.flushChan = newEngine.flushChan) ∧
    (∃ s', LSMTree.Delete { newEngine with wal := newEngine.wal.Close.1 } [97] =
        .returned s' (some .fileClosed) ∧
        s'.memtable = newEngine.memtable ∧ s'.flushChan = newEngine.flushChan) :=
  ⟨(wal_failure_keeps_memtable { newEngine with wal := newEngine.wal.Close.1 } [97] [49]
      .fileClosed).1 (by decide),
   (wal_failure_keeps_memtable { newEngine with wal := newEngine.wal.Close.1 } [97] [49]
      .fileClosed).2 (by decide)⟩

/-- C3 fails on the code (evaluation at failing inputs).  First: after Put("a", "1")
returned no error and the process restarts, `Recover` returns the read error of the
write-only log handle and Get("a") finds nothing.  Second, were the handle readable:
after Put b, Put a, Put c, Delete b, Delete a, all without error, `Recover` returns no
error and Get("a") still finds the value "1", although the last mutation of a is a
Delete. -/
theorem recover_loses_or_revives :
    (∃ s, restart (run newEngine [.put [97] [49]]) = .ok s ∧
      ∃ s', s.Recover = some (.returned s' (some (.readOpType .badFileDescriptor))) ∧
        s'.Get [97] = some ([], false)) ∧
    (∃ s', (restartReadable (run newEngine [.put [98] [50], .put [97] [49], .put [99] [51],
        .delete [98], .delete [97]])).Recover = some (.returned s' none) ∧
      s'.Get [97] = some ([49], true)) :=
  ⟨⟨_, rfl, _, rfl, by decide⟩, ⟨_, rfl, by decide⟩⟩

/-- C8 fails on the code (evaluation at the failing input): in the state reached by
Put c, Put b="1", Put d, Delete c, Put a, Delete d, the call Put(b, "2") returns no error,
FlushMemtable then returns no error, and Get(b) returns the older ("1", true). -/
theorem get_after_flush_returns_old_value :
    Reachable (run newEngine [.put [99] [48], .put [98] [49], .put [100] [48], .delete [99],
      .put [97] [48], .delete [100]]) ∧
    ((run newEngine [.put [99] [48], .put [98] [49], .put [100] [48], .delete [99],
      .put [97] [48], .delete [100]]).Put [98] [50]).ok = true ∧
    ((run newEngine [.put [99] [48], .put [98] [49], .put [100] [48], .delete [99],
      .put [97] [48], .delete [100], .put [98] [50]]).FlushMemtable RangeOrder.id).ok = true ∧
    (run newEngine [.put [99] [48], .put [98] [49], .put [100] [48], .delete [99],
      .put [97] [48], .delete [100], .put [98] [50]]).Get [98] = some ([50], true) ∧
    (run newEngine [.put [99] [48], .put [98] [49], .put [100] [48], .delete [99],
      .put [97] [48], .delete [100], .put [98] [50], .flush RangeOrder.id]).Get [98] =
        some ([49], true) :=
  ⟨reachable_newEngine.run _, by decide, by decide, by decide, by decide⟩

/-- C10 fails on the code (evaluation at the failing input): after Put b, Put a, Put c and
Delete b the traversal of the memtable visits the keys a, a, c: the key a twice. -/
theorem traversal_visits_key_twice :
    Reachable (run newEngine [.put [98] [50], .put [97] [49], .put [99] [51],
      .delete [98]]) ∧
    visitedKeys (run newEngine [.put [98] [50], .put [97] [49], .put [99] [51],
      .delete [98]]) = [[97], [97], [99]] :=
  ⟨reachable_newEngine.run _, by decide⟩

end lsm

namespace wal

theorem readUint32_u32le (n : Nat) (tail : List Byte) :
    readUint32 (u32le n ++ tail) = .ok (n % 2 ^ 32, tail) := by
  have h1 : 4 ≤ (u32le n ++ tail).length := by
    rw [List.length_append, length_u32le]; omega
  have h2 : (u32le n ++ tail).take 4 = u32le n := by
    rw [List.take_append_of_le_length (by rw [length_u32le])]
    exact List.take_of_length_le (by rw [length_u32le])
  have h3 : (u32le n ++ tail).drop 4 = tail := List.drop_left' (length_u32le n)
  simp only [readUint32, h1, if_true, h2, h3, leValue_u32le]

theorem readUint32_short (bs : List Byte) (h : bs.length < 4) :
    ∃ e, readUint32 bs = .error e := by
  have h1 : ¬ 4 ≤ bs.length := by omega
  simp only [readUint32, h1, if_false]
  split
  · exact ⟨_, rfl⟩
  · exact ⟨_, rfl⟩

theorem readFull_append (xs tail : List Byte) :
    readFull xs.length (xs ++ tail) = .ok (xs, tail) := by
  have h1 : xs.length ≤ (xs ++ tail).length := by
    rw [List.length_append]; omega
  simp only [readFull, h1, if_true, List.take_left, List.drop_left]

theorem readFull_short (n : Nat) (bs : List Byte) (h : bs.length < n) :
    ∃ e, readFull n bs = .error e := by
  have h1 : ¬ n ≤ bs.length := by omega
  simp only [readFull, h1, if_false]
  split
  · exact ⟨_, rfl⟩
  · exact ⟨_, rfl⟩

/-- One round of the replay loop over a complete record. -/
theorem replayLoop_record {σ : Type} (step : σ → Byte → GoString → GoString → σ)
    (fuel : Nat) (r : Record) (hr : r.Fits) (tail : List Byte) (s : σ) :
    replayLoop (pureApply step) (fuel + 1) (r.bytes ++ tail) s =
      replayLoop (pureApply step) fuel tail (step s r.call.1 r.call.2.1 r.call.2.2) := by
  cases r with
  | put key value =>
    obtain ⟨hk, hv⟩ := hr
    have e : (Record.put key value).bytes ++ tail =
        (1 : Byte) :: (u32le key.length ++ (key ++ (u32le value.length ++ (value ++ tail)))) := by
      simp [Record.bytes, putBytes]
    rw [e]
    simp only [replayLoop, readUint32_u32le, Nat.mod_eq_of_lt hk, Nat.mod_eq_of_lt hv,
      readFull_append, if_true, pureApply, Record.call]
  | delete key =>
    have hk : key.length < 2 ^ 32 := hr
    have e : (Record.delete key).bytes ++ tail =
        (2 : Byte) :: (u32le key.length ++ (key ++ tail)) := by
      simp [Record.bytes, deleteBytes]
    rw [e]
    have h21 : ¬ ((2 : Byte) = 1) := by decide
    simp only [replayLoop, readUint32_u32le, Nat.mod_eq_of_lt hk,
      readFull_append, h21, if_false, pureApply, Record.call]

/-- The replay loop over complete records followed by `tail`. -/
theorem replayLoop_records {σ : Type} (step : σ → Byte → GoString → GoString → σ) :
    ∀ (rs : List Record) (fuel : Nat) (tail : List Byte) (s : σ),
      (∀ r ∈ rs, r.Fits) →
      replayLoop (pureApply step) (fuel + rs.length) (logBytes rs ++ tail) s =
        replayLoop (pureApply step) fuel tail (applyRecords step rs s)
  | [], fuel, tail, s, _ => by simp [logBytes, applyRecords]
  | r :: rs, fuel, tail, s, h => by
    have e : fuel + (r :: rs).length = (fuel + rs.length) + 1 := by
      simp only [List.length_cons]; omega
    rw [e, logBytes, List.append_assoc,
      replayLoop_record step _ r (h r (List.mem_cons_self _ _))]
    rw [replayLoop_records step rs fuel tail _ (fun x hx => h x (List.mem_cons_of_mem _ hx))]
    rfl

theorem length_putBytes (key value : GoString) :
    (putBytes key value).length = 9 + key.length + value.length := by
  rw [putBytes, List.length_append, List.length_append, List.length_append,
    List.length_append, length_u32le, length_u32le, List.length_singleton]
  omega

theorem length_deleteBytes (key : GoString) : (deleteBytes key).length = 5 + key.length := by
  simp only [deleteBytes, List.length_append, length_u32le, List.length_singleton]

theorem Record.length_bytes_pos (r : Record) : 5 ≤ r.bytes.length := by
  cases r with
  | put key value => rw [Record.bytes, length_putBytes]; omega
  | delete key => rw [Record.bytes, length_deleteBytes]; omega

theorem length_logBytes_ge : ∀ rs : List Record, rs.length ≤ (logBytes rs).length
  | [] => by simp [logBytes]
  | r :: rs => by
    have h1 := Record.length_bytes_pos r
    have h2 := length_logBytes_ge rs
    simp only [logBytes, List.length_append, List.length_cons]
    omega

theorem take_append_ge {α : Type} (x y : List α) (m : Nat) (h : x.length ≤ m) :
    (x ++ y).take m = x ++ y.take (m - x.length) := by
  rw [List.take_append_eq_append_take, List.take_of_length_le h]

/-- The replay loop over a record of which only a proper, non-empty part is left: it
returns an error and does not call the callback. -/
theorem replayLoop_torn {σ : Type} (step : σ → Byte → GoString → GoString → σ)
    (fuel : Nat) (r : Record) (hr : r.Fits) (m : Nat) (h0 : 0 < m) (h1 : m < r.bytes.length)
    (s : σ) :
    ∃ e, replayLoop (pureApply step) (fuel + 1) (r.bytes.take m) s =
      some (.returned s (some e)) := by
  obtain ⟨m', rfl⟩ : ∃ m', m = m' + 1 := ⟨m - 1, by omega⟩
  cases r with
  | put key value =>
    obtain ⟨hk, hv⟩ := hr
    rw [Record.bytes, length_putBytes] at h1
    have e : (Record.put key value).bytes =
        (1 : Byte) :: (u32le key.length ++ (key ++ (u32le value.length ++ value))) := by
      simp [Record.bytes, putBytes]
    rw [e, List.take_succ_cons]
    by_cases c1 : m' < 4
    · obtain ⟨e1, he1⟩ := readUint32_short
        ((u32le key.length ++ (key ++ (u32le value.length ++ value))).take m')
        (by rw [List.length_take]; omega)
      exact ⟨.readKeyLen e1, by simp only [replayLoop, he1]⟩
    · rw [take_append_ge _ _ _ (by rw [length_u32le]; omega), length_u32le]
      by_cases c2 : m' - 4 < key.length
      · obtain ⟨e1, he1⟩ := readFull_short key.length
          ((key ++ (u32le value.length ++ value)).take (m' - 4))
          (by rw [List.length_take]; omega)
        exact ⟨.readKey e1,
          by simp only [replayLoop, readUint32_u32le, Nat.mod_eq_of_lt hk, he1]⟩
      · rw [take_append_ge _ _ _ (by omega)]
        by_cases c3 : m' - 4 - key.length < 4
        · obtain ⟨e1, he1⟩ := readUint32_short
            ((u32le value.length ++ value).take (m' - 4 - key.length))
            (by rw [List.length_take]; omega)
          exact ⟨.readValueLen e1, by simp only [replayLoop, readUint32_u32le,
            Nat.mod_eq_of_lt hk, readFull_append, if_true, he1]⟩
        · rw [take_append_ge _ _ _ (by rw [length_u32le]; omega), length_u32le]
          obtain ⟨e1, he1⟩ := readFull_short value.length
            (value.take (m' - 4 - key.length - 4))
            (by rw [List.length_take]; omega)
          exact ⟨.readValue e1, by simp only [replayLoop, readUint32_u32le,
            Nat.mod_eq_of_lt hk, Nat.mod_eq_of_lt hv, readFull_append, if_true, he1]⟩
  | delete key =>
    have hk : key.length < 2 ^ 32 := hr
    rw [Record.bytes, length_deleteBytes] at h1
    have e : (Record.delete key).bytes = (2 : Byte) :: (u32le key.length ++ key) := by
      simp [Record.bytes, deleteBytes]
    rw [e, List.take_succ_cons]
    by_cases c1 : m' < 4
    · obtain ⟨e1, he1⟩ := readUint32_short ((u32le key.length ++ key).take m')
        (by rw [List.length_take]; omega)
      exact ⟨.readKeyLen e1, by simp only [replayLoop, he1]⟩
    · rw [take_append_ge _ _ _ (by rw [length_u32le]; omega), length_u32le]
      obtain ⟨e1, he1⟩ := readFull_short key.length (key.take (m' - 4))
        (by rw [List.length_take]; omega)
      exact ⟨.readKey e1,
        by simp only [replayLoop, readUint32_u32le, Nat.mod_eq_of_lt hk, he1]⟩

theorem logBytes_append (xs ys : List Record) :
    logBytes (xs ++ ys) = logBytes xs ++ logBytes ys := by
  induction xs with
  | nil => rfl
  | cons r rs ih => rw [List.cons_append, logBytes, logBytes, ih, List.append_assoc]

/-- C5, as stated, fails: a log that holds the one record Put("a", "1") without its last
byte makes `Replay` return an error, both on a handle that can be read and on the handle
that `NewWAL` opens. -/
theorem replay_torn_tail_counterexample :
    (readableLog ((logBytes [.put [97] [49]]).take 10)).Replay (pureApply recordCall) [] =
      some (.returned [] (some (.readValue .eof))) ∧
    (∃ w, NewWAL (some ((logBytes [.put [97] [49]]).take 10)) = .ok w ∧
      w.Replay (pureApply recordCall) [] =
        some (.returned [] (some (.readOpType .badFileDescriptor)))) :=
  ⟨by decide, _, rfl, by decide⟩

/-- C5, amended. On a log handle that is open for reading, for a log of `n ≥ 1` complete
records (lengths below 2^32) with its last `t` bytes removed, `1 ≤ t ≤` length of the
final record, and a callback that returns no error: `Replay` returns, having called the
callback exactly for the first `n - 1` records in order, and the error it returns is nil
exactly when `t` is the whole length of the final record; for every smaller `t` it
returns a read error for the torn record. -/
theorem replay_torn_tail {σ : Type} (step : σ → Byte → GoString → GoString → σ) (s0 : σ)
    (init : List Record) (last : Record) (t : Nat) (w : WAL)
    (hfit : ∀ r ∈ init ++ [last], r.Fits) (ht1 : 1 ≤ t) (ht2 : t ≤ last.bytes.length)
    (hopen : w.file.closed = false) (hread : w.file.readable = true)
    (hdata : w.file.data =
      (logBytes (init ++ [last])).take ((logBytes (init ++ [last])).length - t)) :
    ∃ err, w.Replay (pureApply step) s0 =
        some (.returned (applyRecords step init s0) err) ∧
      (err = none ↔ t = last.bytes.length) := by
  have hl : logBytes (init ++ [last]) = logBytes init ++ last.bytes := by
    rw [logBytes_append]; simp [logBytes]
  have hd : w.file.data = logBytes init ++ last.bytes.take (last.bytes.length - t) := by
    rw [hdata, hl, List.length_append, take_append_ge _ _ _ (by omega)]
    congr 2
    omega
  have hfi : ∀ r ∈ init, r.Fits := fun r hr => hfit r (List.mem_append_left _ hr)
  have hfl : last.Fits := hfit last (List.mem_append_right _ (List.mem_singleton_self _))
  have hlen := length_logBytes_ge init
  have hpos := Record.length_bytes_pos last
  have htl : (last.bytes.take (last.bytes.length - t)).length = last.bytes.length - t := by
    rw [List.length_take]; omega
  have hdl : w.file.data.length = (logBytes init).length + (last.bytes.length - t) := by
    rw [hd, List.length_append, htl]
  unfold WAL.Replay
  simp only [hopen, hread, Bool.false_eq_true, if_false]
  by_cases hz : w.file.data.length = 0
  · rw [if_pos hz]
    have hi : init = [] := List.eq_nil_of_length_eq_zero (by omega)
    have ht : t = last.bytes.length := by omega
    subst hi
    exact ⟨none, rfl, fun _ => ht, fun _ => rfl⟩
  · rw [if_neg hz]
    obtain ⟨f, hf⟩ : ∃ f, w.file.data.length + 1 = (f + 1) + init.length :=
      ⟨w.file.data.length - init.length, by omega⟩
    rw [hf, hd, replayLoop_records step init _ _ s0 hfi]
    by_cases hm : last.bytes.length - t = 0
    · rw [hm, List.take_zero]
      exact ⟨none, rfl, fun _ => by omega, fun _ => rfl⟩
    · obtain ⟨e, he⟩ := replayLoop_torn step f last hfl (last.bytes.length - t)
        (by omega) (by omega) (applyRecords step init s0)
      refine ⟨some e, he, ?_⟩
      constructor
      · intro h; cases h
      · intro h; omega

/-- Witness of the amended C5: the log of Put("a", "1"), Delete("a"), Put("b", "2") with
3 of the 11 bytes of its final record removed; `Replay` calls the callback for the first
two records and returns a read error. -/
theorem replay_torn_tail_witness :
    ∃ err, (readableLog ((logBytes ([.put [97] [49], .delete [97]] ++ [.put [98] [50]])).take
          ((logBytes ([.put [97] [49], .delete [97]] ++ [.put [98] [50]])).length - 3))).Replay
        (pureApply recordCall) [] =
        some (.returned (applyRecords recordCall [.put [97] [49], .delete [97]] []) err) ∧
      (err = none ↔ 3 = (Record.put [98] [50]).bytes.length) :=
  replay_torn_tail recordCall [] [.put [97] [49], .delete [97]] (.put [98] [50]) 3
    (readableLog ((logBytes ([.put [97] [49], .delete [97]] ++ [.put [98] [50]])).take
      ((logBytes ([.put [97] [49], .delete [97]] ++ [.put [98] [50]])).length - 3)))
    (by decide) (by decide) (by decide) (by rfl) (by rfl) (by rfl)

end wal

namespace wal

/-- The appends for a list of records on a log without error whose file is open: none of
them returns an error, and the file grows by exactly the bytes of the records. -/
theorem appendAll_data : ∀ (rs : List Record) (w : WAL),
    w.writerErr = none → w.file.closed = false →
    (w.appendAll rs).file.data = w.file.data ++ logBytes rs ∧
      (w.appendAll rs).writerErr = none ∧ (w.appendAll rs).file.closed = false ∧
      (w.appendAll rs).file.readable = w.file.readable
  | [], w, h1, h2 => by simp [WAL.appendAll, logBytes, h1, h2]
  | r :: rs, w, h1, h2 => by
    have hstep : (w.Append r).1 =
        { w with file := { w.file with data := w.file.data ++ r.bytes } } := by
      cases r <;> simp [WAL.Append, WAL.AppendPut, WAL.AppendDelete, flush, h1, h2,
        Record.bytes]
    have ih := appendAll_data rs (w.Append r).1 (by rw [hstep]; exact h1)
      (by rw [hstep]; exact h2)
    have e : w.appendAll (r :: rs) = (w.Append r).1.appendAll rs := rfl
    rw [e]
    refine ⟨?_, ih.2.1, ih.2.2.1, ?_⟩
    · rw [ih.1, hstep, logBytes, List.append_assoc]
    · rw [ih.2.2.2, hstep]

/-- On a log handle that is open for reading, `Replay` over a log of complete records
(lengths below 2^32) calls the callback once per record, in order, and returns no error. -/
theorem replay_round_trip {σ : Type} (step : σ → Byte → GoString → GoString → σ) (s0 : σ)
    (rs : List Record) (w : WAL) (hfit : ∀ r ∈ rs, r.Fits)
    (hopen : w.file.closed = false) (hread : w.file.readable = true)
    (hdata : w.file.data = logBytes rs) :
    w.Replay (pureApply step) s0 = some (.returned (applyRecords step rs s0) none) := by
  have hlen := length_logBytes_ge rs
  unfold WAL.Replay
  simp only [hopen, hread, Bool.false_eq_true, if_false]
  by_cases hz : w.file.data.length = 0
  · rw [if_pos hz]
    have hi : rs = [] := List.eq_nil_of_length_eq_zero (by rw [hdata] at hz; omega)
    subst hi
    rfl
  · rw [if_neg hz]
    obtain ⟨f, hf⟩ : ∃ f, w.file.data.length + 1 = (f + 1) + rs.length :=
      ⟨w.file.data.length - rs.length, by rw [hdata] at hz ⊢; omega⟩
    have e : w.file.data = logBytes rs ++ [] := by rw [hdata, List.append_nil]
    rw [hf, e, replayLoop_records step rs _ _ s0 hfit]
    rfl

end wal

namespace sstable
open wal

theorem length_i64le (n : Nat) : (i64le n).length = 8 := rfl

theorem leValue_i64le (n : Nat) : leValue (i64le n) = n % 2 ^ 64 := by
  simp only [i64le, leValue, byteOf_val]
  omega

theorem readInt64_i64le (n : Nat) (h : n < 2 ^ 63) (tail : List Byte) :
    readInt64 (i64le n ++ tail) = ((n : Int), tail) := by
  have h1 : 8 ≤ (i64le n ++ tail).length := by
    rw [List.length_append, length_i64le]; omega
  have h2 : (i64le n ++ tail).take 8 = i64le n := by
    rw [List.take_append_of_le_length (by rw [length_i64le])]
    exact List.take_of_length_le (by rw [length_i64le])
  have h3 : (i64le n ++ tail).drop 8 = tail := List.drop_left' (length_i64le n)
  have h4 : n % 2 ^ 64 = n := Nat.mod_eq_of_lt (by omega)
  simp only [readInt64, h1, if_true, h2, h3, int64Value, leValue_i64le, h4, h]

theorem fileRead_append (xs tail : List Byte) : fileRead xs.length (xs ++ tail) = (xs, tail) := by
  simp [fileRead]

theorem length_entryBytes (key value : GoString) :
    (entryBytes key value).length = 8 + 8 + key.length + value.length := by
  simp only [entryBytes, List.length_append, length_i64le]

/-- Reading at the start of a well-sized entry gives its value. -/
theorem read_entry (key value : GoString) (hk : key.length < 2 ^ 63)
    (hv : value.length < 2 ^ 63) (sst : SSTable) (fs : FS) (bytes post : List Byte)
    (off : Nat) (k : GoString) (hi : sst.index k = some off)
    (hf : fs.files sst.filename = some bytes)
    (hd : bytes.drop off = entryBytes key value ++ post) :
    sst.Read fs k = some (value, true) := by
  have e : entryBytes key value ++ post =
      i64le key.length ++ (i64le value.length ++ (key ++ (value ++ post))) := by
    simp [entryBytes]
  have n1 : ¬ ((key.length : Int) < 0 ∨ (value.length : Int) < 0) := by omega
  simp only [SSTable.Read, hi, hf, hd, e, readInt64_i64le _ hk, readInt64_i64le _ hv, n1,
    if_false, Int.toNat_ofNat, fileRead_append]

theorem GoMap.get_of_mem : ∀ (m : GoMap) (k v : GoString),
    m.Distinct → (k, v) ∈ m → m.get k = some v
  | [], _, _, _, h => by simp at h
  | (k', v') :: rest, k, v, hd, h => by
    have hd' : (k' ∉ rest.map Prod.fst) ∧ (rest.map Prod.fst).Nodup := by
      simpa [GoMap.Distinct] using hd
    rcases List.mem_cons.1 h with h1 | h1
    · cases h1
      simp [GoMap.get]
    · have hne : k' ≠ k := by
        intro e
        subst e
        exact hd'.1 (List.mem_map.2 ⟨(k', v), h1, rfl⟩)
      simp only [GoMap.get, hne, if_false]
      exact GoMap.get_of_mem rest k v hd'.2 h1

theorem GoMap.get_eq_none : ∀ (m : GoMap) (k : GoString),
    k ∉ m.map Prod.fst → m.get k = none
  | [], _, _ => rfl
  | (k', v') :: rest, k, h => by
    have h1 : k' ≠ k := fun e => h (by simp [e])
    have h2 : k ∉ rest.map Prod.fst := fun hm => h (by simp at hm ⊢; exact Or.inr hm)
    simp only [GoMap.get, h1, if_false]
    exact GoMap.get_eq_none rest k h2

theorem GoMap.mem_of_get : ∀ (m : GoMap) (k v : GoString), m.get k = some v → (k, v) ∈ m
  | [], _, _, h => by simp [GoMap.get] at h
  | (k', v') :: rest, k, v, h => by
    simp only [GoMap.get] at h
    split at h
    · rename_i e
      cases h
      subst e
      exact List.mem_cons_self _ _
    · exact List.mem_cons_of_mem _ (GoMap.mem_of_get rest k v h)

/-- The loop of `Write`: the file grows by the entries, the running offset is the length
of the file, keys outside the entries keep their index, and the index of each entry
points at the start of its bytes. -/
theorem foldl_writeStep : ∀ (es : List (GoString × GoString)) (pre : List Byte)
    (idx : GoString → Option Nat), (es.map Prod.fst).Nodup →
    (∃ suffix, (es.foldl writeStep (pre, idx, pre.length)).1 = pre ++ suffix) ∧
    (∀ k, k ∉ es.map Prod.fst → (es.foldl writeStep (pre, idx, pre.length)).2.1 k = idx k) ∧
    (∀ k v, (k, v) ∈ es → ∃ off post,
      (es.foldl writeStep (pre, idx, pre.length)).2.1 k = some off ∧
      ((es.foldl writeStep (pre, idx, pre.length)).1).drop off = entryBytes k v ++ post)
  | [], pre, idx, _ => ⟨⟨[], by simp⟩, fun _ _ => rfl, fun _ _ h => by simp at h⟩
  | e :: es, pre, idx, hn => by
    have hn' : (e.1 ∉ es.map Prod.fst) ∧ (es.map Prod.fst).Nodup := by simpa using hn
    have hstep : writeStep (pre, idx, pre.length) e =
        (pre ++ entryBytes e.1 e.2, (fun k => if k = e.1 then some pre.length else idx k),
          (pre ++ entryBytes e.1 e.2).length) := by
      simp only [writeStep, List.length_append, length_entryBytes]
    obtain ⟨⟨suffix, h1⟩, h2, h3⟩ := foldl_writeStep es (pre ++ entryBytes e.1 e.2)
      (fun k => if k = e.1 then some pre.length else idx k) hn'.2
    rw [List.foldl_cons, hstep]
    refine ⟨⟨entryBytes e.1 e.2 ++ suffix, by rw [h1, List.append_assoc]⟩, ?_, ?_⟩
    · intro k hk
      have hk1 : k ≠ e.1 := fun c => hk (by simp [c])
      have hk2 : k ∉ es.map Prod.fst := fun c => hk (by simp at c ⊢; exact Or.inr c)
      rw [h2 k hk2]
      simp [hk1]
    · intro k v hkv
      rcases List.mem_cons.1 hkv with h4 | h4
      · subst h4
        refine ⟨pre.length, suffix, ?_, ?_⟩
        · rw [h2 _ hn'.1]
          simp
        · rw [h1, List.append_assoc, List.drop_left]
      · exact h3 k v h4

theorem SSTable.Read_congr (sst : SSTable) (fs fs' : FS) (k : GoString)
    (h : fs'.files sst.filename = fs.files sst.filename) : sst.Read fs' k = sst.Read fs k := by
  simp only [SSTable.Read, h]

/-- `Write` on a new table whose file can be created: no error, only that file changes,
and `Read` on the table answers as the map does. -/
theorem write_new_table (name : FileName) (fs : FS) (data : GoMap) (range : RangeOrder)
    (hden : fs.denied name = false) (hd : data.Distinct) (hs : data.Sized) :
    ∃ sst' fs', (NewSSTable name).Write fs data range = (sst', fs', none) ∧
      sst'.filename = name ∧ fs'.denied = fs.denied ∧
      (∀ n, n ≠ name → fs'.files n = fs.files n) ∧
      (∀ k, sst'.Read fs' k = some (answer data k)) := by
  have hp := range.perm data
  have hn : ((range.order data).map Prod.fst).Nodup :=
    (hp.map Prod.fst).nodup_iff.2 hd
  obtain ⟨⟨suffix, h1⟩, h2, h3⟩ := foldl_writeStep (range.order data) [] (fun _ => none) hn
  refine ⟨⟨name, ((range.order data).foldl writeStep ([], fun _ => none, 0)).2.1,
      (0 : Int) + ((range.order data).foldl writeStep ([], fun _ => none, 0)).2.2⟩,
    fs.put name ((range.order data).foldl writeStep ([], fun _ => none, 0)).1,
    by simp only [SSTable.Write, NewSSTable, hden, Bool.false_eq_true, if_false],
    rfl, rfl, fun n hne => by simp [FS.put, hne], fun k => ?_⟩
  cases hg : data.get k with
  | some v =>
    have hm : (k, v) ∈ range.order data := hp.mem_iff.2 (GoMap.mem_of_get data k v hg)
    obtain ⟨off, post, h4, h5⟩ := h3 k v hm
    have hsz := hs (k, v) (GoMap.mem_of_get data k v hg)
    simp only [answer, hg]
    exact read_entry k v hsz.1 hsz.2 _ _ _ post off k h4 (by simp [FS.put]) h5
  | none =>
    have hk : k ∉ (range.order data).map Prod.fst := by
      intro c
      obtain ⟨e, he, rfl⟩ := List.mem_map.1 c
      have := GoMap.get_of_mem data e.1 e.2 hd (hp.mem_iff.1 he)
      rw [hg] at this
      cases this
    have h4 := h2 k hk
    simp only [answer, hg]
    simp only [SSTable.Read]
    simp only [List.length_nil] at h4
    rw [h4]

end sstable

namespace sstable

/-- What holds of a manager and the directory after runs were created from `runs`: every
table answers reads as its map does, and the tables own the file names below their count. -/
theorem create_step (m : SSTableManager) (fs : FS) (done : List (GoMap × RangeOrder))
    (data : GoMap) (range : RangeOrder) (m' : SSTableManager) (fs' : FS)
    (h1 : List.Forall₂ (fun sst r => ∀ k, SSTable.Read sst fs k = some (answer r.1 k))
      m.tables done)
    (h2 : ∀ sst ∈ m.tables, ∃ i, i < m.tables.length ∧ sst.filename = .sstable i)
    (hd : data.Distinct) (hs : data.Sized)
    (hc : m.CreateSSTable fs data range = (m', fs', none)) :
    List.Forall₂ (fun sst r => ∀ k, SSTable.Read sst fs' k = some (answer r.1 k))
      m'.tables (done ++ [(data, range)]) ∧
    (∀ sst ∈ m'.tables, ∃ i, i < m'.tables.length ∧ sst.filename = .sstable i) := by
  by_cases hden : fs.denied (.sstable m.tables.length) = true
  · simp [SSTableManager.CreateSSTable, SSTable.Write, NewSSTable, hden] at hc
  · have hden' : fs.denied (.sstable m.tables.length) = false := by simpa using hden
    obtain ⟨sst', fs'', hw, hname, _, hfiles, hread⟩ :=
      write_new_table (.sstable m.tables.length) fs data range hden' hd hs
    simp only [SSTableManager.CreateSSTable, hw, Prod.mk.injEq, and_true] at hc
    obtain ⟨rfl, rfl⟩ := hc
    constructor
    · refine List.rel_append ?_ (List.Forall₂.cons hread List.Forall₂.nil)
      have hmem : List.Forall₂ (fun sst r => sst ∈ m.tables ∧
          ∀ k, SSTable.Read sst fs k = some (answer r.1 k)) m.tables done := by
        have : ∀ (ts : List SSTable) (rs : List (GoMap × RangeOrder)),
            List.Forall₂ (fun sst r => ∀ k, SSTable.Read sst fs k = some (answer r.1 k)) ts rs →
            (∀ t ∈ ts, t ∈ m.tables) →
            List.Forall₂ (fun sst r => sst ∈ m.tables ∧
              ∀ k, SSTable.Read sst fs k = some (answer r.1 k)) ts rs := by
          intro ts rs h
          induction h with
          | nil => intro _; exact List.Forall₂.nil
          | cons hab _ ih =>
            intro hsub
            exact List.Forall₂.cons ⟨hsub _ (List.mem_cons_self _ _), hab⟩
              (ih (fun t ht => hsub t (List.mem_cons_of_mem _ ht)))
        exact this _ _ h1 (fun _ h => h)
      refine hmem.imp ?_
      intro sst r ⟨hin, hr⟩ k
      obtain ⟨i, hi, hn⟩ := h2 sst hin
      rw [SSTable.Read_congr sst fs fs'' k (hfiles _ (by rw [hn]; intro c; cases c; omega))]
      exact hr k
    · intro sst hin
      simp only [List.mem_append, List.mem_singleton] at hin
      rcases hin with h | h
      · obtain ⟨i, hi, hn⟩ := h2 sst h
        exact ⟨i, by simp only [List.length_append, List.length_singleton]; omega, hn⟩
      · subst h
        exact ⟨m.tables.length, by simp, hname⟩

theorem createAll_spec : ∀ (rest : List (GoMap × RangeOrder)) (m : SSTableManager) (fs : FS)
    (done : List (GoMap × RangeOrder)) (m' : SSTableManager) (fs' : FS),
    List.Forall₂ (fun sst r => ∀ k, SSTable.Read sst fs k = some (answer r.1 k))
      m.tables done →
    (∀ sst ∈ m.tables, ∃ i, i < m.tables.length ∧ sst.filename = .sstable i) →
    (∀ r ∈ rest, r.1.Distinct) → (∀ r ∈ rest, r.1.Sized) →
    createAll m fs rest = some (m', fs') →
    List.Forall₂ (fun sst r => ∀ k, SSTable.Read sst fs' k = some (answer r.1 k))
      m'.tables (done ++ rest)
  | [], m, fs, done, m', fs', h1, _, _, _, hc => by
    simp only [createAll, Option.some.injEq, Prod.mk.injEq] at hc
    obtain ⟨rfl, rfl⟩ := hc
    simpa using h1
  | (data, range) :: rest, m, fs, done, m', fs', h1, h2, hd, hs, hc => by
    simp only [createAll] at hc
    split at hc
    · rename_i m1 fs1 hcr
      obtain ⟨g1, g2⟩ := create_step m fs done data range m1 fs1 h1 h2
        (hd _ (List.mem_cons_self _ _)) (hs _ (List.mem_cons_self _ _)) hcr
      have := createAll_spec rest m1 fs1 (done ++ [(data, range)]) m' fs' g1 g2
        (fun r hr => hd r (List.mem_cons_of_mem _ hr))
        (fun r hr => hs r (List.mem_cons_of_mem _ hr)) hc
      simpa using this
    · cases hc

theorem readNewestFirst_spec (fs : FS) (k : GoString) :
    ∀ (ts : List SSTable) (rs : List (GoMap × RangeOrder)),
    List.Forall₂ (fun sst r => ∀ k, SSTable.Read sst fs k = some (answer r.1 k)) ts rs →
    readNewestFirst fs k ts =
      some (match rs.findSome? (fun r => r.1.get k) with
        | some v => (v, true)
        | none => ([], false)) := by
  intro ts rs h
  induction h with
  | nil => rfl
  | @cons sst r ts rs hab _ ih =>
    simp only [readNewestFirst, hab k, List.findSome?_cons]
    cases hg : r.1.get k with
    | some v => simp [answer, hg]
    | none => simp only [answer, hg]; exact ih

/-- C9. Newest-first point read: for a manager whose runs were created, in this order, by
calls of `CreateSSTable` that returned no error, from maps of Go strings, `Read(k)`
returns `(v, true)` with `v` the value of `k` in the last created run that contains `k`,
and `("", false)` when no run contains `k`. -/
theorem newest_first_read (fs0 : FS) (runs : List (GoMap × RangeOrder))
    (m : SSTableManager) (fs : FS)
    (hc : createAll NewSSTableManager fs0 runs = some (m, fs))
    (hd : ∀ r ∈ runs, r.1.Distinct) (hs : ∀ r ∈ runs, r.1.Sized) (k : GoString) :
    m.Read fs k =
      some (match newestValue runs k with
        | some v => (v, true)
        | none => ([], false)) := by
  have h := createAll_spec runs NewSSTableManager fs0 [] m fs List.Forall₂.nil
    (fun _ h => by simp [NewSSTableManager] at h) hd hs hc
  rw [List.nil_append] at h
  exact readNewestFirst_spec fs k _ _ (List.rel_reverse h)

/-- Witness of C9: two runs created in an empty directory, the first with a = "1", the
second with a = "2" and b = "3" written back to front; `Read(a)` returns ("2", true). -/
theorem newest_first_read_witness :
    ∃ m fs, createAll NewSSTableManager FS.empty
        [([([97], [49])], RangeOrder.id),
         ([([97], [50]), ([98], [51])], RangeOrder.reverse)] = some (m, fs) ∧
      m.Read fs [97] = some ([50], true) :=
  ⟨_, _, rfl,
   newest_first_read FS.empty
     [([([97], [49])], RangeOrder.id), ([([97], [50]), ([98], [51])], RangeOrder.reverse)]
     _ _ rfl (by decide) (by decide) [97]⟩

end sstable

namespace memtable
open tree

/-- Every `Put` that returns reports `true` and adds `len(key) + len(value)` to the size
(in `int64` arithmetic), whether the key was there or not; the maximum size stays. -/
theorem Memtable.Put_size (m : Memtable) (ch : Nat) (key value : GoString) (m' : Memtable)
    (ch' : Nat) (b : Bool) (h : m.Put ch key value = some (m', ch', b)) :
    b = true ∧ m'.maxSize = m.maxSize ∧
      m'.size = wrapInt64 (m.size + wrapInt64 ((key.length + value.length : Nat) : Int)) ∧
      ((m'.size ≥ m.maxSize ∧ ch' = ch + 1) ∨ (¬ m'.size ≥ m.maxSize ∧ ch' = ch)) := by
  unfold Memtable.Put at h
  cases e : insert m.tree.Root key value with
  | none => simp [AVLTree.Insert, e] at h
  | some t =>
    simp only [AVLTree.Insert, e, Option.map_some', Length] at h
    split at h
    · simp only [Option.some.injEq, Prod.mk.injEq] at h
      obtain ⟨rfl, rfl, rfl⟩ := h
      rename_i hc
      exact ⟨rfl, rfl, rfl, Or.inl ⟨hc, rfl⟩⟩
    · simp only [Option.some.injEq, Prod.mk.injEq] at h
      obtain ⟨rfl, rfl, rfl⟩ := h
      rename_i hc
      exact ⟨rfl, rfl, rfl, Or.inr ⟨hc, rfl⟩⟩

/-- C11 fails on the code (evaluation at the failing input): on a new memtable Put("a", "1")
leaves size 2 and the key readable with "1"; the overwriting Put("a", "22") then leaves
size 5: the size grew by 3, the length of the key plus the length of the new value, and
not by len("22") - len("1") = 1. -/
theorem overwrite_counts_key_again :
    ((NewMemTable (1024 * 1024)).Put 0 [97] [49]).map
        (fun r => (r.1.size, r.1.Get [97])) = some (2, some [49]) ∧
    (((NewMemTable (1024 * 1024)).Put 0 [97] [49]).bind
        (fun r => r.1.Put r.2.1 [97] [50, 50])).map
        (fun r => (r.1.size, r.1.Get [97])) = some (5, some [50, 50]) ∧
    ((5 : Int) - 2 ≠ (([50, 50] : GoString).length : Int) - (([49] : GoString).length : Int)) := by
  decide

/-- C12. Flush signal: a `Memtable.Put` that returns has handed the memtable to the flush
channel (one more value waits in it) if and only if the size after accounting for this
put is greater than or equal to the maximum size; otherwise the channel is as before. -/
theorem flush_signal_iff (m : Memtable) (ch : Nat) (key value : GoString) (m' : Memtable)
    (ch' : Nat) (b : Bool) (h : m.Put ch key value = some (m', ch', b)) :
    (ch' = ch + 1 ↔ m'.size ≥ m'.maxSize) ∧ (ch' = ch ↔ ¬ m'.size ≥ m'.maxSize) := by
  obtain ⟨_, hmax, _, hcase⟩ := Memtable.Put_size m ch key value m' ch' b h
  rw [hmax]
  rcases hcase with ⟨h1, h2⟩ | ⟨h1, h2⟩
  · subst h2
    exact ⟨⟨fun _ => h1, fun _ => rfl⟩, ⟨fun hh => by omega, fun hh => absurd h1 hh⟩⟩
  · subst h2
    exact ⟨⟨fun hh => by omega, fun hh => absurd hh h1⟩, ⟨fun _ => h1, fun _ => rfl⟩⟩

/-- Witness of C12 on a memtable of maximum size 3: Put("a", "1") returns with size 2 and
no signal, the following Put("b", "2") returns with size 4 and one signal. -/
theorem flush_signal_iff_witness :
    ((NewMemTable 3).Put 0 [97] [49] =
        some ({ tree := ⟨.node [97] [49] .nil .nil 1⟩, size := 2, maxSize := 3 }, 0, true) ∧
      (0 = 0 + 1 ↔ (2 : Int) ≥ 3) ∧ (0 = 0 ↔ ¬ (2 : Int) ≥ 3)) ∧
    (Memtable.Put { tree := ⟨.node [97] [49] .nil .nil 1⟩, size := 2, maxSize := 3 } 0
        [98] [50] =
        some ({ tree := ⟨.node [97] [49] .nil (.node [98] [50] .nil .nil 1) 2⟩, size := 4,
                maxSize := 3 }, 1, true) ∧
      (1 = 0 + 1 ↔ (4 : Int) ≥ 3) ∧ (1 = 0 ↔ ¬ (4 : Int) ≥ 3)) :=
  ⟨⟨by decide, flush_signal_iff (NewMemTable 3) 0 [97] [49]
      { tree := ⟨.node [97] [49] .nil .nil 1⟩, size := 2, maxSize := 3 } 0 true (by decide)⟩,
   ⟨by decide,
    flush_signal_iff { tree := ⟨.node [97] [49] .nil .nil 1⟩, size := 2, maxSize := 3 } 0
      [98] [50]
      { tree := ⟨.node [97] [49] .nil (.node [98] [50] .nil .nil 1) 2⟩, size := 4,
        maxSize := 3 } 1 true (by decide)⟩⟩

end memtable

namespace tree
open AVLNode

/-- C20 fails on the code (evaluation at the failing input): in the tree built from empty
by Insert of the distinct keys d, b, e, a, c, both b and c are found; after Delete(d) the
searches for b and for c find nothing. -/
theorem delete_loses_other_keys :
    (insertAll NewAVLTree [([100], [52]), ([98], [50]), ([101], [53]), ([97], [49]),
        ([99], [51])]).map (fun t => (t.Search [98], t.Search [99])) =
      some (some [50], some [51]) ∧
    ((insertAll NewAVLTree [([100], [52]), ([98], [50]), ([101], [53]), ([97], [49]),
        ([99], [51])]).bind (fun t => t.Delete [100])).map
        (fun r => (r.1.Search [98], r.1.Search [99])) = some (none, none) := by
  decide

end tree

namespace sstable
open tree

theorem foldl_writeStep_file : ∀ (es : List (GoString × GoString)) (pre : List Byte)
    (idx : GoString → Option Nat) (off : Nat),
    (es.foldl writeStep (pre, idx, off)).1 = pre ++ fileOf es
  | [], pre, _, _ => by simp [fileOf]
  | e :: es, pre, idx, off => by
    rw [List.foldl_cons]
    simp only [writeStep]
    rw [foldl_writeStep_file es, fileOf, List.append_assoc]

/-- `Write` that returns no error leaves in the table's file exactly the entries of the
map, in the order in which the range loop yields them. -/
theorem write_file (sst : SSTable) (fs : FS) (data : GoMap) (range : RangeOrder)
    (sst' : SSTable) (fs' : FS) (hw : sst.Write fs data range = (sst', fs', none)) :
    fs'.files sst.filename = some (fileOf (range.order data)) ∧ sst'.filename = sst.filename ∧
      sst'.index = ((range.order data).foldl writeStep ([], sst.index, 0)).2.1 := by
  unfold SSTable.Write at hw
  split at hw
  · simp at hw
  · simp only [Prod.mk.injEq, and_true] at hw
    obtain ⟨rfl, rfl⟩ := hw
    refine ⟨?_, rfl, rfl⟩
    simp only [FS.put, if_true, foldl_writeStep_file, List.nil_append]

/-- C13. SSTable write/read round trip: after a single `Write` of a map (distinct keys,
Go string lengths) on a new table that returned no error, `Read(k)` returns
`(data[k], true)` for every key of the map and `("", false)` for every other key, and the
index offset of every key is the byte position in the file at which the entry of that
key (key length, value length, key, value) starts; keys outside the map have no index
entry. -/
theorem sstable_round_trip (name : FileName) (fs : FS) (data : GoMap) (range : RangeOrder)
    (sst' : SSTable) (fs' : FS) (hd : data.Distinct) (hs : data.Sized)
    (hw : (NewSSTable name).Write fs data range = (sst', fs', none)) :
    (∀ k v, data.get k = some v → sst'.Read fs' k = some (v, true)) ∧
    (∀ k, data.get k = none → sst'.Read fs' k = some ([], false) ∧ sst'.index k = none) ∧
    (∀ k v, data.get k = some v →
      ∃ off before after, sst'.index k = some off ∧
        fs'.files name = some (before ++ entryBytes k v ++ after) ∧ before.length = off) := by
  have hp := range.perm data
  have hn : ((range.order data).map Prod.fst).Nodup := (hp.map Prod.fst).nodup_iff.2 hd
  obtain ⟨_, h2, h3⟩ := foldl_writeStep (range.order data) [] (fun _ => none) hn
  obtain ⟨hfile, hname, hidx⟩ := write_file _ fs data range sst' fs' hw
  have hname' : sst'.filename = name := hname
  have hfile' : fs'.files name = some (fileOf (range.order data)) := hfile
  simp only [List.length_nil] at h2 h3
  have hidx' : sst'.index = ((range.order data).foldl writeStep ([], fun _ => none, 0)).2.1 :=
    hidx
  have hbytes : ((range.order data).foldl writeStep ([], fun _ => none, 0)).1 =
      fileOf (range.order data) := by
    rw [foldl_writeStep_file, List.nil_append]
  rw [hbytes] at h3
  have key : ∀ k v, data.get k = some v →
      ∃ off post, sst'.index k = some off ∧
        (fileOf (range.order data)).drop off = entryBytes k v ++ post := by
    intro k v hg
    have hm : (k, v) ∈ range.order data := hp.mem_iff.2 (GoMap.mem_of_get data k v hg)
    obtain ⟨off, post, h4, h5⟩ := h3 k v hm
    exact ⟨off, post, by rw [hidx', h4], h5⟩
  refine ⟨?_, ?_, ?_⟩
  · intro k v hg
    obtain ⟨off, post, h4, h5⟩ := key k v hg
    have hsz := hs (k, v) (GoMap.mem_of_get data k v hg)
    exact read_entry k v hsz.1 hsz.2 sst' fs' _ post off k h4 (by rw [hname']; exact hfile') h5
  · intro k hg
    have hk : k ∉ (range.order data).map Prod.fst := by
      intro c
      obtain ⟨e, he, rfl⟩ := List.mem_map.1 c
      have := GoMap.get_of_mem data e.1 e.2 hd (hp.mem_iff.1 he)
      rw [hg] at this
      cases this
    have h4 : sst'.index k = none := by rw [hidx', h2 k hk]
    exact ⟨by simp only [SSTable.Read, h4], h4⟩
  · intro k v hg
    obtain ⟨off, post, h4, h5⟩ := key k v hg
    have hlen : off ≤ (fileOf (range.order data)).length := by
      by_contra hc
      rw [List.drop_of_length_le (by omega)] at h5
      have := congrArg List.length h5
      simp only [List.length_nil, List.length_append, length_entryBytes] at this
      omega
    refine ⟨off, (fileOf (range.order data)).take off, post, h4, ?_, ?_⟩
    · rw [hfile', List.append_assoc, ← h5, List.take_append_drop]
    · rw [List.length_take]; omega

/-- Witness of C13: the map with a = "1" and b = "22", written back to front into a new
table in an empty directory; the write returns no error and the three statements hold of
the table and directory it leaves. -/
theorem sstable_round_trip_witness :
    ((NewSSTable (.sstable 0)).Write FS.empty [([97], [49]), ([98], [50, 50])]
        RangeOrder.reverse).2.2 = none ∧
    (∀ k v, GoMap.get [([97], [49]), ([98], [50, 50])] k = some v →
      ((NewSSTable (.sstable 0)).Write FS.empty [([97], [49]), ([98], [50, 50])]
          RangeOrder.reverse).1.Read
        ((NewSSTable (.sstable 0)).Write FS.empty [([97], [49]), ([98], [50, 50])]
          RangeOrder.reverse).2.1 k = some (v, true)) :=
  ⟨by decide,
   (sstable_round_trip (.sstable 0) FS.empty [([97], [49]), ([98], [50, 50])]
      RangeOrder.reverse _ _ (by decide) (by decide) rfl).1⟩

/-- C14, as stated, fails: the map with a = "1" and b = "2", yielded by the range loop
back to front, is written with the entry of b at offset 0 and the entry of a behind it at
offset 18, although a is the smaller key; the same happens when `FlushMemtable` flushes a
memtable that holds a and b. -/
theorem sorted_run_counterexample :
    strLess [97] [98] = true ∧
    ((NewSSTable (.sstable 0)).Write FS.empty [([97], [49]), ([98], [50])]
        RangeOrder.reverse).2.1.files (.sstable 0) =
      some (entryBytes [98] [50] ++ entryBytes [97] [49]) ∧
    ((NewSSTable (.sstable 0)).Write FS.empty [([97], [49]), ([98], [50])]
        RangeOrder.reverse).1.index [98] = some 0 ∧
    ((NewSSTable (.sstable 0)).Write FS.empty [([97], [49]), ([98], [50])]
        RangeOrder.reverse).1.index [97] = some 18 ∧
    (lsm.run lsm.newEngine [.put [97] [49], .put [98] [50],
        .flush RangeOrder.reverse]).fs.files (.sstable 0) =
      some (entryBytes [98] [50] ++ entryBytes [97] [49]) := by
  decide

/-- C14, amended. For every map passed to `SSTable.Write` (and so for the map that
`FlushMemtable` builds from the memtable), a write that returns no error leaves in the
data file exactly the entries of the map, each once, in the order in which the range loop
over the map yields them; that order is a rearrangement of the entries chosen by the
runtime and need not be ascending. -/
theorem written_in_range_order (sst : SSTable) (fs : FS) (data : GoMap) (range : RangeOrder)
    (sst' : SSTable) (fs' : FS) (hw : sst.Write fs data range = (sst', fs', none)) :
    fs'.files sst.filename = some (fileOf (range.order data)) ∧
      (range.order data).Perm data :=
  ⟨(write_file sst fs data range sst' fs' hw).1, range.perm data⟩

/-- Witness of the amended C14: the map with a = "1" and b = "2" yielded back to front. -/
theorem written_in_range_order_witness :
    ((NewSSTable (.sstable 0)).Write FS.empty [([97], [49]), ([98], [50])]
        RangeOrder.reverse).2.1.files (NewSSTable (.sstable 0)).filename =
      some (fileOf (RangeOrder.reverse.order [([97], [49]), ([98], [50])])) ∧
    (RangeOrder.reverse.order [([97], [49]), ([98], [50])]).Perm
      [([97], [49]), ([98], [50])] :=
  written_in_range_order (NewSSTable (.sstable 0)) FS.empty [([97], [49]), ([98], [50])]
    RangeOrder.reverse _ _ rfl

end sstable

namespace lsmtree

/-- A completed run of the loop of `Add` keeps the length of the bit set and every bit
that was set, and leaves set the bit of each hash function it went through. -/
theorem addLoop_spec : ∀ (hs : List (GoString → Nat)) (bits bits' : List Bool)
    (key : GoString), addLoop hs bits key = some bits' →
    bits'.length = bits.length ∧
    (∀ i : Nat, bits[i]? = some true → bits'[i]? = some true) ∧
    (∀ h ∈ hs, key.length ≠ 0 ∧ bits'[bitIndex h key]? = some true)
  | [], bits, bits', key, e => by
    simp only [addLoop, Option.some.injEq] at e
    subst e
    exact ⟨rfl, fun _ h => h, fun _ h => by simp at h⟩
  | h :: hs, bits, bits', key, e => by
    simp only [addLoop] at e
    split at e
    · cases e
    · rename_i hk
      split at e
      · rename_i hi
        obtain ⟨h1, h2, h3⟩ := addLoop_spec hs _ bits' key e
        have hset : (bits.set (bitIndex h key) true)[bitIndex h key]? = some true := by
          rw [List.getElem?_set]
          simp [hi]
        refine ⟨by rw [h1, List.length_set], ?_, ?_⟩
        · intro i hb
          apply h2
          by_cases c : bitIndex h key = i
          · subst c; exact hset
          · rw [List.getElem?_set_ne c]; exact hb
        · intro g hg
          rcases List.mem_cons.1 hg with c | c
          · subst c
            exact ⟨hk, h2 _ hset⟩
          · exact h3 g c
      · cases e

theorem mightLoop_of_set : ∀ (hs : List (GoString → Nat)) (bits : List Bool) (key : GoString),
    (∀ h ∈ hs, key.length ≠ 0 ∧ bits[bitIndex h key]? = some true) →
    mightLoop hs bits key = some true
  | [], _, _, _ => rfl
  | h :: hs, bits, key, hall => by
    obtain ⟨hk, hb⟩ := hall h (List.mem_cons_self _ _)
    simp only [mightLoop, hk, if_false, hb]
    exact mightLoop_of_set hs bits key (fun g hg => hall g (List.mem_cons_of_mem _ hg))

theorem BloomFilter.Add_spec (bf bf' : BloomFilter) (key : GoString)
    (e : bf.Add key = some bf') :
    bf'.hashFuncitons = bf.hashFuncitons ∧
    (∀ i : Nat, bf.bitSet[i]? = some true → bf'.bitSet[i]? = some true) ∧
    (∀ h ∈ bf.hashFuncitons, key.length ≠ 0 ∧ bf'.bitSet[bitIndex h key]? = some true) := by
  simp only [BloomFilter.Add, Option.map_eq_some'] at e
  obtain ⟨bits, hb, rfl⟩ := e
  obtain ⟨_, h2, h3⟩ := addLoop_spec _ _ _ _ hb
  exact ⟨rfl, h2, h3⟩

theorem BloomFilter.addAll_spec : ∀ (keys : List GoString) (bf bf' : BloomFilter),
    bf.addAll keys = some bf' →
    bf'.hashFuncitons = bf.hashFuncitons ∧
    (∀ i : Nat, bf.bitSet[i]? = some true → bf'.bitSet[i]? = some true)
  | [], bf, bf', e => by
    simp only [BloomFilter.addAll, Option.some.injEq] at e
    subst e
    exact ⟨rfl, fun _ h => h⟩
  | key :: rest, bf, bf', e => by
    simp only [BloomFilter.addAll] at e
    split at e
    · cases e
    · rename_i bf1 h1
      obtain ⟨a1, a2, _⟩ := BloomFilter.Add_spec bf bf1 key h1
      obtain ⟨b1, b2⟩ := BloomFilter.addAll_spec rest bf1 bf' e
      exact ⟨b1.trans a1, fun i hi => b2 i (a2 i hi)⟩

/-- C16. No false negatives: for every bloom filter and every key `k` on which `Add(k)`
completed, `MightContain(k)` returns true, and it still returns true after any number of
further `Add` calls that completed, whatever their keys. -/
theorem bloom_no_false_negatives (bf bf1 bf2 : BloomFilter) (k : GoString)
    (others : List GoString) (h1 : bf.Add k = some bf1) (h2 : bf1.addAll others = some bf2) :
    bf1.MightContain k = some true ∧ bf2.MightContain k = some true := by
  obtain ⟨a1, _, a3⟩ := BloomFilter.Add_spec bf bf1 k h1
  obtain ⟨b1, b2⟩ := BloomFilter.addAll_spec others bf1 bf2 h2
  constructor
  · apply mightLoop_of_set
    rw [a1]
    exact a3
  · apply mightLoop_of_set
    rw [b1, a1]
    exact fun h hh => ⟨(a3 h hh).1, b2 _ (a3 h hh).2⟩

/-- Witness of C16: a filter of 8 bits with the two hash functions "first byte" and
"number of bytes plus one"; Add("abc") completes, so do the further Add("zz") and
Add("q"), and MightContain("abc") is true before and after them. -/
theorem bloom_no_false_negatives_witness :
    (BloomFilter.MightContain
        { bitSet := [false, true, false, false, false, false, false, false],
          hashFuncitons := [fun s => (s.headD 0).val, fun s => s.length + 1] }
        [97, 98, 99] = some true) ∧
    (BloomFilter.MightContain
        { bitSet := [true, true, false, false, false, false, false, false],
          hashFuncitons := [fun s => (s.headD 0).val, fun s => s.length + 1] }
        [97, 98, 99] = some true) :=
  bloom_no_false_negatives
    { bitSet := List.replicate 8 false,
      hashFuncitons := [fun s => (s.headD 0).val, fun s => s.length + 1] }
    { bitSet := [false, true, false, false, false, false, false, false],
      hashFuncitons := [fun s => (s.headD 0).val, fun s => s.length + 1] }
    { bitSet := [true, true, false, false, false, false, false, false],
      hashFuncitons := [fun s => (s.headD 0).val, fun s => s.length + 1] }
    [97, 98, 99] [[122, 122], [113]] rfl rfl

end lsmtree

namespace sstable

/-- C15 fails on the code (evaluation at the failing input): on the table written by one
`Write` of the map with a = "1", the new scanner has `HasNext` true, `PeekKey` returns
the one byte 0x01 (the first byte of the value-size field, which lies behind the key
size), while the following `Next`, after the peek as without it, returns the key a. -/
theorem peek_returns_wrong_key :
    (((NewSSTable (.sstable 0)).Write FS.empty [([97], [49])] RangeOrder.id).1.NewScanner
        ((NewSSTable (.sstable 0)).Write FS.empty [([97], [49])] RangeOrder.id).2.1).map
      (fun sc => sc.HasNext) = some true ∧
    ((((NewSSTable (.sstable 0)).Write FS.empty [([97], [49])] RangeOrder.id).1.NewScanner
        ((NewSSTable (.sstable 0)).Write FS.empty [([97], [49])] RangeOrder.id).2.1).bind
      (fun sc => sc.PeekKey
        ((NewSSTable (.sstable 0)).Write FS.empty [([97], [49])] RangeOrder.id).2.1)).map
      (fun p => (p.1, p.2.offset, p.2.pos)) = some ([1], 0, 0) ∧
    (((((NewSSTable (.sstable 0)).Write FS.empty [([97], [49])] RangeOrder.id).1.NewScanner
        ((NewSSTable (.sstable 0)).Write FS.empty [([97], [49])] RangeOrder.id).2.1).bind
      (fun sc => sc.PeekKey
        ((NewSSTable (.sstable 0)).Write FS.empty [([97], [49])] RangeOrder.id).2.1)).bind
      (fun p => p.2.Next
        ((NewSSTable (.sstable 0)).Write FS.empty [([97], [49])] RangeOrder.id).2.1)).map
      (fun r => r.1) = some ([97], [49]) ∧
    ((((NewSSTable (.sstable 0)).Write FS.empty [([97], [49])] RangeOrder.id).1.NewScanner
        ((NewSSTable (.sstable 0)).Write FS.empty [([97], [49])] RangeOrder.id).2.1).bind
      (fun sc => sc.Next
        ((NewSSTable (.sstable 0)).Write FS.empty [([97], [49])] RangeOrder.id).2.1)).map
      (fun r => r.1) = some ([97], [49]) := by
  decide

theorem Write_frame (sst : SSTable) (fs : FS) (data : GoMap) (range : RangeOrder) :
    (sst.Write fs data range).1.filename = sst.filename ∧
      ∀ n, n ≠ sst.filename → (sst.Write fs data range).2.1.files n = fs.files n := by
  unfold SSTable.Write
  split
  · exact ⟨rfl, fun _ _ => rfl⟩
  · exact ⟨rfl, fun n hn => by simp [FS.put, hn]⟩

theorem Scanner.Next_spec (sc sc' : Scanner) (fs : FS) (entry : GoString × GoString)
    (h : sc.Next fs = some (entry, sc')) :
    sc'.sstable = sc.sstable ∧ sc.offset + 16 ≤ sc'.offset := by
  unfold Scanner.Next at h
  simp only at h
  split at h
  · cases h
  · rename_i hneg
    simp only [Option.some.injEq, Prod.mk.injEq] at h
    obtain ⟨_, rfl⟩ := h
    refine ⟨rfl, ?_⟩
    simp only
    omega

theorem readNewestFirst_congr (fs fs' : FS) (key : GoString) :
    ∀ tables : List SSTable, (∀ sst ∈ tables, fs'.files sst.filename = fs.files sst.filename) →
      readNewestFirst fs' key tables = readNewestFirst fs key tables
  | [], _ => rfl
  | sst :: older, h => by
    simp only [readNewestFirst,
      SSTable.Read_congr sst fs fs' key (h sst (List.mem_cons_self _ _)),
      readNewestFirst_congr fs fs' key older (fun t ht => h t (List.mem_cons_of_mem _ ht))]

end sstable

namespace compaction
open sstable

/-- The merge loop writes no file but `output.sst`. -/
theorem mergeLoop_frame (pop : List Scanner → Nat) :
    ∀ (fuel : Nat) (pq : List Scanner) (out : SSTable) (fs : FS) (out' : SSTable) (fs' : FS)
      (err : Option Error), out.filename = .output →
      mergeLoop pop fuel pq out fs = some (.returned (out', fs') err) →
      ∀ n, n ≠ FileName.output → fs'.files n = fs.files n
  | 0, _, _, _, _, _, _, _, h => by simp [mergeLoop] at h
  | fuel + 1, [], out, fs, out', fs', err, _, h => by
    simp only [mergeLoop, Option.some.injEq, Outcome.returned.injEq, Prod.mk.injEq] at h
    obtain ⟨⟨_, rfl⟩, _⟩ := h
    exact fun _ _ => rfl
  | fuel + 1, sc0 :: rest, out, fs, out', fs', err, ho, h => by
    simp only [mergeLoop] at h
    split at h
    · cases h
    · split at h
      · cases h
      · rename_i entry sc' _
        obtain ⟨w1, w2⟩ := Write_frame out fs [entry] RangeOrder.id
        intro n hn
        rw [mergeLoop_frame pop fuel _ _ _ out' fs' err (w1.trans ho) h n hn]
        exact w2 n (by rw [ho]; exact hn)

theorem sum_toGo_split (pq : List Scanner) (i : Nat) (sc : Scanner) (behind : List Scanner)
    (h : pq.drop i = sc :: behind) :
    (pq.map Scanner.toGo).sum =
      ((pq.take i).map Scanner.toGo).sum + sc.toGo + (behind.map Scanner.toGo).sum := by
  have e : pq = pq.take i ++ sc :: behind := by rw [← h, List.take_append_drop]
  conv_lhs => rw [e]
  simp only [List.map_append, List.map_cons, List.sum_append, List.sum_cons]
  omega

/-- The merge loop does not run out of fuel when the fuel exceeds the bytes that the
queued scanners, all with `HasNext`, still have to go. -/
theorem mergeLoop_fuel (pop : List Scanner → Nat) :
    ∀ (fuel : Nat) (pq : List Scanner) (out : SSTable) (fs : FS),
      (∀ sc ∈ pq, sc.HasNext = true) → (pq.map Scanner.toGo).sum < fuel →
      mergeLoop pop fuel pq out fs ≠ none
  | 0, _, _, _, _, h => by omega
  | fuel + 1, [], _, _, _, _ => by simp [mergeLoop]
  | fuel + 1, sc0 :: rest, out, fs, hall, hlt => by
    simp only [mergeLoop]
    split
    · simp
    · rename_i sc behind hdrop
      split
      · simp
      · rename_i entry sc' hnext
        have hsplit := sum_toGo_split (sc0 :: rest) _ sc behind hdrop
        have hmem : sc ∈ sc0 :: rest :=
          List.mem_of_mem_drop (by rw [hdrop]; exact List.mem_cons_self _ _)
        have hsc : sc.offset < sc.sstable.Size := by
          simpa [Scanner.HasNext] using hall sc hmem
        obtain ⟨n1, n2⟩ := Scanner.Next_spec sc sc' fs entry hnext
        have hgo : sc'.toGo < sc.toGo := by
          simp only [Scanner.toGo, n1]
          omega
        have htake : ∀ x ∈ (sc0 :: rest).take (pop (sc0 :: rest) % (sc0 :: rest).length),
            x.HasNext = true := fun x hx => hall x (List.mem_of_mem_take hx)
        have hbeh : ∀ x ∈ behind, x.HasNext = true := fun x hx =>
          hall x (List.mem_of_mem_drop (by rw [hdrop]; exact List.mem_cons_of_mem _ hx))
        apply mergeLoop_fuel pop fuel
        · intro x hx
          split at hx
          · rename_i hh
            simp only [List.mem_append, List.mem_singleton] at hx
            rcases hx with (hx | hx) | hx
            · exact htake x hx
            · exact hbeh x hx
            · rw [hx]; exact hh
          · simp only [List.mem_append] at hx
            rcases hx with hx | hx
            · exact htake x hx
            · exact hbeh x hx
        · split
          · simp only [List.map_append, List.map_cons, List.map_nil, List.sum_append,
              List.sum_cons, List.sum_nil]
            omega
          · simp only [List.map_append, List.sum_append]
            omega

/-- `performCompaction` comes to an end: it returns or it panics. -/
theorem performCompaction_ends (c : Compactor) (m : SSTableManager) (fs : FS) (env : Env) :
    c.performCompaction m fs env ≠ none := by
  unfold Compactor.performCompaction mergeSSTables
  split
  · simp
  · exact mergeLoop_fuel env.pop _ _ _ _
      (fun sc hsc => (List.mem_filter.1 hsc).2) (by unfold mergeFuel; omega)

/-- `performCompaction` that returns has written no file but `output.sst`. -/
theorem performCompaction_frame (c : Compactor) (m : SSTableManager) (fs : FS) (env : Env)
    (out' : SSTable) (fs' : FS) (err : Option Error)
    (h : c.performCompaction m fs env = some (.returned (out', fs') err)) :
    ∀ n, n ≠ FileName.output → fs'.files n = fs.files n := by
  unfold Compactor.performCompaction mergeSSTables at h
  split at h
  · cases h
  · exact mergeLoop_frame env.pop _ _ _ fs out' fs' err rfl h

end compaction

namespace lsm
open sstable

theorem compaction_of_ok {s : LSMTree} {o : Option (Outcome LSMTree)}
    (h : compactionOk o = true) : o = some (.returned (afterCompaction o s) none) := by
  cases o with
  | none => simp [compactionOk] at h
  | some r =>
    cases r with
    | panicked => simp [compactionOk] at h
    | returned s' err =>
      cases err with
      | none => rfl
      | some e => simp [compactionOk] at h

/-- A compaction run on the engine comes to an end. -/
theorem engine_compaction_ends (s : LSMTree) (env : compaction.Env) :
    s.performCompaction env ≠ none := by
  unfold LSMTree.performCompaction
  have := compaction.performCompaction_ends s.compactor s.sstableManager s.fs env
  split
  · rename_i h; exact absurd h this
  · simp
  · simp

/-- What a compaction run that returns leaves of the engine: memtable, manager, log,
compactor and flush channel as they were, and every file but `output.sst` as it was. -/
theorem engine_compaction_frame (s s' : LSMTree) (env : compaction.Env)
    (err : Option Error) (h : s.performCompaction env = some (.returned s' err)) :
    s'.memtable = s.memtable ∧ s'.sstableManager = s.sstableManager ∧ s'.wal = s.wal ∧
      s'.compactor = s.compactor ∧ s'.flushChan = s.flushChan ∧
      ∀ n, n ≠ FileName.output → s'.fs.files n = s.fs.files n := by
  unfold LSMTree.performCompaction at h
  split at h
  · cases h
  · cases h
  · rename_i r e hc
    simp only [Option.some.injEq, Outcome.returned.injEq] at h
    obtain ⟨rfl, _⟩ := h
    exact ⟨rfl, rfl, rfl, rfl, rfl,
      compaction.performCompaction_frame s.compactor s.sstableManager s.fs env r.1 r.2 e hc⟩

/-- In a reachable state every run of the manager has a file name `sstable_<n>.db`. -/
theorem Reachable.table_names {s : LSMTree} (hs : Reachable s) :
    ∀ sst ∈ s.sstableManager.tables, sst.filename ≠ FileName.output := by
  induction hs with
  | fresh opened fs s h =>
    cases opened with
    | none => simp [NewLSMTree, wal.NewWAL] at h
    | some bytes =>
      simp only [NewLSMTree, wal.NewWAL, Except.ok.injEq] at h
      subst h
      intro sst hm
      simp [NewSSTableManager] at hm
  | put s s' key value err _ h ih =>
    simp only [LSMTree.Put] at h
    split at h
    · cases h; exact ih
    · split at h
      · cases h
      · cases h; exact ih
  | delete s s' key err _ h ih =>
    simp only [LSMTree.Delete] at h
    split at h
    · cases h; exact ih
    · split at h
      · cases h
      · cases h; exact ih
  | flush s s' range err _ h ih =>
    simp only [LSMTree.FlushMemtable] at h
    split at h
    · cases h; exact ih
    · rename_i mgr fs hc
      cases h
      simp only [SSTableManager.CreateSSTable] at hc
      split at hc
      · cases hc
      · rename_i sst' fs'' hw
        simp only [Prod.mk.injEq, and_true] at hc
        obtain ⟨rfl, rfl⟩ := hc
        intro sst hm
        simp only [List.mem_append, List.mem_singleton] at hm
        rcases hm with hm | hm
        · exact ih sst hm
        · subst hm
          have := (Write_frame (NewSSTable (.sstable s.sstableManager.tables.length)) s.fs
            (s.memtable.InOrderTraversal flushVisit []) range).1
          rw [hw] at this
          intro c
          rw [c] at this
          cases this

/-- C17. Compaction preserves reads: for every engine state (the runs of its manager are
the files `CreateSSTable` named, none is `output.sst`) and every key `k`, the result of
`Get(k)` after `performCompaction` has run is the result of `Get(k)` before it ran. -/
theorem compaction_preserves_get (s s' : LSMTree) (env : compaction.Env)
    (err : Option Error) (k : GoString)
    (hn : ∀ sst ∈ s.sstableManager.tables, sst.filename ≠ FileName.output)
    (h : s.performCompaction env = some (.returned s' err)) :
    s'.Get k = s.Get k := by
  obtain ⟨h1, h2, _, _, _, h3⟩ := engine_compaction_frame s s' env err h
  simp only [LSMTree.Get, h1, h2, SSTableManager.Read]
  split
  · rfl
  · exact readNewestFirst_congr s.fs s'.fs k _
      (fun sst hm => h3 _ (hn sst (List.mem_reverse.1 hm)))

/-- Witness of C17: four flushed runs that each hold x, all selected and merged by the
compaction run, which returns; Get(x) gives ("4", true) after as before. -/
theorem compaction_preserves_get_witness :
    compactionOk ((run newEngine [.put [120] [49], .flush RangeOrder.id, .put [120] [50],
      .flush RangeOrder.id, .put [120] [51], .flush RangeOrder.id, .put [120] [52],
      .flush RangeOrder.id]).performCompaction compaction.Env.simple) = true ∧
    (afterCompaction ((run newEngine [.put [120] [49], .flush RangeOrder.id,
        .put [120] [50], .flush RangeOrder.id, .put [120] [51], .flush RangeOrder.id,
        .put [120] [52], .flush RangeOrder.id]).performCompaction compaction.Env.simple)
      (run newEngine [.put [120] [49], .flush RangeOrder.id, .put [120] [50],
        .flush RangeOrder.id, .put [120] [51], .flush RangeOrder.id, .put [120] [52],
        .flush RangeOrder.id])).Get [120] = some ([52], true) :=
  ⟨by decide,
   (compaction_preserves_get _ _ compaction.Env.simple none [120]
      (reachable_newEngine.run _).table_names (compaction_of_ok (by decide))).trans
     (by decide)⟩

/-- C18, as stated, fails: the compaction run over four runs of equal size that each hold
x selects all four and returns without error, and afterwards the manager still lists
four runs and each of them still holds x. -/
theorem compaction_swap_counterexample :
    compactionOk ((run newEngine [.put [120] [49], .flush RangeOrder.id, .put [120] [50],
      .flush RangeOrder.id, .put [120] [51], .flush RangeOrder.id, .put [120] [52],
      .flush RangeOrder.id]).performCompaction compaction.Env.simple) = true ∧
    (compaction.checkAvailableDiskSpace compaction.Env.simple
      (compaction.selectHighestReadHotnessScore compaction.Env.simple
        (compaction.Compactor.filterBuckets newEngine.compactor
          (compaction.groupSSTablesBySize
            (run newEngine [.put [120] [49], .flush RangeOrder.id, .put [120] [50],
              .flush RangeOrder.id, .put [120] [51], .flush RangeOrder.id, .put [120] [52],
              .flush RangeOrder.id]).sstableManager compaction.Env.simple)))).length = 4 ∧
    (afterCompaction ((run newEngine [.put [120] [49], .flush RangeOrder.id,
        .put [120] [50], .flush RangeOrder.id, .put [120] [51], .flush RangeOrder.id,
        .put [120] [52], .flush RangeOrder.id]).performCompaction compaction.Env.simple)
      (run newEngine [.put [120] [49], .flush RangeOrder.id, .put [120] [50],
        .flush RangeOrder.id, .put [120] [51], .flush RangeOrder.id, .put [120] [52],
        .flush RangeOrder.id])).sstableManager.tables.map
      (fun t => (t.filename, t.index [120])) =
      [(.sstable 0, some 0), (.sstable 1, some 0), (.sstable 2, some 0),
       (.sstable 3, some 0)] := by
  decide

/-- C18, amended. When `performCompaction` has selected a group of input runs and
returns, the manager's run list is exactly what it was before: the input runs stay live
and the output run is not registered; the run only wrote the file `output.sst`. -/
theorem compaction_keeps_runs (s s' : LSMTree) (env : compaction.Env) (err : Option Error)
    (h : s.performCompaction env = some (.returned s' err)) :
    s'.sstableManager.tables = s.sstableManager.tables ∧
      ∀ n, n ≠ FileName.output → s'.fs.files n = s.fs.files n := by
  obtain ⟨_, h2, _, _, _, h3⟩ := engine_compaction_frame s s' env err h
  exact ⟨by rw [h2], h3⟩

/-- Witness of the amended C18 on the state with four runs that each hold x. -/
theorem compaction_keeps_runs_witness :
    (afterCompaction ((run newEngine [.put [120] [49], .flush RangeOrder.id,
        .put [120] [50], .flush RangeOrder.id, .put [120] [51], .flush RangeOrder.id,
        .put [120] [52], .flush RangeOrder.id]).performCompaction compaction.Env.simple)
      (run newEngine [.put [120] [49], .flush RangeOrder.id, .put [120] [50],
        .flush RangeOrder.id, .put [120] [51], .flush RangeOrder.id, .put [120] [52],
        .flush RangeOrder.id])).sstableManager.tables =
      (run newEngine [.put [120] [49], .flush RangeOrder.id, .put [120] [50],
        .flush RangeOrder.id, .put [120] [51], .flush RangeOrder.id, .put [120] [52],
        .flush RangeOrder.id]).sstableManager.tables :=
  (compaction_keeps_runs _ _ compaction.Env.simple none (compaction_of_ok (by decide))).1

/-- C19, as stated, fails: on a new engine the first Close returns no error, and the
second Close panics. -/
theorem close_twice_counterexample :
    newEngine.Close.ok = true ∧ (after newEngine.Close newEngine).Close = .panicked :=
  ⟨by decide, rfl⟩

/-- C19, amended. Close is not idempotent: after a Close that returned, a second Close
does not return but panics, in `Compactor.Stop`, which closes the stop channel that the
first Close closed; the log is not touched again. -/
theorem close_twice_panics (s s' : LSMTree) (err : Option Error)
    (h : s.Close = .returned s' err) : s'.Close = .panicked := by
  unfold LSMTree.Close at h
  split at h
  · cases h
  · rename_i c hc
    cases h
    unfold compaction.Compactor.Stop at hc
    split at hc
    · cases hc
    · cases hc
      simp [LSMTree.Close, compaction.Compactor.Stop]

/-- Witness of the amended C19 on a new engine. -/
theorem close_twice_panics_witness :
    newEngine.Close.ok = true ∧ (after newEngine.Close newEngine).Close = .panicked :=
  ⟨by decide, close_twice_panics newEngine _ none (returned_of_ok (by decide))⟩

end lsm

namespace tree
open AVLNode

theorem AVLTree.apply_avl (t : AVLTree) (op : Op) (ht : Avl t.Root) :
    ∃ t', t.apply op = some t' ∧ Avl t'.Root := by
  cases op with
  | insert key value =>
    obtain ⟨n, h1, h2, _⟩ := insert_spec key value t.Root ht
    exact ⟨⟨n⟩, by simp [AVLTree.apply, AVLTree.Insert, h1], h2⟩
  | delete key =>
    obtain ⟨n, h1, h2, _⟩ := delete_avl t.Root key ht
    exact ⟨⟨n⟩, by simp [AVLTree.apply, AVLTree.Delete, h1], h2⟩

theorem AVLTree.applyAll_avl : ∀ (ops : List Op) (t : AVLTree), Avl t.Root →
    ∃ t', t.applyAll ops = some t' ∧ Avl t'.Root
  | [], t, ht => ⟨t, rfl, ht⟩
  | op :: rest, t, ht => by
    obtain ⟨t1, h1, a1⟩ := AVLTree.apply_avl t op ht
    obtain ⟨t2, h2, a2⟩ := AVLTree.applyAll_avl rest t1 a1
    exact ⟨t2, by simp [AVLTree.applyAll, h1, h2], a2⟩

/-- C21. AVL balance invariant: every sequence of `Insert` and `Delete` calls on the empty
tree runs through without a panic, and in the tree it leaves every node's `Height` field
is 1 plus the larger of its children's heights (0 for an absent child) and the heights of
the two children of every node differ by at most 1. -/
theorem avl_invariant_reachable (ops : List Op) :
    ∃ t, NewAVLTree.applyAll ops = some t ∧ Avl t.Root :=
  AVLTree.applyAll_avl ops NewAVLTree trivial

end tree

namespace lsm
open sstable

/-- Every `FlushMemtable` that returns the nil error leaves a memtable whose maximum
size is 1 GiB. -/
theorem FlushMemtable_maxSize (s s' : LSMTree) (range : RangeOrder)
    (h : s.FlushMemtable range = .returned s' none) :
    s'.memtable.maxSize = 1024 * 1024 * 1024 := by
  unfold LSMTree.FlushMemtable at h
  simp only at h
  split at h
  · simp at h
  · simp only [Outcome.returned.injEq, and_true] at h
    subst h
    rfl

/-- C27. Seal threshold of the installed memtables: the memtable of a new engine has the
maximum size 1048576 (1 MiB); after `Put("a", "1")` and a `FlushMemtable` that returns the
nil error, the fresh memtable has the maximum size 1073741824 (1 GiB), not 1 MiB. -/
theorem flush_installs_gib_threshold :
    NewLSMTree (some []) FS.empty = .ok newEngine ∧
    newEngine.memtable.maxSize = 1048576 ∧
    ((run newEngine [.put [97] [49]]).FlushMemtable RangeOrder.id).ok = true ∧
    (run newEngine [.put [97] [49], .flush RangeOrder.id]).memtable.maxSize = 1073741824 ∧
    (run newEngine [.put [97] [49], .flush RangeOrder.id]).memtable.maxSize ≠ 1048576 := by
  refine ⟨rfl, by decide, by decide, by decide, by decide⟩

end lsm

namespace lsmtree

/-- C28. Bloom bit position: with at least one hash function, `Add("")` and
`MightContain("")` panic (the modulus is `len(key)`, zero); in a filter of 1000 bits with
a hash function whose value at "ab" is 5, `Add("ab")` sets bit 1 (5 mod `len("ab")`) and
leaves bit 5 (5 mod 1000) unset; in a filter of 2 bits with a hash function whose value
at "abc" is 2, `Add("abc")` and `MightContain("abc")` panic on the index 2. -/
theorem bloom_index_taken_mod_key_length (hashFunc : GoString → Nat)
    (rest : List (GoString → Nat)) (bits : List Bool) :
    (BloomFilter.mk bits (hashFunc :: rest)).Add [] = none ∧
    (BloomFilter.mk bits (hashFunc :: rest)).MightContain [] = none ∧
    ((NewBloomFilter 1000 [fun _ => 5]).bind fun bf =>
      (bf.Add [97, 98]).map fun bf' => (bf'.bitSet[1]?, bf'.bitSet[5]?)) =
        some (some true, some false) ∧
    ((NewBloomFilter 2 [fun _ => 2]).bind fun bf => bf.Add [97, 98, 99]).isSome = false ∧
    ((NewBloomFilter 2 [fun _ => 2]).bind fun bf => bf.MightContain [97, 98, 99]) = none := by
  refine ⟨?_, ?_, by decide, by decide, by decide⟩
  · simp [BloomFilter.Add, addLoop]
  · simp [BloomFilter.MightContain, mightLoop]

end lsmtree

theorem wrapInt64_eq (x : Int) (h0 : -2 ^ 63 ≤ x) (h1 : x < 2 ^ 63) : wrapInt64 x = x := by
  unfold wrapInt64
  omega

namespace compaction
open sstable

/-- After a sort by size, two runs of different size stand with the smaller one first. -/
theorem sortBySize_pair (env : Env) (a b : SSTable) (h : a.Size < b.Size) :
    env.sortBySize.sort [b, a] = [a, b] := by
  have hp := env.sortBySize.perm [b, a]
  have hs := env.sortBySize.sorted [b, a]
  have hne : a ≠ b := fun e => by rw [e] at h; exact lt_irrefl _ h
  generalize env.sortBySize.sort [b, a] = l at hp hs
  have hlen := hp.length_eq
  match l, hlen with
  | [x, y], _ =>
    have hx : x = b ∨ x = a := by simpa using hp.subset (List.mem_cons_self x [y])
    have hy : y = b ∨ y = a := by
      simpa using hp.subset (List.mem_cons_of_mem x (List.mem_cons_self y []))
    have ha : a = x ∨ a = y := by
      simpa using hp.symm.subset (List.mem_cons_of_mem b (List.mem_cons_self a []))
    have hb : b = x ∨ b = y := by simpa using hp.symm.subset (List.mem_cons_self b [a])
    have hxy : ¬ y.Size < x.Size := by
      simpa using hs
    rcases hx with rfl | rfl <;> rcases hy with rfl | rfl
    · rcases ha with e | e <;> exact absurd e hne
    · exact absurd h hxy
    · rfl
    · rcases hb with e | e <;> exact absurd e.symm hne

/-- C22. Bucket grouping of two runs of different size: `groupSSTablesBySize` returns the
bucket of the smaller run twice and no bucket that holds the larger run.  The smaller run
belongs to two buckets and the larger one to none, so the buckets are no partition of the
runs; the round that meets the run of another size appends the current bucket and starts
no new one. -/
theorem grouping_repeats_bucket_and_drops_run (env : Env) (a b : SSTable)
    (h : a.Size < b.Size) :
    groupSSTablesBySize ⟨[b, a]⟩ env = [[a], [a]] ∧
      ∀ bucket ∈ groupSSTablesBySize ⟨[b, a]⟩ env, b ∉ bucket := by
  have hne : b.Size ≠ a.Size := ne_of_gt h
  have hba : b ≠ a := fun e => hne (by rw [e])
  have e : groupSSTablesBySize ⟨[b, a]⟩ env = [[a], [a]] := by
    simp [groupSSTablesBySize, SSTableManager.GetSSTables, sortBySize_pair env a b h,
      groupStep, hne]
  rw [e]
  refine ⟨rfl, ?_⟩
  intro bucket hb
  simp only [List.mem_cons, List.mem_singleton, List.not_mem_nil, or_false, or_self] at hb
  subst hb
  simpa using hba

theorem grouping_repeats_bucket_and_drops_run_witness :
    (runOfSize 0 18).Size < (runOfSize 1 19).Size ∧
    groupSSTablesBySize ⟨[runOfSize 1 19, runOfSize 0 18]⟩ Env.simple =
      [[runOfSize 0 18], [runOfSize 0 18]] :=
  ⟨by decide,
   (grouping_repeats_bucket_and_drops_run Env.simple (runOfSize 0 18) (runOfSize 1 19)
     (by decide)).1⟩

/-- The `int64` sum of the scores of a group is their total when the scores are not
negative and the total is below 2^63. -/
theorem foldl_score_eq (env : Env) : ∀ (group : List SSTable) (acc : Int), 0 ≤ acc →
    (∀ s ∈ group, 0 ≤ env.hotness s) → acc + totalScore env group < 2 ^ 63 →
    group.foldl (fun score sst => wrapInt64 (score + env.hotness sst)) acc =
      acc + totalScore env group
  | [], acc, _, _, _ => by simp [totalScore]
  | s :: rest, acc, h0, hnn, hlt => by
    have hs := hnn s (List.mem_cons_self _ _)
    have hr : ∀ x ∈ rest, 0 ≤ env.hotness x := fun x hx => hnn x (List.mem_cons_of_mem _ hx)
    have hrest : 0 ≤ totalScore env rest := by
      unfold totalScore
      exact List.sum_nonneg (by simpa using hr)
    have e : totalScore env (s :: rest) = env.hotness s + totalScore env rest := by
      simp [totalScore]
    rw [e] at hlt
    rw [List.foldl_cons, wrapInt64_eq _ (by omega) (by omega),
      foldl_score_eq env rest _ (by omega) hr (by omega), e]
    omega

theorem groupScore_eq (env : Env) (group : List SSTable)
    (hnn : ∀ s ∈ group, 0 ≤ env.hotness s) (hlt : totalScore env group < 2 ^ 63) :
    groupScore env group = totalScore env group := by
  unfold groupScore
  rw [foldl_score_eq env group 0 le_rfl hnn (by omega)]
  omega

/-- The loop of `selectHighestReadHotnessScore`: the best group so far stays or is
replaced by a group of the list, and its score is no less than any score met. -/
theorem foldl_select (env : Env) : ∀ (groups : List (List SSTable)) (best : List SSTable × Int),
    ((groups.foldl
        (fun (best : List SSTable × Int) group =>
          if groupScore env group > best.2 then (group, groupScore env group) else best)
        best) = best ∨
      ((groups.foldl
        (fun (best : List SSTable × Int) group =>
          if groupScore env group > best.2 then (group, groupScore env group) else best)
        best).1 ∈ groups ∧
       (groups.foldl
        (fun (best : List SSTable × Int) group =>
          if groupScore env group > best.2 then (group, groupScore env group) else best)
        best).2 = groupScore env (groups.foldl
        (fun (best : List SSTable × Int) group =>
          if groupScore env group > best.2 then (group, groupScore env group) else best)
        best).1 ∧
       best.2 < (groups.foldl
        (fun (best : List SSTable × Int) group =>
          if groupScore env group > best.2 then (group, groupScore env group) else best)
        best).2)) ∧
    best.2 ≤ (groups.foldl
        (fun (best : List SSTable × Int) group =>
          if groupScore env group > best.2 then (group, groupScore env group) else best)
        best).2 ∧
    ∀ g ∈ groups, groupScore env g ≤ (groups.foldl
        (fun (best : List SSTable × Int) group =>
          if groupScore env group > best.2 then (group, groupScore env group) else best)
        best).2
  | [], best => by simp
  | g :: rest, best => by
    rw [List.foldl_cons]
    by_cases hg : groupScore env g > best.2
    · rw [if_pos hg]
      obtain ⟨h1, h2, h3⟩ := foldl_select env rest (g, groupScore env g)
      refine ⟨Or.inr ?_, ?_, ?_⟩
      · rcases h1 with h1 | ⟨h1, h1', h1''⟩
        · rw [h1]
          exact ⟨List.mem_cons_self _ _, rfl, hg⟩
        · refine ⟨List.mem_cons_of_mem _ h1, h1', ?_⟩
          simp only at h1''
          omega
      · simp only at h2
        omega
      · intro x hx
        rcases List.mem_cons.1 hx with rfl | hx
        · exact h2
        · exact h3 x hx
    · rw [if_neg hg]
      obtain ⟨h1, h2, h3⟩ := foldl_select env rest best
      refine ⟨?_, h2, ?_⟩
      · rcases h1 with h1 | ⟨h1, h1', h1''⟩
        · exact Or.inl h1
        · exact Or.inr ⟨List.mem_cons_of_mem _ h1, h1', h1''⟩
      · intro x hx
        rcases List.mem_cons.1 hx with rfl | hx
        · omega
        · exact h3 x hx

/-- When some bucket of the list has a positive `int64` score, the selected bucket is a
bucket of the list and no bucket of the list scores higher. -/
theorem select_max_of_positive (env : Env) (groups : List (List SSTable))
    (hpos : ∃ g ∈ groups, 0 < groupScore env g) :
    selectHighestReadHotnessScore env groups ∈ groups ∧
      ∀ g ∈ groups, groupScore env g ≤
        groupScore env (selectHighestReadHotnessScore env groups) := by
  obtain ⟨g, hg, hgpos⟩ := hpos
  unfold selectHighestReadHotnessScore
  obtain ⟨h1, _, h3⟩ := foldl_select env groups ([], 0)
  rcases h1 with h1 | ⟨h1, h1', _⟩
  · have := h3 g hg
    rw [h1] at this
    simp only at this
    omega
  · exact ⟨h1, fun x hx => by rw [← h1']; exact h3 x hx⟩

/-- C23. Selection among buckets that all score zero: when no run of any bucket has a
positive read-hotness score (every score is 0), `selectHighestReadHotnessScore` returns
the nil slice, which is none of the buckets when these are not empty. -/
theorem no_bucket_selected_when_scores_are_zero (env : Env) (groups : List (List SSTable))
    (hz : ∀ g ∈ groups, ∀ s ∈ g, env.hotness s = 0) (hne : ∀ g ∈ groups, g ≠ []) :
    selectHighestReadHotnessScore env groups = [] ∧
      selectHighestReadHotnessScore env groups ∉ groups := by
  have hscore : ∀ g ∈ groups, groupScore env g = 0 := by
    intro g hg
    have hnn : ∀ s ∈ g, 0 ≤ env.hotness s := fun s hs => by rw [hz g hg s hs]
    have ht : totalScore env g = 0 := by
      unfold totalScore
      exact List.sum_eq_zero (by simpa using hz g hg)
    rw [groupScore_eq env g hnn (by rw [ht]; decide), ht]
  have e : selectHighestReadHotnessScore env groups = [] := by
    unfold selectHighestReadHotnessScore
    obtain ⟨h1, h2, h3⟩ := foldl_select env groups ([], 0)
    rcases h1 with h1 | ⟨h1, h1', h1''⟩
    · rw [h1]
    · rw [hscore _ h1] at h1'
      simp only at h1''
      omega
  rw [e]
  exact ⟨rfl, fun hm => hne [] hm rfl⟩

end compaction

namespace compaction
open sstable

theorem no_bucket_selected_when_scores_are_zero_witness :
    selectHighestReadHotnessScore Env.cold
        [[runOfSize 0 18, runOfSize 1 18, runOfSize 2 18, runOfSize 3 18]] = [] ∧
      selectHighestReadHotnessScore Env.cold
        [[runOfSize 0 18, runOfSize 1 18, runOfSize 2 18, runOfSize 3 18]] ∉
        [[runOfSize 0 18, runOfSize 1 18, runOfSize 2 18, runOfSize 3 18]] :=
  no_bucket_selected_when_scores_are_zero Env.cold
    [[runOfSize 0 18, runOfSize 1 18, runOfSize 2 18, runOfSize 3 18]]
    (fun _ _ _ _ => rfl) (by simp)

end compaction

namespace compaction
open sstable

theorem totalSize_cons (x : SSTable) (l : List SSTable) :
    totalSize (x :: l) = x.Size + totalSize l := by
  simp [totalSize]

theorem totalSize_nonneg (l : List SSTable) (hnn : ∀ x ∈ l, 0 ≤ x.Size) : 0 ≤ totalSize l := by
  unfold totalSize
  exact List.sum_nonneg (by simpa using hnn)

theorem totalSize_perm {l l' : List SSTable} (h : l.Perm l') : totalSize l = totalSize l' := by
  unfold totalSize
  exact (h.map _).sum_eq

/-- The `int64` total of `checkAvailableDiskSpace` is the total of the sizes when these
are not negative and the total is below 2^63. -/
theorem foldl_size_eq : ∀ (l : List SSTable) (acc : Int), 0 ≤ acc →
    (∀ x ∈ l, 0 ≤ x.Size) → acc + totalSize l < 2 ^ 63 →
    l.foldl (fun total sst => wrapInt64 (total + sst.Size)) acc = acc + totalSize l
  | [], acc, _, _, _ => by simp [totalSize]
  | x :: rest, acc, h0, hnn, hlt => by
    have hx := hnn x (List.mem_cons_self _ _)
    have hr : ∀ y ∈ rest, 0 ≤ y.Size := fun y hy => hnn y (List.mem_cons_of_mem _ hy)
    have hrest := totalSize_nonneg rest hr
    rw [totalSize_cons] at hlt
    rw [List.foldl_cons, wrapInt64_eq _ (by omega) (by omega),
      foldl_size_eq rest _ (by omega) hr (by omega), totalSize_cons]
    omega

/-- The second loop of `checkAvailableDiskSpace` on the runs `l` still to come, with the
runs `kept` so far and `avail` bytes left: the runs it adds are picked from `l` in
order, they use up what is taken from the space left, the first run is picked when it
fits, and every run passed over is larger than the space left in the end. -/
theorem foldl_guard : ∀ (l kept : List SSTable) (avail : Int), 0 ≤ avail → avail < 2 ^ 63 →
    (∀ x ∈ l, 0 ≤ x.Size) →
    ∃ (picked : List SSTable) (left : Int),
      l.foldl
        (fun (acc : List SSTable × Int) sst =>
          if acc.2 ≥ sst.Size then (acc.1 ++ [sst], wrapInt64 (acc.2 - sst.Size)) else acc)
        (kept, avail) = (kept ++ picked, left) ∧
      picked.Sublist l ∧ 0 ≤ left ∧ left ≤ avail ∧ left + totalSize picked = avail ∧
      (∀ y ∈ l, y ∉ picked → left < y.Size) ∧
      (∀ x tl, l = x :: tl → x.Size ≤ avail → ∃ p, picked = x :: p)
  | [], kept, avail, h0, _, _ =>
    ⟨[], avail, by simp, List.Sublist.refl _, h0, le_rfl, by simp [totalSize], by simp,
      by simp⟩
  | x :: rest, kept, avail, h0, h1, hnn => by
    have hx := hnn x (List.mem_cons_self _ _)
    have hr : ∀ y ∈ rest, 0 ≤ y.Size := fun y hy => hnn y (List.mem_cons_of_mem _ hy)
    rw [List.foldl_cons]
    by_cases hfit : avail ≥ x.Size
    · simp only [hfit, if_true]
      rw [wrapInt64_eq _ (by omega) (by omega)]
      obtain ⟨picked, left, e, hsub, l0, l1, hsum, hdrop, _⟩ :=
        foldl_guard rest (kept ++ [x]) (avail - x.Size) (by omega) (by omega) hr
      refine ⟨x :: picked, left, ?_, hsub.cons₂ x, l0, by omega, ?_, ?_, ?_⟩
      · rw [e]
        simp
      · rw [totalSize_cons]
        omega
      · intro y hy hny
        simp only [List.mem_cons, not_or] at hy hny
        rcases hy with rfl | hy
        · exact absurd rfl hny.1
        · exact hdrop y hy hny.2
      · intro x' tl hl _
        simp only [List.cons.injEq] at hl
        exact ⟨picked, by rw [hl.1]⟩
    · simp only [hfit, if_false]
      obtain ⟨picked, left, e, hsub, l0, l1, hsum, hdrop, _⟩ :=
        foldl_guard rest kept avail h0 h1 hr
      refine ⟨picked, left, e, hsub.cons x, l0, l1, hsum, ?_, ?_⟩
      · intro y hy hny
        rcases List.mem_cons.1 hy with rfl | hy
        · omega
        · exact hdrop y hy hny
      · intro x' tl hl hle
        simp only [List.cons.injEq] at hl
        rw [← hl.1] at hle
        omega

end compaction

namespace compaction
open sstable

theorem checkAvailableDiskSpace_over (env : Env) (input : List SSTable)
    (hnn : ∀ x ∈ input, 0 ≤ x.Size) (hlt : totalSize input < 2 ^ 63)
    (hover : getAvailableDiskSpace < totalSize input) :
    checkAvailableDiskSpace env input =
      ((env.sortBySizeDesc.sort input).foldl
        (fun (acc : List SSTable × Int) sst =>
          if acc.2 ≥ sst.Size then (acc.1 ++ [sst], wrapInt64 (acc.2 - sst.Size)) else acc)
        ([], getAvailableDiskSpace)).1 := by
  unfold checkAvailableDiskSpace
  simp only
  rw [foldl_size_eq input 0 le_rfl hnn (by omega), zero_add, if_pos hover]

theorem checkAvailableDiskSpace_under (env : Env) (input : List SSTable)
    (hnn : ∀ x ∈ input, 0 ≤ x.Size) (hlt : totalSize input < 2 ^ 63)
    (hunder : ¬ getAvailableDiskSpace < totalSize input) :
    checkAvailableDiskSpace env input = input := by
  unfold checkAvailableDiskSpace
  simp only
  rw [foldl_size_eq input 0 le_rfl hnn (by omega), zero_add, if_neg hunder]

theorem sorted_nonneg (env : Env) (input : List SSTable) (hnn : ∀ x ∈ input, 0 ≤ x.Size) :
    ∀ x ∈ env.sortBySizeDesc.sort input, 0 ≤ x.Size :=
  fun x hx => hnn x ((env.sortBySizeDesc.perm input).subset hx)

/-- C25. Disk-space guard result fits and keeps whole runs: for every selection of runs
with sizes that are not negative (and a total below 2^63, the range of the `int64` sum),
the list `checkAvailableDiskSpace` returns has a total size of at most the available disk
space, 1 GiB, and is a sub-collection of the selection: each returned run is a run of
the selection and none is returned more often than it occurs there. -/
theorem disk_guard_fits_and_keeps_whole_runs (env : Env) (input : List SSTable)
    (hnn : ∀ x ∈ input, 0 ≤ x.Size) (hlt : totalSize input < 2 ^ 63) :
    totalSize (checkAvailableDiskSpace env input) ≤ 1024 * 1024 * 1024 ∧
      (checkAvailableDiskSpace env input).Subperm input := by
  by_cases hover : getAvailableDiskSpace < totalSize input
  · rw [checkAvailableDiskSpace_over env input hnn hlt hover]
    obtain ⟨picked, left, e, hsub, l0, _, hsum, _, _⟩ :=
      foldl_guard (env.sortBySizeDesc.sort input) [] getAvailableDiskSpace (by decide)
        (by decide) (sorted_nonneg env input hnn)
    rw [e]
    simp only [List.nil_append]
    refine ⟨?_, hsub.subperm.trans (env.sortBySizeDesc.perm input).subperm⟩
    have : getAvailableDiskSpace = 1024 * 1024 * 1024 := rfl
    omega
  · rw [checkAvailableDiskSpace_under env input hnn hlt hover]
    refine ⟨?_, List.Subperm.refl _⟩
    have : getAvailableDiskSpace = 1024 * 1024 * 1024 := rfl
    omega

theorem disk_guard_fits_and_keeps_whole_runs_witness :
    totalSize (checkAvailableDiskSpace Env.simple
      [runOfSize 0 (700 * MiB), runOfSize 1 (200 * MiB), runOfSize 2 (400 * MiB)]) ≤
        1024 * 1024 * 1024 ∧
    (checkAvailableDiskSpace Env.simple
      [runOfSize 0 (700 * MiB), runOfSize 1 (200 * MiB), runOfSize 2 (400 * MiB)]).Subperm
      [runOfSize 0 (700 * MiB), runOfSize 1 (200 * MiB), runOfSize 2 (400 * MiB)] :=
  disk_guard_fits_and_keeps_whole_runs Env.simple
    [runOfSize 0 (700 * MiB), runOfSize 1 (200 * MiB), runOfSize 2 (400 * MiB)]
    (by simp [runOfSize, SSTable.Size, MiB]) (by decide)

end compaction

namespace lsmtree

/-- A result of `insert` does not depend on the bound of the recursion depth: a larger
bound gives the same result. -/
theorem MemTable.insert_fuel_succ : ∀ (fuel : Nat) (heap : Heap) (node : Option Nat)
    (key value : GoString) (r : Heap × Option Nat × Int),
    MemTable.insert fuel heap node key value = .done r →
    MemTable.insert (fuel + 1) heap node key value = .done r
  | 0, _, _, _, _, _, h => by simp [MemTable.insert] at h
  | fuel + 1, heap, none, key, value, r, h => by
    simpa [MemTable.insert] using h
  | fuel + 1, heap, some node, key, value, r, h => by
    simp only [MemTable.insert] at h ⊢
    split_ifs at h ⊢ with h1 h2
    · cases hrec : MemTable.insert fuel heap (deref heap node).Left key value with
      | done a =>
        rw [MemTable.insert_fuel_succ fuel _ _ _ _ a hrec]
        rw [hrec] at h
        exact h
      | panicked => rw [hrec] at h; cases h
      | outOfFuel => rw [hrec] at h; cases h
    · cases hrec : MemTable.insert fuel heap (deref heap node).Right key value with
      | done a =>
        rw [MemTable.insert_fuel_succ fuel _ _ _ _ a hrec]
        rw [hrec] at h
        exact h
      | panicked => rw [hrec] at h; cases h
      | outOfFuel => rw [hrec] at h; cases h
    · exact h

theorem MemTable.insert_fuel_add (fuel : Nat) (heap : Heap) (node : Option Nat)
    (key value : GoString) (r : Heap × Option Nat × Int)
    (h : MemTable.insert fuel heap node key value = .done r) :
    ∀ n, MemTable.insert (fuel + n) heap node key value = .done r
  | 0 => h
  | n + 1 => MemTable.insert_fuel_succ _ _ _ _ _ _ (MemTable.insert_fuel_add fuel heap node key value r h n)

/-- A result of `get` does not depend on the bound of the recursion depth. -/
theorem MemTable.get_fuel_succ : ∀ (fuel : Nat) (heap : Heap) (node : Option Nat)
    (key : GoString) (r : GoString × Bool),
    MemTable.get fuel heap node key = .done r → MemTable.get (fuel + 1) heap node key = .done r
  | 0, _, _, _, _, h => by simp [MemTable.get] at h
  | fuel + 1, heap, none, key, r, h => by
    simpa [MemTable.get] using h
  | fuel + 1, heap, some node, key, r, h => by
    simp only [MemTable.get] at h ⊢
    split_ifs at h ⊢ with h1 h2
    · exact MemTable.get_fuel_succ fuel _ _ _ r h
    · exact MemTable.get_fuel_succ fuel _ _ _ r h
    · exact h

theorem MemTable.get_fuel_add (fuel : Nat) (heap : Heap) (node : Option Nat)
    (key : GoString) (r : GoString × Bool) (h : MemTable.get fuel heap node key = .done r) :
    ∀ n, MemTable.get (fuel + n) heap node key = .done r
  | 0 => h
  | n + 1 => MemTable.get_fuel_succ _ _ _ _ _ (MemTable.get_fuel_add fuel heap node key r h n)

theorem MemTable.Put_fuel_add (mt mt' : MemTable) (fuel : Nat) (periodOver : Bool)
    (key value : GoString) (h : mt.Put fuel periodOver key value = .done mt') (n : Nat) :
    mt.Put (fuel + n) periodOver key value = .done mt' := by
  unfold MemTable.Put at h ⊢
  simp only at h ⊢
  split at h
  · rename_i heap root sizeChange hins
    rw [MemTable.insert_fuel_add fuel _ _ _ _ _ hins n]
    exact h
  · cases h
  · cases h

theorem MemTable.putAll_fuel_add (fuel n : Nat) :
    ∀ (puts : List (Bool × GoString × GoString)) (mt mt' : MemTable),
      MemTable.putAll fuel mt puts = .done mt' → MemTable.putAll (fuel + n) mt puts = .done mt'
  | [], _, _, h => h
  | (periodOver, key, value) :: rest, mt, mt', h => by
    simp only [MemTable.putAll] at h ⊢
    cases hput : mt.Put fuel periodOver key value with
    | done mt1 =>
      rw [hput] at h
      rw [MemTable.Put_fuel_add mt mt1 fuel periodOver key value hput n]
      exact MemTable.putAll_fuel_add fuel n rest mt1 mt' h
    | panicked => rw [hput] at h; cases h
    | outOfFuel => rw [hput] at h; cases h

/-- In the memory that `Put` of "c", "b", "a" leaves (node "c" at address 0 with
`Left` = 1, node "b" at address 1 with `Left` = 0), `get` for the key "a" goes from "b"
to "c" and back to "b" and never comes to an end. -/
theorem get_cycle (hb hc : Int) (n2 : TreeNode) : ∀ fuel : Nat,
    MemTable.get fuel
      [{ key := [99], value := [51], Left := some 1, Right := none, height := hc },
       { key := [98], value := [50], Left := some 0, Right := none, height := hb }, n2]
      (some 1) [97] = .outOfFuel ∧
    MemTable.get fuel
      [{ key := [99], value := [51], Left := some 1, Right := none, height := hc },
       { key := [98], value := [50], Left := some 0, Right := none, height := hb }, n2]
      (some 0) [97] = .outOfFuel
  | 0 => ⟨rfl, rfl⟩
  | fuel + 1 => by
    obtain ⟨h1, h0⟩ := get_cycle hb hc n2 fuel
    have l1 : tree.strLess [97] [98] = true := by decide
    have l0 : tree.strLess [97] [99] = true := by decide
    constructor
    · simp only [MemTable.get, deref, List.getD_cons_succ, List.getD_cons_zero, l1, if_true]
      exact h0
    · simp only [MemTable.get, deref, List.getD_cons_zero, l0, if_true]
      exact h1

/-- C29. Puts on a new `lsmtree.MemTable` with a right rotation: after `Put("c", "3")`,
`Put("b", "2")`, `Put("a", "1")` on the table of `main` (whatever the clock answers in
`shouldFlush`), all three calls return, and then `Get("c")` returns `("", false)`: the
key "c" that was put is not found.  (`n` is what the bound of the recursion depth has
above the least that suffices.) -/
theorem put_c_b_a_loses_c (n : Nat) (p1 p2 p3 : Bool) :
    ((mainTable.putAll (3 + n) [(p1, [99], [51]), (p2, [98], [50]), (p3, [97], [49])]).bind
      fun mt => mt.Get (2 + n) [99]) = .done ([], false) := by
  have base : ∀ p1 p2 p3 : Bool,
      ((mainTable.putAll 3 [(p1, [99], [51]), (p2, [98], [50]), (p3, [97], [49])]).bind
        fun mt => mt.Get 2 [99]) = .done ([], false) := by decide
  have b := base p1 p2 p3
  cases hput : mainTable.putAll 3 [(p1, [99], [51]), (p2, [98], [50]), (p3, [97], [49])] with
  | done mt =>
    rw [hput] at b
    rw [MemTable.putAll_fuel_add 3 n _ _ mt hput]
    exact MemTable.get_fuel_add 2 _ _ _ _ b n
  | panicked => rw [hput] at b; cases b
  | outOfFuel => rw [hput] at b; cases b

/-- After the same three calls `Get("a")` does not return: with every bound on the depth
of the recursion of `get`, the bound is used up. -/
theorem put_c_b_a_get_a_never_returns (fuel : Nat) (p1 p2 p3 : Bool) :
    ((mainTable.putAll 3 [(p1, [99], [51]), (p2, [98], [50]), (p3, [97], [49])]).bind
      fun mt => mt.Get fuel [97]) = .outOfFuel := by
  have base : ∀ p1 p2 p3 : Bool,
      (mainTable.putAll 3 [(p1, [99], [51]), (p2, [98], [50]), (p3, [97], [49])]).bind
        (fun mt => Run.done (mt.heap, mt.root)) = .done
        ([{ key := [99], value := [51], Left := some 1, Right := none, height := 3 },
          { key := [98], value := [50], Left := some 0, Right := none, height := 4 },
          { key := [97], value := [49], Left := none, Right := none, height := 1 }], some 1) := by
    decide
  have b := base p1 p2 p3
  cases hput : mainTable.putAll 3 [(p1, [99], [51]), (p2, [98], [50]), (p3, [97], [49])] with
  | done mt =>
    rw [hput] at b
    simp only [Run.bind, Run.done.injEq, Prod.mk.injEq] at b ⊢
    unfold MemTable.Get
    rw [b.1, b.2]
    exact (get_cycle 4 3 _ fuel).1
  | panicked => rw [hput] at b; cases b
  | outOfFuel => rw [hput] at b; cases b

end lsmtree

namespace compaction
open sstable

/-- The merge of the two runs written from {"a": "1"} and {"b": "2"} leaves an output
file that holds the entry of "b" alone, and reading "a" from the output run returns "2",
not "1".  The merge of the two runs written from {"a": "1"} and {"a": "2"} leaves an
output run of size 36, the two entries of 18 bytes that were emitted for the one key. -/
theorem merge_dedup_counterexample :
    (mergeOf Env.simple [([([97], [49])], RangeOrder.id), ([([98], [50])], RangeOrder.id)]).map
      (fun r => (r.1.Read r.2 [97], r.2.files .output)) =
      some (some ([50], true), some (entryBytes [98] [50])) ∧
    (mergeOf Env.simple [([([97], [49])], RangeOrder.id), ([([97], [50])], RangeOrder.id)]).map
      (fun r => r.1.Size) = some 36 := by
  decide

end compaction

namespace sstable

theorem length_fileOf_cons (e : GoString × GoString) (rest : List (GoString × GoString)) :
    (fileOf (e :: rest)).length = 8 + 8 + e.1.length + e.2.length + (fileOf rest).length := by
  simp only [fileOf, List.length_append, length_entryBytes]

/-- `Next` on a scanner in front of the entries `e :: rest` returns `e` and leaves the
scanner in front of `rest`. -/
theorem Scanner.Next_before (sc : Scanner) (fs : FS) (e : GoString × GoString)
    (rest : List (GoString × GoString)) (hb : sc.Before fs (e :: rest)) :
    ∃ sc', sc.Next fs = some (e, sc') ∧ sc'.Before fs rest := by
  obtain ⟨hn, hu, hs, hz⟩ := hb
  have hk := (hz e (List.mem_cons_self _ _)).1
  have hv := (hz e (List.mem_cons_self _ _)).2
  have e0 : fileOf (e :: rest) =
      i64le e.1.length ++ (i64le e.2.length ++ (e.1 ++ (e.2 ++ fileOf rest))) := by
    simp [fileOf, entryBytes]
  have n1 : ¬ ((e.1.length : Int) < 0 ∨ (e.2.length : Int) < 0) := by omega
  have hlen := length_fileOf_cons e rest
  refine ⟨{ sc with
      pos := sc.pos + ((fileOf (e :: rest)).length - (fileOf rest).length)
      offset := sc.offset + (8 + 8 + (e.1.length : Int) + (e.2.length : Int)) }, ?_, ?_⟩
  · simp only [Scanner.Next, hu]
    rw [e0]
    simp only [readInt64_i64le _ hk, readInt64_i64le _ hv, n1, if_false, Int.toNat_ofNat,
      fileRead_append]
  · refine ⟨hn, ?_, ?_, fun x hx => hz x (List.mem_cons_of_mem _ hx)⟩
    · simp only [Scanner.unread] at hu ⊢
      have hd : List.drop ((fileOf (e :: rest)).length - (fileOf rest).length)
          (fileOf (e :: rest)) = fileOf rest := by
        rw [fileOf]
        exact List.drop_left' (by simp only [List.length_append]; omega)
      have hdd : ∀ (l : List Byte) (a b : Nat), l.drop (a + b) = (l.drop a).drop b := by
        intro l a b
        rw [List.drop_drop, Nat.add_comm]
      rw [hdd, hu, hd]
    · simp only [SSTable.Size] at hs ⊢
      omega

theorem Scanner.Before_congr (sc : Scanner) (fs fs' : FS) (rest : List (GoString × GoString))
    (h : ∀ n, n ≠ FileName.output → fs'.files n = fs.files n) (hb : sc.Before fs rest) :
    sc.Before fs' rest := by
  obtain ⟨hn, hu, hs, hz⟩ := hb
  refine ⟨hn, ?_, hs, hz⟩
  rw [← hu]
  simp only [Scanner.unread, h _ hn]

theorem Scanner.Before_hasNext (sc : Scanner) (fs : FS) (rest : List (GoString × GoString))
    (hb : sc.Before fs rest) : sc.HasNext = true ↔ rest ≠ [] := by
  obtain ⟨_, _, hs, _⟩ := hb
  simp only [Scanner.HasNext, decide_eq_true_eq]
  cases rest with
  | nil =>
    simp only [fileOf, List.length_nil] at hs
    simp only [ne_eq, not_true_eq_false, iff_false]
    omega
  | cons e rest =>
    rw [length_fileOf_cons] at hs
    simp only [ne_eq, reduceCtorEq, not_false_eq_true, iff_true]
    omega

/-- `Write` of the one-entry map `{key: value}` on the output run, when `output.sst` can
be created. -/
theorem Write_one (out : SSTable) (fs : FS) (e : GoString × GoString)
    (ho : out.filename = .output) (hd : fs.denied .output = false) :
    (out.Write fs [e] RangeOrder.id).1.filename = .output ∧
    (out.Write fs [e] RangeOrder.id).1.Size = out.Size + (8 + 8 + e.1.length + e.2.length : Nat) ∧
    (∀ k, ((out.Write fs [e] RangeOrder.id).1.index k).isSome ↔
      (k = e.1 ∨ (out.index k).isSome)) ∧
    (out.Write fs [e] RangeOrder.id).2.1.denied .output = false ∧
    ∀ n, n ≠ FileName.output → (out.Write fs [e] RangeOrder.id).2.1.files n = fs.files n := by
  simp only [SSTable.Write, ho, hd, Bool.false_eq_true, if_false, RangeOrder.id,
    List.foldl_cons, List.foldl_nil, writeStep, SSTable.Size, FS.put]
  refine ⟨trivial, by simp, ?_, trivial, ?_⟩
  · intro k
    by_cases hk : k = e.1
    · simp [hk]
    · simp [hk]
  · intro n hn
    simp [hn]

end sstable

namespace compaction
open sstable

theorem exists_split_at {α : Type} : ∀ (l : List α) (i : Nat), i < l.length →
    ∃ T x D, l = T ++ x :: D ∧ T.length = i
  | [], _, h => by simp at h
  | x :: l, 0, _ => ⟨[], x, l, rfl, rfl⟩
  | x :: l, i + 1, h => by
    obtain ⟨T, y, D, e, ht⟩ := exists_split_at l i (by simpa using h)
    exact ⟨x :: T, y, D, by rw [e]; rfl, by simp [ht]⟩

theorem queuedBytes_append : ∀ (q1 q2 : List (Scanner × List (GoString × GoString))),
    queuedBytes (q1 ++ q2) = queuedBytes q1 + queuedBytes q2
  | [], q2 => by simp [queuedBytes]
  | p :: q, q2 => by
    rw [List.cons_append, queuedBytes, queuedBytes, queuedBytes_append q q2]
    omega

theorem queuedKeys_append : ∀ (q1 q2 : List (Scanner × List (GoString × GoString))),
    queuedKeys (q1 ++ q2) = queuedKeys q1 ++ queuedKeys q2
  | [], q2 => by simp [queuedKeys]
  | p :: q, q2 => by
    rw [List.cons_append, queuedKeys, queuedKeys, queuedKeys_append q q2, List.append_assoc]

/-- One round of the merge loop: the scanner that `heap.Pop` takes stands between the
scanners `T` and `D` of the queue. -/
theorem mergeLoop_step (pop : List Scanner → Nat) (fuel : Nat) (L T D : List Scanner)
    (sc sc' : Scanner) (entry : GoString × GoString) (out : SSTable) (fs : FS)
    (hL : L = T ++ sc :: D) (hT : T.length = pop L % L.length)
    (hnext : sc.Next fs = some (entry, sc')) :
    mergeLoop pop (fuel + 1) L out fs =
      mergeLoop pop fuel (if sc'.HasNext then T ++ D ++ [sc'] else T ++ D)
        (out.Write fs [entry] RangeOrder.id).1 (out.Write fs [entry] RangeOrder.id).2.1 := by
  cases L with
  | nil => simp at hL
  | cons sc0 rest =>
    simp only [mergeLoop]
    rw [← hT]
    have hdrop : (sc0 :: rest).drop T.length = sc :: D := by
      rw [hL]
      exact List.drop_left' rfl
    have htake : (sc0 :: rest).take T.length = T := by
      rw [hL]
      exact List.take_left' rfl
    rw [hdrop, htake]
    simp only [hnext]

/-- The merge loop on a queue of scanners that each stand in front of entries of their
run: it returns, the size of the output run grows by the bytes of all these entries,
and the index of the output run gains exactly their keys. -/
theorem mergeLoop_emits (pop : List Scanner → Nat) :
    ∀ (fuel : Nat) (q : List (Scanner × List (GoString × GoString))) (out : SSTable) (fs : FS),
      out.filename = .output → fs.denied .output = false →
      (∀ p ∈ q, p.1.Before fs p.2 ∧ p.2 ≠ []) → queuedBytes q < fuel →
      ∃ out' fs', mergeLoop pop fuel (q.map Prod.fst) out fs = some (.returned (out', fs') none) ∧
        out'.Size = out.Size + (queuedBytes q : Int) ∧
        ∀ k, (out'.index k).isSome ↔ ((out.index k).isSome ∨ k ∈ queuedKeys q)
  | 0, _, _, _, _, _, _, h => by omega
  | fuel + 1, [], out, fs, _, _, _, _ =>
    ⟨out, fs, by simp [mergeLoop], by simp [queuedBytes], by simp [queuedKeys]⟩
  | fuel + 1, p0 :: qs, out, fs, ho, hd, hq, hlt => by
    have hi : pop ((p0 :: qs).map Prod.fst) % ((p0 :: qs).map Prod.fst).length <
        (p0 :: qs).length := by
      have := Nat.mod_lt (pop ((p0 :: qs).map Prod.fst))
        (show 0 < ((p0 :: qs).map Prod.fst).length by simp)
      simpa using this
    obtain ⟨T, x, D, hsplit, hT⟩ := exists_split_at (p0 :: qs) _ hi
    rw [hsplit] at hq hlt ⊢
    rw [hsplit] at hT
    obtain ⟨sc, es⟩ := x
    have hx := hq (sc, es) (by simp)
    obtain ⟨hbx, hne⟩ := hx
    cases es with
    | nil => exact absurd rfl hne
    | cons e rest =>
      obtain ⟨sc', hnext, hb'⟩ := Scanner.Next_before sc fs e rest hbx
      obtain ⟨w1, w2, w3, w4, w5⟩ := Write_one out fs e ho hd
      have hstep := mergeLoop_step pop fuel ((T ++ (sc, e :: rest) :: D).map Prod.fst)
        (T.map Prod.fst) (D.map Prod.fst) sc sc' e out fs (by simp)
        (by rw [List.length_map]; exact hT) hnext
      rw [hstep]
      have hqT : ∀ p ∈ T, p.1.Before (out.Write fs [e] RangeOrder.id).2.1 p.2 ∧ p.2 ≠ [] :=
        fun p hp => ⟨Scanner.Before_congr _ _ _ _ w5 (hq p (by simp [hp])).1,
          (hq p (by simp [hp])).2⟩
      have hqD : ∀ p ∈ D, p.1.Before (out.Write fs [e] RangeOrder.id).2.1 p.2 ∧ p.2 ≠ [] :=
        fun p hp => ⟨Scanner.Before_congr _ _ _ _ w5 (hq p (by simp [hp])).1,
          (hq p (by simp [hp])).2⟩
      have hb1 := Scanner.Before_congr _ _ _ _ w5 hb'
      have hlen := length_fileOf_cons e rest
      simp only [queuedBytes_append, queuedBytes, queuedKeys_append, queuedKeys, List.map_cons]
        at hlt ⊢
      by_cases hr : rest = []
      · have hno : sc'.HasNext = false := by
          rw [← Bool.not_eq_true, Scanner.Before_hasNext sc' fs rest hb']
          simp [hr]
        have hfr : (fileOf rest).length = 0 := by rw [hr]; rfl
        obtain ⟨out', fs', h1, h2, h3⟩ := mergeLoop_emits pop fuel (T ++ D) _ _ w1 w4
          (fun p hp => (List.mem_append.1 hp).elim (hqT p) (hqD p))
          (by rw [queuedBytes_append]; omega)
        refine ⟨out', fs', ?_, ?_, ?_⟩
        · rw [hno]
          simpa using h1
        · rw [h2, w2, queuedBytes_append]
          push_cast
          omega
        · intro k
          rw [h3 k, w3 k, queuedKeys_append, hr]
          simp only [List.mem_append, List.map_nil, List.mem_cons, List.not_mem_nil, or_false]
          tauto
      · have hyes : sc'.HasNext = true :=
          (Scanner.Before_hasNext sc' fs rest hb').2 hr
        obtain ⟨out', fs', h1, h2, h3⟩ := mergeLoop_emits pop fuel (T ++ D ++ [(sc', rest)])
          _ _ w1 w4
          (fun p hp => by
            rcases List.mem_append.1 hp with hp | hp
            · exact (List.mem_append.1 hp).elim (hqT p) (hqD p)
            · rw [List.mem_singleton.1 hp]
              exact ⟨hb1, hr⟩)
          (by simp only [queuedBytes_append, queuedBytes]; omega)
        refine ⟨out', fs', ?_, ?_, ?_⟩
        · rw [hyes]
          simpa using h1
        · rw [h2, w2]
          simp only [queuedBytes_append, queuedBytes]
          push_cast
          omega
        · intro k
          rw [h3 k, w3 k]
          simp only [queuedKeys_append, queuedKeys, List.mem_append, List.map_cons,
            List.mem_cons, List.append_nil]
          tauto

end compaction

namespace compaction
open sstable

theorem toGo_sum : ∀ (q : List (Scanner × List (GoString × GoString))) (fs : FS),
    (∀ p ∈ q, p.1.Before fs p.2) → ((q.map Prod.fst).map Scanner.toGo).sum = queuedBytes q
  | [], _, _ => rfl
  | p :: q, fs, h => by
    obtain ⟨_, _, hs, _⟩ := h p (List.mem_cons_self _ _)
    simp only [List.map_cons, List.sum_cons, queuedBytes,
      toGo_sum q fs (fun x hx => h x (List.mem_cons_of_mem _ hx)), Scanner.toGo, hs,
      Int.toNat_ofNat]

/-- The scanners that `mergeSSTables` queues for runs written as `WrittenRun` says: one
at the start of each run that is not empty. -/
theorem open_filter (fs : FS) : ∀ (runs : List (SSTable × List (GoString × GoString))),
    (∀ p ∈ runs, WrittenRun fs p) →
    ∃ (scs : List Scanner) (q : List (Scanner × List (GoString × GoString))),
      openScanners fs (runs.map Prod.fst) = some scs ∧
      scs.filter Scanner.HasNext = q.map Prod.fst ∧
      (∀ p ∈ q, p.1.Before fs p.2 ∧ p.2 ≠ []) ∧
      (queuedBytes q : Int) = totalSize (runs.map Prod.fst) ∧
      ∀ k, k ∈ queuedKeys q ↔ ∃ p ∈ runs, k ∈ p.2.map Prod.fst
  | [], _ => ⟨[], [], rfl, rfl, by simp, by simp [queuedBytes, totalSize], by simp [queuedKeys]⟩
  | (sst, es) :: runs, h => by
    obtain ⟨scs, q, h1, h2, h3, h4, h5⟩ :=
      open_filter fs runs (fun p hp => h p (List.mem_cons_of_mem _ hp))
    obtain ⟨hn, hf, hs, hz⟩ := h (sst, es) (List.mem_cons_self _ _)
    simp only at hn hf hs hz
    have hb : Scanner.Before { sstable := sst, pos := 0, offset := 0 } fs es :=
      ⟨hn, by simp [Scanner.unread, hf], by simpa using hs, hz⟩
    have hopen : openScanners fs (((sst, es) :: runs).map Prod.fst) =
        some ({ sstable := sst, pos := 0, offset := 0 } :: scs) := by
      simp [openScanners, SSTable.NewScanner, hf, h1]
    by_cases he : es = []
    · have hno : Scanner.HasNext { sstable := sst, pos := 0, offset := 0 } = false := by
        rw [← Bool.not_eq_true, Scanner.Before_hasNext _ fs es hb]
        simp [he]
      refine ⟨_, q, hopen, ?_, h3, ?_, ?_⟩
      · rw [List.filter_cons_of_neg (by simp [hno]), h2]
      · rw [h4, List.map_cons, totalSize_cons, hs, he]
        simp [fileOf]
      · intro k
        rw [h5 k]
        simp [he]
    · have hyes : Scanner.HasNext { sstable := sst, pos := 0, offset := 0 } = true :=
        (Scanner.Before_hasNext _ fs es hb).2 he
      refine ⟨_, ({ sstable := sst, pos := 0, offset := 0 }, es) :: q, hopen, ?_, ?_, ?_, ?_⟩
      · rw [List.filter_cons_of_pos hyes, h2]
        rfl
      · intro p hp
        rcases List.mem_cons.1 hp with rfl | hp
        · exact ⟨hb, he⟩
        · exact h3 p hp
      · rw [queuedBytes, List.map_cons, totalSize_cons, hs]
        push_cast
        omega
      · intro k
        rw [queuedKeys, List.mem_append, h5 k]
        simp

/-- The counters of the output run after a merge: `mergeSSTables` on input runs that were
each written by one `Write` (and with `output.sst` open to creation) returns the nil
error, the size of the output run is the sum of the sizes of the input runs (no entry is
left out for a key that was met before), and the keys in the index of the output run are
exactly the keys of the input runs. -/
theorem merge_emits_every_entry (env : Env) (fs : FS)
    (runs : List (SSTable × List (GoString × GoString)))
    (hd : fs.denied .output = false) (hruns : ∀ p ∈ runs, WrittenRun fs p) :
    ∃ out fs', mergeSSTables env (runs.map Prod.fst) fs = some (.returned (out, fs') none) ∧
      out.Size = totalSize (runs.map Prod.fst) ∧
      ∀ k, (out.index k).isSome ↔ ∃ p ∈ runs, k ∈ p.2.map Prod.fst := by
  obtain ⟨scs, q, h1, h2, h3, h4, h5⟩ := open_filter fs runs hruns
  have hfuel : queuedBytes q < mergeFuel (q.map Prod.fst) := by
    unfold mergeFuel
    rw [toGo_sum q fs (fun p hp => (h3 p hp).1)]
    omega
  obtain ⟨out, fs', m1, m2, m3⟩ := mergeLoop_emits env.pop _ q (NewSSTable .output) fs rfl hd
    h3 hfuel
  refine ⟨out, fs', ?_, ?_, ?_⟩
  · simp only [mergeSSTables, h1, h2]
    exact m1
  · rw [m2, h4]
    simp [NewSSTable, SSTable.Size]
  · intro k
    rw [m3 k, h5 k]
    simp [NewSSTable]

theorem merge_emits_every_entry_witness :
    ∃ out fs', mergeSSTables Env.simple (twoRuns.map Prod.fst) twoRunsFS =
        some (.returned (out, fs') none) ∧
      out.Size = totalSize (twoRuns.map Prod.fst) ∧
      ∀ k, (out.index k).isSome ↔ ∃ p ∈ twoRuns, k ∈ p.2.map Prod.fst :=
  merge_emits_every_entry Env.simple twoRunsFS twoRuns (by decide) (by
    intro p hp
    simp only [twoRuns, List.mem_cons, List.mem_singleton, List.not_mem_nil, or_false] at hp
    rcases hp with rfl | rfl
    · exact ⟨by decide, by decide, by decide, by decide⟩
    · exact ⟨by decide, by decide, by decide, by decide⟩)

end compaction

namespace compaction
open sstable

/-- With at most one scanner in the queue the merge loop does not depend on the order in
which `heap.Pop` yields scanners. -/
theorem mergeLoop_single (pop pop' : List Scanner → Nat) :
    ∀ (fuel : Nat) (q : List Scanner) (out : SSTable) (fs : FS), q.length ≤ 1 →
      mergeLoop pop fuel q out fs = mergeLoop pop' fuel q out fs
  | 0, _, _, _, _ => rfl
  | _ + 1, [], _, _, _ => rfl
  | fuel + 1, [sc], out, fs, _ => by
    simp only [mergeLoop, List.length_singleton, Nat.mod_one, List.drop_zero, List.take_zero,
      List.nil_append]
    cases sc.Next fs with
    | none => rfl
    | some r =>
      obtain ⟨entry, sc'⟩ := r
      simp only
      split
      · exact mergeLoop_single pop pop' fuel [sc'] _ _ (by simp)
      · exact mergeLoop_single pop pop' fuel [] _ _ (by simp)
  | _ + 1, _ :: _ :: _, _, _, h => by simp at h

/-- The merge of a single input run is the same for every environment. -/
theorem mergeSSTables_single (env env' : Env) (sst : SSTable) (fs : FS) :
    mergeSSTables env [sst] fs = mergeSSTables env' [sst] fs := by
  unfold mergeSSTables
  simp only [openScanners]
  cases sst.NewScanner fs with
  | none => rfl
  | some sc =>
    simp only [Option.map_some']
    apply mergeLoop_single
    by_cases h : sc.HasNext = true
    · simp [List.filter, h]
    · simp [List.filter, h]

theorem mergeOf_single (env env' : Env) (data : GoMap) (range : RangeOrder) :
    mergeOf env [(data, range)] = mergeOf env' [(data, range)] := by
  unfold mergeOf
  simp only [createAll, SSTableManager.CreateSSTable, NewSSTableManager, List.length_nil,
    List.nil_append]
  generalize (NewSSTable (FileName.sstable 0)).Write FS.empty data range = w
  obtain ⟨sst, fs, err⟩ := w
  cases err with
  | some e => rfl
  | none =>
    simp only [SSTableManager.GetSSTables]
    rw [mergeSSTables_single env env' sst fs]

/-- C26. Merge of one run without duplicate keys: for the run that `CreateSSTable` wrote
from {"a": "1", "b": "2", "c": "3"} (entries in this order), `mergeSSTables` returns the
nil error, whatever the order of `heap.Pop`, and then the file `output.sst` holds the
entry of "c" alone and reading "a", "b" or "c" from the output run returns "3": the keys
"a" and "b" do not read back with their values. -/
theorem merge_output_holds_last_entry_only (env : Env) :
    (mergeOf env [([([97], [49]), ([98], [50]), ([99], [51])], RangeOrder.id)]).map
      (fun r => r.1.Read r.2 [97]) = some (some ([51], true)) ∧
    (mergeOf env [([([97], [49]), ([98], [50]), ([99], [51])], RangeOrder.id)]).map
      (fun r => r.1.Read r.2 [98]) = some (some ([51], true)) ∧
    (mergeOf env [([([97], [49]), ([98], [50]), ([99], [51])], RangeOrder.id)]).map
      (fun r => r.1.Read r.2 [99]) = some (some ([51], true)) ∧
    (mergeOf env [([([97], [49]), ([98], [50]), ([99], [51])], RangeOrder.id)]).map
      (fun r => r.2.files .output) = some (some (entryBytes [99] [51])) := by
  rw [mergeOf_single env Env.simple]
  refine ⟨by decide, by decide, by decide, by decide⟩

end compaction
